import Mathlib

/-!
Verification development for the `rate_converter` repository (`src/main.cpp`).

The program answers currency-conversion queries over a universe of currency
identifiers `[0, MAX_CUR_NUMBER)`.  Two implementations of one interface are
embedded here:

* `Converter` — the dense implementation: a `2000 × 2000` routing table built
  by an incremental all-pairs relaxation, one edge at a time
  (`Converter.init`, main.cpp lines 42-87) and a per-query table walk
  (`Converter.convert`, lines 91-120).
* `BFSConverter` — the sparse implementation: per-node adjacency maps plus a
  breadth-first search from every node (`BFSConverter.init`, lines 144-199)
  and the analogous walk over the maps (`BFSConverter.convert`, lines 203-234).

Modelling conventions:
* `double` amounts and rates are modelled by `ℚ` (exact arithmetic).
* A rate provider (`RateFn`, a zero-argument callable) is pure for the
  duration of one query, so it is modelled by the value it returns at query
  time.  The reserved value `0` means "rate unavailable".
* `uint32_t` distance arithmetic wraps modulo `2 ^ 32`; the wrap is written
  explicitly where the sum occurs.  `static_cast<int32_t>(rates.size())` is
  modelled by `toInt32`.
* The `do … while` query loops of both `convert` functions need not terminate
  on an arbitrary table, so the embedded walks carry fuel and return `none`
  exactly when the C++ loop would still be running after that many
  iterations; `MAX_CUR_NUMBER` iterations are ample for every table `init`
  can build.
* `std::unordered_map` iterates in an unspecified order.  The embedding uses
  association lists in insertion order (one conforming realisation); results
  that depend on this order are nondeterministic in the source.
-/

/-- `const uint32_t MAX_CUR_NUMBER = 2000` (main.cpp line 10). -/
def MAX_CUR_NUMBER : ℕ := 2000

/-- `std::numeric_limits<uint32_t>::max()`, the unreachable-distance marker
(main.cpp line 56). -/
def UNREACHABLE : ℕ := 2 ^ 32 - 1

/-- `static_cast<int32_t>(n)` for a non-negative size `n`: two's-complement
wrap into `[-2^31, 2^31)`. -/
def toInt32 (n : ℕ) : ℤ :=
  if n % 2 ^ 32 < 2 ^ 31 then (n % 2 ^ 32 : ℕ) else (n % 2 ^ 32 : ℕ) - 2 ^ 32

/-- A directly quoted rate edge (`struct ConvertRate`, main.cpp lines 14-19).
`rateFn` is the value the provider returns at query time (`0` = unavailable).
`«from»` mirrors the C++ field name. -/
structure ConvertRate where
  «from» : ℕ
  «to» : ℕ
  rateFn : ℚ
deriving DecidableEq, Repr

/-- A routing cell (`struct Cell`, identical in both classes, main.cpp lines
123-132 and 237-250): a signed index into the rate registry plus the next
currency to visit.  The default cell is `Cell()`:
`rateId = norate = 0`, `nextCur = MAX_CUR_NUMBER`. -/
structure Cell where
  rateId : ℤ
  nextCur : ℕ
deriving DecidableEq, Repr

/-- `Cell::norate` (both classes). -/
def Cell.norate : ℤ := 0

/-- `Cell()` — the default-constructed cell. -/
def defaultCell : Cell := ⟨Cell.norate, MAX_CUR_NUMBER⟩

/-- Point update of a one-argument table. -/
def upd1 {α : Type} (f : ℕ → α) (a : ℕ) (v : α) : ℕ → α :=
  fun i => if i = a then v else f i

/-- Point update of a two-argument table. -/
def upd2 {α : Type} (f : ℕ → ℕ → α) (a b : ℕ) (v : α) : ℕ → ℕ → α :=
  fun i j => if i = a ∧ j = b then v else f i j

/-- `rates[i]` / `mRates[i]` — vector indexing of the rate registry (every
access the program performs is in bounds; out-of-range defaults to `0`). -/
def rateVal (rs : List ℚ) (i : ℤ) : ℚ := rs.getD i.toNat 0

/-- One multiplier update of the query loop, shared verbatim by both
implementations (main.cpp lines 101-113 and 215-227): a positive `rateId`
multiplies by the provider's value, otherwise the provider at `-rateId` is
read and the multiplier either collapses to `0` (value `0`) or is divided by
the value. -/
def stepTotal (rs : List ℚ) (rateId : ℤ) (tot : ℚ) : ℚ :=
  if rateId > 0 then
    tot * rateVal rs rateId
  else
    let rate := rateVal rs (-rateId)
    if rate = 0 then 0 else tot / rateVal rs (-rateId)

/-! ## Dense implementation: `class Converter` (main.cpp lines 32-135)

Fields: `Cell rate_table[2000][2000]` and `std::vector<RateFn> rates`.
The working distance matrix of `init` is local to `init`. -/

/-- The dense converter's member state. -/
structure Converter where
  rate_table : ℕ → ℕ → Cell
  rates : List ℚ

/-- A freshly constructed `Converter` before `init` (the table contents are
unspecified in C++ until `init` resets them; `init` never reads them). -/
def Converter.mkNew : Converter := ⟨fun _ _ => defaultCell, []⟩

/-- Working state of `Converter::init`: the table, the rate registry and the
local `distance` matrix. -/
structure DWork where
  tbl : ℕ → ℕ → Cell
  rates : List ℚ
  dist : ℕ → ℕ → ℕ

/-- The initial `distance` matrix (main.cpp lines 57-61): `0` on the
diagonal, `UNREACHABLE` elsewhere. -/
def dist0 : ℕ → ℕ → ℕ := fun i j => if i = j then 0 else UNREACHABLE

/-- One `(i, j)` iteration of the relaxation loops of `Converter::init`
(main.cpp lines 75-83), for the edge `(fr, to)` being folded in.  Both
distance cells are set to the new distance, then the two next-hop cells are
written in statement order (line 82 reads the table after line 81 wrote
it). -/
def relaxStep (fr t i j : ℕ) (w : DWork) : DWork :=
  if w.dist fr i ≠ UNREACHABLE ∧ w.dist t j ≠ UNREACHABLE then
    let nd := (w.dist fr i + w.dist t j + 1) % 2 ^ 32
    if w.dist i j ≤ nd then w
    else
      let dist' := upd2 (upd2 w.dist i j nd) j i nd
      let tbl1 := upd2 w.tbl i j ⟨(w.tbl i j).rateId,
        if i ≠ fr then (w.tbl i fr).nextCur else t⟩
      let tbl2 := upd2 tbl1 j i ⟨(tbl1 j i).rateId,
        if j ≠ t then (tbl1 j t).nextCur else fr⟩
      ⟨tbl2, w.rates, dist'⟩
  else w

/-- `for (i = 0; i < n; ++i) body` as a pure fold: `f 0` is applied first,
`f (n-1)` last. -/
def natFold {α : Type} (f : ℕ → α → α) : ℕ → α → α
  | 0, a => a
  | n + 1, a => f n (natFold f n a)

/-- The full `O(N²)` relaxation pass for one edge (main.cpp lines 71-85). -/
def relaxPass (fr t : ℕ) (w : DWork) : DWork :=
  natFold (fun i w => natFold (fun j w => relaxStep fr t i j w)
    MAX_CUR_NUMBER w) MAX_CUR_NUMBER w

/-- Folding one edge into the dense state (main.cpp lines 62-85): register
the provider at a fresh index, set the two direct routing cells, then
relax. -/
def foldEdge (w : DWork) (e : ConvertRate) : DWork :=
  let newRateId := toInt32 w.rates.length
  let rates' := w.rates ++ [e.rateFn]
  let tbl := upd2 w.tbl e.«from» e.«to»
    ⟨newRateId, (w.tbl e.«from» e.«to»).nextCur⟩
  let tbl := upd2 tbl e.«to» e.«from» ⟨-newRateId, (tbl e.«to» e.«from»).nextCur⟩
  relaxPass e.«from» e.«to» ⟨tbl, rates', w.dist⟩

/-- `Converter::init` (main.cpp lines 42-87): reset every routing cell,
append the dummy provider to the (never cleared) registry, initialise the
local distance matrix, and fold the edges in order. -/
def Converter.init (s : Converter) (es : List ConvertRate) : Converter :=
  let w := es.foldl foldEdge ⟨fun _ _ => defaultCell, s.rates ++ [0], dist0⟩
  ⟨w.tbl, w.rates⟩

/-- The `do … while` loop of `Converter::convert` (main.cpp lines 98-115),
with fuel; returns the final `totalRate`, or `none` if the C++ loop would
still be running after `fuel` iterations. -/
def Converter.walk (s : Converter) (t : ℕ) : ℕ → ℚ → ℕ → Option ℚ
  | _, _, 0 => none
  | prevCur, tot, fuel + 1 =>
    let nextCur := (s.rate_table prevCur t).nextCur
    let rateId := (s.rate_table prevCur nextCur).rateId
    let tot' := stepTotal s.rates rateId tot
    if nextCur = t then some tot' else Converter.walk s t nextCur tot' fuel

/-- `Converter::convert` (main.cpp lines 91-120).  The final
`long double` multiplication is exact here. -/
def Converter.convert (s : Converter) (value : ℚ) (fr t : ℕ) : Option ℚ :=
  if (s.rate_table fr t).nextCur = MAX_CUR_NUMBER then some 0
  else (Converter.walk s t fr 1 MAX_CUR_NUMBER).map (fun tot => tot * value)

/-! ## Sparse implementation: `class BFSConverter` (main.cpp lines 137-253)

Fields: `std::vector<std::unordered_map<CurId, Cell>> mPaths` and
`std::vector<RateFn> mRates`.  A row of `mPaths` is modelled as an
association list kept in insertion order (one conforming iteration order for
the unordered map). -/

/-- One row of `mPaths`: an association list from destination currency to
routing cell, without duplicate keys, iterated in insertion order. -/
abbrev Row : Type := List (ℕ × Cell)

/-- `row.count(k)` (an `unordered_map` holds each key at most once). -/
def Row.countKey (row : Row) (k : ℕ) : ℕ :=
  (List.filter (fun p => p.1 = k) row).length

/-- Key lookup in a row. -/
def Row.lookup (row : Row) (k : ℕ) : Option Cell :=
  (List.find? (fun p => p.1 = k) row).map (fun p => p.2)

/-- `row[k] = v` — `operator[]` followed by assignment: replace the mapped
value in place if the key is present, otherwise append the new entry. -/
def Row.store (row : Row) (k : ℕ) (v : Cell) : Row :=
  if (Row.lookup row k).isSome then
    List.map (fun p => if p.1 = k then (k, v) else p) row
  else row ++ [(k, v)]

/-- `row[k]` in read position — `operator[]` value-constructs and inserts
`Cell()` when the key is missing; returns the cell and the possibly grown
row. -/
def Row.index (row : Row) (k : ℕ) : Cell × Row :=
  match Row.lookup row k with
  | some c => (c, row)
  | none => (defaultCell, row ++ [(k, defaultCell)])

/-- The sparse converter's member state. -/
structure BFSConverter where
  mPaths : ℕ → Row
  mRates : List ℚ

/-- A freshly constructed `BFSConverter`. -/
def BFSConverter.mkNew : BFSConverter := ⟨fun _ => [], []⟩

/-- The direct-edge fill of `BFSConverter::init` (main.cpp lines 154-163):
register each provider and store the two direct routing cells
(`Cell(to, id)` is `Cell(_nextCur, _rateId)`). -/
def bfsDirect (pr : (ℕ → Row) × List ℚ) (e : ConvertRate) :
    (ℕ → Row) × List ℚ :=
  let newRateId := toInt32 pr.2.length
  let rs' := pr.2 ++ [e.rateFn]
  let paths := upd1 pr.1 e.«from»
    (Row.store (pr.1 e.«from») e.«to» ⟨newRateId, e.«to»⟩)
  let paths := upd1 paths e.«to»
    (Row.store (paths e.«to») e.«from» ⟨-newRateId, e.«from»⟩)
  (paths, rs')

/-- One queue element: `pair<CurId, CurId>` — the node to visit and the
direct neighbour of the source the discovery started from (main.cpp line
172). -/
abbrev NextCur : Type := ℕ × ℕ

/-- Processing the cells of `mPaths[visitingId]` for one dequeued node
(main.cpp lines 185-194): every cell whose `nextCur` is unvisited is marked,
enqueued, and recorded as a composite routing cell
`mPaths[from][cell.nextCur] = Cell(start, norate)`. -/
def bfsScanStep (fr start : ℕ)
    (st : (ℕ → Row) × (ℕ → ℕ) × List NextCur) (p : ℕ × Cell) :
    (ℕ → Row) × (ℕ → ℕ) × List NextCur :=
  let nc := p.2.nextCur
  if st.2.1 nc ≠ fr then
    (upd1 st.1 fr (Row.store (st.1 fr) nc ⟨Cell.norate, start⟩),
     upd1 st.2.1 nc fr,
     st.2.2 ++ [(nc, start)])
  else st

def bfsScan (fr start : ℕ) (cells : Row)
    (st : (ℕ → Row) × (ℕ → ℕ) × List NextCur) :
    (ℕ → Row) × (ℕ → ℕ) × List NextCur :=
  List.foldl (bfsScanStep fr start) st cells

/-- The FIFO loop of one source's breadth-first run (main.cpp lines
180-197): dequeue, mark, scan the dequeued node's current row, append the
discoveries.  The fuel counts dequeue operations; it is never exhausted for
in-range inputs. -/
def bfsLoop (fr : ℕ) : (ℕ → Row) × (ℕ → ℕ) → List NextCur → ℕ →
    (ℕ → Row) × (ℕ → ℕ)
  | st, [], _ => st
  | st, _ :: _, 0 => st
  | st, nx :: rest, fuel + 1 =>
    let visited := upd1 st.2 nx.1 fr
    let r := bfsScan fr nx.2 (st.1 nx.1) (st.1, visited, [])
    bfsLoop fr (r.1, r.2.1) (rest ++ r.2.2) fuel

/-- One source's breadth-first run (main.cpp lines 168-197): mark the
source, enqueue and mark every key of its row, then run the FIFO loop. -/
def bfsSource (paths : ℕ → Row) (visited : ℕ → ℕ) (fr : ℕ) :
    (ℕ → Row) × (ℕ → ℕ) :=
  let visited := upd1 visited fr fr
  let row := paths fr
  let visited := List.foldl (fun v (p : ℕ × Cell) => upd1 v p.1 fr) visited row
  let queue := List.map (fun (p : ℕ × Cell) => (p.1, p.1)) row
  bfsLoop fr (paths, visited) queue (row.length + MAX_CUR_NUMBER)

/-- The `mPaths` component of the per-source fold state (the other
component is the shared `visitedNodes` vector). -/
def pathsOf (st : (ℕ → Row) × (ℕ → ℕ)) : ℕ → Row := st.1

/-- `BFSConverter::init` (main.cpp lines 144-199): `mRates.clear()` and
`mPaths.clear()` discard the prior member state entirely, so the result
does not depend on `s`; then the direct cells are filled in and a
breadth-first traversal is run from every currency (the `visitedNodes`
vector is shared across the runs and starts at `MAX_CUR_NUMBER`
everywhere). -/
def BFSConverter.init (s : BFSConverter) (es : List ConvertRate) :
    BFSConverter :=
  let pr := es.foldl bfsDirect ((fun _ => []), ([0] : List ℚ))
  ⟨pathsOf (natFold (fun fr (st : (ℕ → Row) × (ℕ → ℕ)) =>
      bfsSource st.1 st.2 fr)
    MAX_CUR_NUMBER (pr.1, fun _ => MAX_CUR_NUMBER)), pr.2⟩

/-- The `do … while` loop of `BFSConverter::convert` (main.cpp lines
212-229), threading the map state through the two `operator[]` accesses of
each iteration; returns the final `totalRate` (or `none` on fuel
exhaustion, i.e. divergence of the C++ loop) together with the final
maps. -/
def BFSConverter.walk (rs : List ℚ) (t : ℕ) : (ℕ → Row) → ℕ → ℚ → ℕ →
    Option ℚ × (ℕ → Row)
  | paths, _, _, 0 => (none, paths)
  | paths, prevCur, tot, fuel + 1 =>
    let (cellT, rowT) := Row.index (paths prevCur) t
    let paths := upd1 paths prevCur rowT
    let nextCur := cellT.nextCur
    let (cellN, rowN) := Row.index (paths prevCur) nextCur
    let paths := upd1 paths prevCur rowN
    let tot' := stepTotal rs cellN.rateId tot
    if nextCur = t then (some tot', paths)
    else BFSConverter.walk rs t paths nextCur tot' fuel

/-- `BFSConverter::convert` (main.cpp lines 203-234), returning the result
together with the whole post-query state (the query loop's `operator[]`
lookups could insert). -/
def BFSConverter.convert (s : BFSConverter) (value : ℚ) (fr t : ℕ) :
    Option ℚ × BFSConverter :=
  if Row.countKey (s.mPaths fr) t = 0 then (some 0, s)
  else if fr = t then (some value, s)
  else
    ((BFSConverter.walk s.mRates t s.mPaths fr 1 MAX_CUR_NUMBER).1.map
        (fun tot => tot * value),
     ⟨(BFSConverter.walk s.mRates t s.mPaths fr 1 MAX_CUR_NUMBER).2,
       s.mRates⟩)

/-! ## Shape lemmas for `relaxStep` -/

/-- The candidate distance of one relaxation iteration. -/
def cand (fr t i j : ℕ) (w : DWork) : ℕ :=
  (w.dist fr i + w.dist t j + 1) % 2 ^ 32

/-! ## Localisation of the dense `init` to the currencies that occur

Every relaxation iteration with `i` or `j` outside `[0, K)` is a no-op when
all edges seen so far lie inside `[0, K)`, because the distance matrix is
finite only on the diagonal and inside `[0, K)²`.  This lets the
`2000 × 2000` loops of `Converter::init` be replaced by `K × K` loops for
concrete edge sets, which the kernel can evaluate. -/

/-- All finite distance entries lie on the diagonal or inside `[0, K)²`. -/
def DistBounded (K : ℕ) (d : ℕ → ℕ → ℕ) : Prop :=
  ∀ i j, d i j ≠ UNREACHABLE → i = j ∨ (i < K ∧ j < K)

/-- `DistBounded` seen as a predicate on the whole working state. -/
def DistBoundedW (K : ℕ) (w : DWork) : Prop := DistBounded K w.dist

/-- The relaxation pass with both loop bounds general. -/
def relaxPassGen (O I fr t : ℕ) (w : DWork) : DWork :=
  natFold (fun i w => natFold (fun j w => relaxStep fr t i j w) I w) O w

/-- `relaxPass` with both loops truncated to `[0, K)`. -/
def relaxPassK (K fr t : ℕ) (w : DWork) : DWork := relaxPassGen K K fr t w

/-- `foldEdge` with the relaxation loops truncated to `[0, K)`. -/
def foldEdgeK (K : ℕ) (w : DWork) (e : ConvertRate) : DWork :=
  let newRateId := toInt32 w.rates.length
  let rates' := w.rates ++ [e.rateFn]
  let tbl := upd2 w.tbl e.«from» e.«to»
    ⟨newRateId, (w.tbl e.«from» e.«to»).nextCur⟩
  let tbl := upd2 tbl e.«to» e.«from» ⟨-newRateId, (tbl e.«to» e.«from»).nextCur⟩
  relaxPassK K e.«from» e.«to» ⟨tbl, rates', w.dist⟩

/-- `Converter::init` with the relaxation loops truncated to `[0, K)`. -/
def Converter.initK (K : ℕ) (s : Converter) (es : List ConvertRate) :
    Converter :=
  let w := es.foldl (foldEdgeK K) ⟨fun _ _ => defaultCell, s.rates ++ [0], dist0⟩
  ⟨w.tbl, w.rates⟩

/-! ## Localisation of the BFS `init`

A source whose row is empty contributes nothing to `mPaths`: its run only
touches the shared `visitedNodes` vector.  When every edge endpoint lies in
`[0, K)`, all rows with index `≥ K` stay empty, so the 2000 per-source runs
can be truncated to the first `K`. -/

/-- All rows with index `≥ K` are empty. -/
def RowsBelow (K : ℕ) (st : (ℕ → Row) × (ℕ → ℕ)) : Prop :=
  ∀ x, K ≤ x → st.1 x = []

/-- `BFSConverter::init` with the per-source loop truncated to `[0, K)`. -/
def BFSConverter.initK (K : ℕ) (es : List ConvertRate) : BFSConverter :=
  let pr := es.foldl bfsDirect ((fun _ => []), ([0] : List ℚ))
  ⟨pathsOf (natFold (fun fr (st : (ℕ → Row) × (ℕ → ℕ)) =>
      bfsSource st.1 st.2 fr)
    K (pr.1, fun _ => MAX_CUR_NUMBER)), pr.2⟩

/-! ## The reference edge set of the spec (test 5 of `runTests`) -/

/-- Edges `(0,1,r=2)`, `(1,2,r=3)`, `(2,3,r=4)`, `(4,3,r=5)`, `(0,4,r=6)`. -/
def refRates : List ConvertRate :=
  [⟨0, 1, 2⟩, ⟨1, 2, 3⟩, ⟨2, 3, 4⟩, ⟨4, 3, 5⟩, ⟨0, 4, 6⟩]

/-! ## The conversion graph of an edge list

An edge is logically undirected: if `from → to` is quotable, `to → from` is
implied as the multiplicative inverse (spec §3). -/

/-- `u` and `v` are joined by some input edge, in either orientation. -/
def adjE (es : List ConvertRate) (u v : ℕ) : Prop :=
  ∃ e ∈ es, (e.«from» = u ∧ e.«to» = v) ∨ (e.«from» = v ∧ e.«to» = u)

instance (es : List ConvertRate) (u v : ℕ) : Decidable (adjE es u v) :=
  List.decidableBEx _ es

/-- A walk of exactly `n` directly-quoted hops from `u` to `v`. -/
inductive PathN (es : List ConvertRate) : ℕ → ℕ → ℕ → Prop
  | refl (u : ℕ) : PathN es u u 0
  | cons {u w v n : ℕ} : adjE es u w → PathN es w v n → PathN es u v (n + 1)

/-- A path of directly-quoted edges connects `u` and `v`. -/
def Reach (es : List ConvertRate) (u v : ℕ) : Prop := ∃ n, PathN es u v n

/-- `n` is the minimum number of hops between `u` and `v`. -/
def IsMinHops (es : List ConvertRate) (u v n : ℕ) : Prop :=
  PathN es u v n ∧ ∀ m, PathN es u v m → n ≤ m

/-- `l` lists the successive vertices visited after `u`, each step a
directly-quoted edge. -/
def IsVertexPath (es : List ConvertRate) : ℕ → List ℕ → Prop
  | _, [] => True
  | u, w :: rest => adjE es u w ∧ IsVertexPath es w rest

/-- The endpoint of the vertex path `u :: l`. -/
def pathEnd (u : ℕ) (l : List ℕ) : ℕ := l.getLastD u

/-- The signed quote the engine would use for the hop `a → b`: the last
registered edge on that pair wins, applied forward (`rateFn`) when
registered as `(a, b)` and inverted when registered as `(b, a)`; a
self-loop edge ends up inverted because the backward cell is written last
(main.cpp lines 68-69 and 161-162). -/
def lastQuote (es : List ConvertRate) (a b : ℕ) : Option ℚ :=
  es.foldl (fun acc e =>
    if e.«from» = b ∧ e.«to» = a then some e.rateFn⁻¹
    else if e.«from» = a ∧ e.«to» = b then some e.rateFn
    else acc) none

/-- The product of the quoted rates (or inverses) along a vertex path. -/
def pathProd (es : List ConvertRate) : ℕ → List ℕ → ℚ
  | _, [] => 1
  | u, w :: rest => (lastQuote es u w).getD 0 * pathProd es w rest

/-- Claim C1 as stated: for every edge set and every query `(v, a, b)` such
that a path of directly-quoted edges connects `a` and `b`, both
implementations return the amount multiplied by the product of the quoted
rates along a path with the minimum number of hops, and the reference edge
set gives `3000` and back `100`. -/
def C1Statement : Prop :=
  (∀ (es : List ConvertRate) (s : Converter) (v : ℚ) (a b : ℕ),
    (∀ e ∈ es, e.«from» < MAX_CUR_NUMBER ∧ e.«to» < MAX_CUR_NUMBER) →
    s.rates.length + es.length + 1 < 2 ^ 31 →
    a < MAX_CUR_NUMBER → b < MAX_CUR_NUMBER →
    Reach es a b →
    ∃ p, IsVertexPath es a p ∧ pathEnd a p = b ∧
      IsMinHops es a b p.length ∧
      Converter.convert (Converter.init s es) v a b =
        some (v * pathProd es a p)) ∧
  (∀ (es : List ConvertRate) (v : ℚ) (a b : ℕ),
    (∀ e ∈ es, e.«from» < MAX_CUR_NUMBER ∧ e.«to» < MAX_CUR_NUMBER) →
    es.length + 1 < 2 ^ 31 →
    a < MAX_CUR_NUMBER → b < MAX_CUR_NUMBER →
    Reach es a b →
    ∃ p, IsVertexPath es a p ∧ pathEnd a p = b ∧
      IsMinHops es a b p.length ∧
      (BFSConverter.convert (BFSConverter.init BFSConverter.mkNew es) v a b).1 =
        some (v * pathProd es a p)) ∧
  Converter.convert (Converter.init Converter.mkNew refRates) 100 0 3 =
    some 3000 ∧
  Converter.convert (Converter.init Converter.mkNew refRates) 3000 3 0 =
    some 100 ∧
  (BFSConverter.convert (BFSConverter.init BFSConverter.mkNew refRates) 100 0 3).1 =
    some 3000 ∧
  (BFSConverter.convert (BFSConverter.init BFSConverter.mkNew refRates) 3000 3 0).1 =
    some 100

/-- Claim C1 as amended: the minimum-hop-product clause restricted to
`from ≠ to` (the counterexample refutes the original clause only at
self-pairs), plus the reference scenario unchanged. -/
def C1Amended : Prop :=
  (∀ (es : List ConvertRate) (s : Converter) (v : ℚ) (a b : ℕ),
    (∀ e ∈ es, e.«from» < MAX_CUR_NUMBER ∧ e.«to» < MAX_CUR_NUMBER) →
    s.rates.length + es.length + 1 < 2 ^ 31 →
    a < MAX_CUR_NUMBER → b < MAX_CUR_NUMBER →
    Reach es a b → a ≠ b →
    ∃ p, IsVertexPath es a p ∧ pathEnd a p = b ∧
      IsMinHops es a b p.length ∧
      Converter.convert (Converter.init s es) v a b =
        some (v * pathProd es a p)) ∧
  (∀ (es : List ConvertRate) (v : ℚ) (a b : ℕ),
    (∀ e ∈ es, e.«from» < MAX_CUR_NUMBER ∧ e.«to» < MAX_CUR_NUMBER) →
    es.length + 1 < 2 ^ 31 →
    a < MAX_CUR_NUMBER → b < MAX_CUR_NUMBER →
    Reach es a b → a ≠ b →
    ∃ p, IsVertexPath es a p ∧ pathEnd a p = b ∧
      IsMinHops es a b p.length ∧
      (BFSConverter.convert (BFSConverter.init BFSConverter.mkNew es) v a b).1 =
        some (v * pathProd es a p)) ∧
  Converter.convert (Converter.init Converter.mkNew refRates) 100 0 3 =
    some 3000 ∧
  Converter.convert (Converter.init Converter.mkNew refRates) 3000 3 0 =
    some 100 ∧
  (BFSConverter.convert (BFSConverter.init BFSConverter.mkNew refRates) 100 0 3).1 =
    some 3000 ∧
  (BFSConverter.convert (BFSConverter.init BFSConverter.mkNew refRates) 3000 3 0).1 =
    some 100

/-! ## The self-pair behaviour of both implementations -/

/-- The one-edge set used as failing input for the identity property. -/
def oneEdge : List ConvertRate := [⟨0, 1, 2⟩]

/-! ## Strategy agreement and its tie-break counterexample -/

/-- Claim C3 as stated: for every edge set and query the two
implementations return equal results on reachable pairs, and both return
the sentinel `0` on unreachable pairs. -/
def C3Statement : Prop :=
  ∀ (es : List ConvertRate) (v : ℚ) (a b : ℕ),
    (∀ e ∈ es, e.«from» < MAX_CUR_NUMBER ∧ e.«to» < MAX_CUR_NUMBER) →
    es.length + 1 < 2 ^ 31 →
    a < MAX_CUR_NUMBER → b < MAX_CUR_NUMBER →
    (Reach es a b →
      Converter.convert (Converter.init Converter.mkNew es) v a b =
        (BFSConverter.convert (BFSConverter.init BFSConverter.mkNew es) v a b).1) ∧
    (¬ Reach es a b →
      Converter.convert (Converter.init Converter.mkNew es) v a b =
        some 0 ∧
      (BFSConverter.convert (BFSConverter.init BFSConverter.mkNew es) v a b).1 = some 0)

/-- Two minimum-hop routes `0 → 1 → 3` (product `10`) and `0 → 2 → 3`
(product `1`): the dense fold discovers `0 → 2 → 3` first (its second edge
arrives earlier), while the per-source BFS discovers `0 → 1 → 3` first
(edge `(0,1)` was inserted into row `0` before `(0,2)`). -/
def tieRates : List ConvertRate := [⟨2, 3, 1⟩, ⟨0, 1, 1⟩, ⟨0, 2, 1⟩, ⟨1, 3, 10⟩]

/-! ## Zero-rate propagation along the chosen path -/

/-- The sequence of signed rate indices the dense query loop resolves, in
traversal order (mirrors `Converter.walk` hop for hop). -/
def Converter.walkIds (s : Converter) (t : ℕ) : ℕ → ℕ → List ℤ
  | _, 0 => []
  | prev, fuel + 1 =>
    let nextCur := (s.rate_table prev t).nextCur
    let rateId := (s.rate_table prev nextCur).rateId
    if nextCur = t then [rateId]
    else rateId :: Converter.walkIds s t nextCur fuel

/-- The signed rate indices resolved by a dense query, empty when the
query returns before entering the loop. -/
def Converter.chosenIds (s : Converter) (fr t : ℕ) : List ℤ :=
  if (s.rate_table fr t).nextCur = MAX_CUR_NUMBER then []
  else Converter.walkIds s t fr MAX_CUR_NUMBER

/-- The sequence of signed rate indices the sparse query loop resolves, in
traversal order (mirrors `BFSConverter.walk` hop for hop, including the
`operator[]` insertions). -/
def BFSConverter.walkIds (t : ℕ) : (ℕ → Row) → ℕ → ℕ → List ℤ
  | _, _, 0 => []
  | paths, prev, fuel + 1 =>
    let c1 := Row.index (paths prev) t
    let paths1 := upd1 paths prev c1.2
    let c2 := Row.index (paths1 prev) c1.1.nextCur
    let paths2 := upd1 paths1 prev c2.2
    if c1.1.nextCur = t then [c2.1.rateId]
    else c2.1.rateId :: BFSConverter.walkIds t paths2 c1.1.nextCur fuel

/-- The signed rate indices resolved by a sparse query, empty when the
query returns before entering the loop. -/
def BFSConverter.chosenIds (s : BFSConverter) (fr t : ℕ) : List ℤ :=
  if Row.countKey (s.mPaths fr) t = 0 then []
  else if fr = t then []
  else BFSConverter.walkIds t s.mPaths fr MAX_CUR_NUMBER

/-- The provider value a signed index resolves to (index `i` and `-i` read
the same registry slot `|i|`). -/
def providerVal (rs : List ℚ) (rid : ℤ) : ℚ := rs.getD rid.natAbs 0

/-- A single direct edge whose provider is unavailable (`0`) at query
time. -/
def zeroEdge : List ConvertRate := [⟨0, 1, 0⟩]

/-- How a signed rate index of the fresh run appears in the rerun whose
registry carries a stale prefix of length `L`. -/
def shiftId (L : ℕ) (id : ℤ) : ℤ :=
  if id = 0 then 0 else if 0 < id then id + L else id - L

/-- Cell correspondence: same next hop, rate index shifted by the stale
prefix length. -/
def CellRel (L : ℕ) (c c' : Cell) : Prop :=
  c.nextCur = c'.nextCur ∧ c.rateId = shiftId L c'.rateId

/-- Correspondence between the working state of a re-`init` (left) and of a
fresh `init` (right): same distances, same next hops, rate registry equal
up to the stale prefix `pr`, rate indices shifted by `pr.length`. -/
def ReinitRel (pr : List ℚ) (w w' : DWork) : Prop :=
  w.dist = w'.dist ∧
  w.rates = pr ++ w'.rates ∧
  0 < w'.rates.length ∧
  ∀ i j, CellRel pr.length (w.tbl i j) (w'.tbl i j)

/-- "The rate registry of the working state is `r`", kept behind a
definition so that statements about the `2000 × 2000` relaxation folds
stay whnf-stable. -/
def RatesIs (r : List ℚ) (w : DWork) : Prop := w.rates = r

/-- Soundness of the dense working state: a finite distance entry or a
written next-hop cell only ever relates pairs connected by the quoted
edges. -/
def TblSound (es : List ConvertRate) (w : DWork) : Prop :=
  (∀ i j, w.dist i j ≠ UNREACHABLE → Reach es i j) ∧
  (∀ i j, (w.tbl i j).nextCur ≠ MAX_CUR_NUMBER → Reach es i j)

/-- Soundness of a sparse path map: every key of a row and every recorded
hop is connected to the row's source by quoted edges. -/
def RowsSound (es : List ConvertRate) (paths : ℕ → Row) : Prop :=
  ∀ fr p, p ∈ paths fr → Reach es fr p.1 ∧ Reach es fr p.2.nextCur

/-- The key `k` is present in the row. -/
def keyed (row : Row) (k : ℕ) : Prop := (Row.lookup row k).isSome = true

/-- Every key of every row is a valid currency index. -/
def KeysBound (P : ℕ → Row) : Prop :=
  ∀ s p, p ∈ P s → p.1 < MAX_CUR_NUMBER

/-- Every recorded hop of every cell is a valid currency index. -/
def NextBound (P : ℕ → Row) : Prop :=
  ∀ s p, p ∈ P s → p.2.nextCur < MAX_CUR_NUMBER

/-- Every cell's recorded hop is itself a key of the same row. -/
def CellsKeyed (P : ℕ → Row) : Prop :=
  ∀ s p, p ∈ P s → keyed (P s) p.2.nextCur

/-- Every quoted edge has its two direct cells present, each routing
straight to the row's key. -/
def DirNext (es : List ConvertRate) (P : ℕ → Row) : Prop :=
  ∀ e ∈ es,
    (∃ c, Row.lookup (P e.«from») e.«to» = some c ∧ c.nextCur = e.«to») ∧
    (∃ c, Row.lookup (P e.«to») e.«from» = some c ∧ c.nextCur = e.«from»)

/-- After the direct fill every cell routes to its own key. -/
def SelfNext (P : ℕ → Row) : Prop :=
  ∀ s p, p ∈ P s → p.2.nextCur = p.1

/-- How many currencies the run for source `fr` has marked. -/
def markedCard (V : ℕ → ℕ) (fr : ℕ) : ℕ :=
  ((Finset.range MAX_CUR_NUMBER).filter (fun x => V x = fr)).card

/-- Both direct cells of every quoted edge are present. -/
def DirectKeys (es : List ConvertRate) (P : ℕ → Row) : Prop :=
  ∀ e ∈ es, keyed (P e.«from») e.«to» ∧ keyed (P e.«to») e.«from»

/-- The running invariant of one cell scan of the breadth-first loop:
structural row facts, marking discipline for the source `fr`, and the
accounting that ties the appended queue entries to freshly marked
currencies. -/
def ScanInv (es : List ConvertRate) (fr start : ℕ) (V0 : ℕ → ℕ)
    (P : ℕ → Row) (V : ℕ → ℕ) (Q : List NextCur) : Prop :=
  KeysBound P ∧ NextBound P ∧ CellsKeyed P ∧ DirNext es P ∧
  (∀ x, V x = fr → x = fr ∨ keyed (P fr) x) ∧
  (∀ p ∈ P fr, V p.1 = fr) ∧
  (∀ q ∈ Q, V q.1 = fr ∧ q.2 = start ∧ q.1 < MAX_CUR_NUMBER) ∧
  (∀ x, V0 x = fr → V x = fr) ∧
  (markedCard V0 fr + Q.length ≤ markedCard V fr) ∧
  keyed (P fr) start ∧ V start = fr ∧
  (∀ x, V x = fr → V0 x = fr ∨ ∃ q ∈ Q, q.1 = x)

/-- Invariant of the FIFO loop of one source's breadth-first run. -/
def LoopInv (es : List ConvertRate) (fr : ℕ) (P : ℕ → Row) (V : ℕ → ℕ)
    (Q : List NextCur) : Prop :=
  KeysBound P ∧ NextBound P ∧ CellsKeyed P ∧ DirNext es P ∧
  (∀ x, V x = fr → x = fr ∨ keyed (P fr) x) ∧
  (∀ p ∈ P fr, V p.1 = fr) ∧
  (∀ q ∈ Q, V q.1 = fr ∧ V q.2 = fr ∧ keyed (P fr) q.2 ∧
    q.1 < MAX_CUR_NUMBER ∧ q.2 < MAX_CUR_NUMBER) ∧
  (∀ x, V x = fr → x ≠ fr → (∃ q ∈ Q, q.1 = x) ∨
    ∀ p ∈ P x, V p.2.nextCur = fr)

/-- What holds when the FIFO loop has drained its queue. -/
def LoopDone (es : List ConvertRate) (fr : ℕ) (P : ℕ → Row) (V : ℕ → ℕ) :
    Prop :=
  KeysBound P ∧ NextBound P ∧ CellsKeyed P ∧ DirNext es P ∧
  (∀ x, V x = fr → x = fr ∨ keyed (P fr) x) ∧
  (∀ p ∈ P fr, V p.1 = fr) ∧
  (∀ x, V x = fr → x ≠ fr → ∀ p ∈ P x, V p.2.nextCur = fr)

/-- Invariant of the per-source fold of `BFSConverter::init`: the structural
row facts, the bound on the shared `visitedNodes` values, and completeness of
every row whose source has already been processed. -/
def SrcInv (es : List ConvertRate) (i : ℕ)
    (st : (ℕ → Row) × (ℕ → ℕ)) : Prop :=
  KeysBound (pathsOf st) ∧ NextBound (pathsOf st) ∧
  CellsKeyed (pathsOf st) ∧ DirNext es (pathsOf st) ∧
  (∀ x, st.2 x = MAX_CUR_NUMBER ∨ st.2 x < i) ∧
  (∀ s, s < i → ∀ t, Reach es s t → t ≠ s → keyed (pathsOf st s) t)

/-- `q` routes along the first hop of a minimum-hop path: `q.1` sits at
minimum distance `l` from the source, `q.2` is a direct neighbour of the
source, and `l - 1` further hops lead from `q.2` to `q.1`. -/
def GoodStart (es : List ConvertRate) (fr l : ℕ) (q : NextCur) : Prop :=
  IsMinHops es fr q.1 l ∧ adjE es fr q.2 ∧ PathN es q.2 q.1 (l - 1)

/-- A queue entry at level `d`: either the inert self entry created by a
self-loop key, or a good first-hop record at distance `d`. -/
def EntryAt (es : List ConvertRate) (fr d : ℕ) (q : NextCur) : Prop :=
  q.1 = fr ∨ GoodStart es fr d q

/-- The breadth-first level invariant: the queue splits into a front zone
at level `d` and a back zone at level `d + 1`, everything within distance
`d` of the source is already marked, direct neighbours are marked, the
hops stored in the source's row are marked, every stored hop anywhere is a
direct edge, and every routing record of the source's row is the first hop
of a minimum-hop path. -/
def LoopLvl (es : List ConvertRate) (fr : ℕ) (P : ℕ → Row) (V : ℕ → ℕ)
    (Q : List NextCur) : Prop :=
  ∃ d Q1 Q2, Q = Q1 ++ Q2 ∧
    (∀ q ∈ Q1, EntryAt es fr d q) ∧
    (∀ q ∈ Q2, EntryAt es fr (d + 1) q) ∧
    (∀ x l, IsMinHops es fr x l → l ≤ d → V x = fr) ∧
    (∀ t, adjE es fr t → V t = fr) ∧
    (∀ p ∈ P fr, V p.2.nextCur = fr) ∧
    (∀ s p, p ∈ P s → adjE es s p.2.nextCur) ∧
    (∀ p ∈ P fr, p.1 = fr ∨ ∃ l, IsMinHops es fr p.1 l ∧
      adjE es fr p.2.nextCur ∧ PathN es p.2.nextCur p.1 (l - 1))

/-- Invariant of the per-source fold of `BFSConverter::init` carrying the
breadth-first level analysis: the structural row facts, the bound on the
shared `visitedNodes` values, the fact that rows of sources not yet
processed still hold exactly their direct fill, that every stored hop
anywhere is a direct edge, and that every routing record is the first hop
of a minimum-hop path from its row's source. -/
def FoldLvl (es : List ConvertRate) (i : ℕ)
    (st : (ℕ → Row) × (ℕ → ℕ)) : Prop :=
  KeysBound (pathsOf st) ∧ NextBound (pathsOf st) ∧
  CellsKeyed (pathsOf st) ∧ DirNext es (pathsOf st) ∧
  (∀ x, st.2 x = MAX_CUR_NUMBER ∨ st.2 x < i) ∧
  (∀ s, i ≤ s → pathsOf st s =
    (es.foldl bfsDirect ((fun _ => []), ([0] : List ℚ))).1 s) ∧
  (∀ s p, p ∈ pathsOf st s → adjE es s p.2.nextCur) ∧
  (∀ s p, p ∈ pathsOf st s → p.1 = s ∨
    ∃ l, IsMinHops es s p.1 l ∧ adjE es s p.2.nextCur ∧
      PathN es p.2.nextCur p.1 (l - 1))

/-- The per-run "enqueue once" bookkeeping: the FIFO queue never holds two
entries for the same node, and every enqueued node is already marked
visited for the current source. -/
def LoopOnce (fr : ℕ) (V : ℕ → ℕ) (Q : List NextCur) : Prop :=
  (Q.map Prod.fst).Nodup ∧ ∀ q ∈ Q, V q.1 = fr

/-- The traversal behaviour claimed for `BFSConverter::init`: the FIFO
loop dequeues from the front and appends discoveries at the back; a scan
of a dequeued node records every freshly discovered destination as a
composite cell `Cell(start, norate)` — the no-direct-rate marker together
with the first-hop currency — marks it and enqueues it, and skips
destinations already marked; a loop step preserves the enqueue-once
bookkeeping; and in the finished table every stored hop is a direct edge
of the input and every routing record is the first hop of a minimum-hop
path from its row's source. -/
def C8Conclusion (es : List ConvertRate) : Prop :=
  (∀ (fr : ℕ) (st : (ℕ → Row) × (ℕ → ℕ)) (nx : NextCur)
      (rest : List NextCur) (fuel : ℕ),
    bfsLoop fr st (nx :: rest) (fuel + 1) =
      bfsLoop fr
        ((bfsScan fr nx.2 (st.1 nx.1) (st.1, upd1 st.2 nx.1 fr, [])).1,
         (bfsScan fr nx.2 (st.1 nx.1) (st.1, upd1 st.2 nx.1 fr, [])).2.1)
        (rest ++ (bfsScan fr nx.2 (st.1 nx.1)
          (st.1, upd1 st.2 nx.1 fr, [])).2.2) fuel) ∧
  (∀ (fr start : ℕ) (st : (ℕ → Row) × (ℕ → ℕ) × List NextCur)
      (p : ℕ × Cell), st.2.1 p.2.nextCur ≠ fr →
    bfsScanStep fr start st p =
      (upd1 st.1 fr (Row.store (st.1 fr) p.2.nextCur ⟨Cell.norate, start⟩),
       upd1 st.2.1 p.2.nextCur fr, st.2.2 ++ [(p.2.nextCur, start)])) ∧
  (∀ (fr start : ℕ) (st : (ℕ → Row) × (ℕ → ℕ) × List NextCur)
      (p : ℕ × Cell), st.2.1 p.2.nextCur = fr →
    bfsScanStep fr start st p = st) ∧
  (∀ (fr : ℕ) (st : (ℕ → Row) × (ℕ → ℕ)) (nx : NextCur)
      (rest : List NextCur), LoopOnce fr st.2 (nx :: rest) →
    LoopOnce fr
      (bfsScan fr nx.2 (st.1 nx.1) (st.1, upd1 st.2 nx.1 fr, [])).2.1
      (rest ++ (bfsScan fr nx.2 (st.1 nx.1)
        (st.1, upd1 st.2 nx.1 fr, [])).2.2)) ∧
  (∀ s p, p ∈ (BFSConverter.init BFSConverter.mkNew es).mPaths s →
    adjE es s p.2.nextCur) ∧
  (∀ s p, p ∈ (BFSConverter.init BFSConverter.mkNew es).mPaths s →
    p.1 = s ∨ ∃ l, IsMinHops es s p.1 l ∧ adjE es s p.2.nextCur ∧
      PathN es p.2.nextCur p.1 (l - 1))

/-- The signed rate index the registration loops leave at the ordered cell
`(i, j)`: edges are numbered from `L` in list order (`L` is the length of
the registry before the first edge, i.e. the dummy's position plus the
stale prefix), each edge `(from, to)` writes its index at `(from, to)` and
its negation at `(to, from)`, the backward write last (main.cpp lines
62-69 and 154-163); a later edge on the same ordered pair overwrites. -/
def dSigned (L : ℕ) (es : List ConvertRate) (i j : ℕ) : ℤ :=
  (es.foldl (fun (acc : ℤ × ℕ) e =>
    (if e.«to» = i ∧ e.«from» = j then -toInt32 acc.2
     else if e.«from» = i ∧ e.«to» = j then toInt32 acc.2
     else acc.1, acc.2 + 1)) ((0 : ℤ), L)).1

/-- Every finite off-diagonal distance entry is witnessed by an actual
vertex walk of that exact length whose first hop is the recorded routing
cell's `nextCur`. -/
def Realiz (es : List ConvertRate) (w : DWork) : Prop :=
  ∀ i j, i ≠ j → w.dist i j ≠ UNREACHABLE →
    ∃ l, IsVertexPath es i l ∧ pathEnd i l = j ∧ l.length = w.dist i j ∧
      l.head? = some ((w.tbl i j).nextCur)

/-- Invariant carried through one relaxation pass for the edge `(fr, t)`:
`w0` is the state at pass start.  Distances are symmetric, zero exactly on
the diagonal, only decrease, stay realizable by walks of the new graph,
and stay small enough that the `uint32` candidate sum never wraps (rows
`fr` and `t` stay below `MAX_CUR_NUMBER + 1` thanks to the strict-decrease
guard, all rows below twice that). -/
def PassInv (fr t : ℕ) (w0 : DWork) (es1 : List ConvertRate)
    (w : DWork) : Prop :=
  w.rates = w0.rates ∧
  (∀ i j, (w.tbl i j).rateId = (w0.tbl i j).rateId) ∧
  (∀ i j, w.dist i j = w.dist j i) ∧
  (∀ i, w.dist i i = 0) ∧
  (∀ i j, w.dist i j ≤ w0.dist i j) ∧
  (∀ i j, i ≠ j → w.dist i j ≠ 0) ∧
  Realiz es1 w ∧
  (∀ x, (w.dist fr x ≠ UNREACHABLE → w.dist fr x ≤ MAX_CUR_NUMBER) ∧
    (w.dist t x ≠ UNREACHABLE → w.dist t x ≤ MAX_CUR_NUMBER)) ∧
  (∀ x, (w.dist fr x ≠ UNREACHABLE →
      (w.dist t x ≠ UNREACHABLE ∧ w.dist fr x ≤ w.dist t x + 1) ∨
      w.dist fr x ≤ MAX_CUR_NUMBER - 1) ∧
    (w.dist t x ≠ UNREACHABLE →
      (w.dist fr x ≠ UNREACHABLE ∧ w.dist t x ≤ w.dist fr x + 1) ∨
      w.dist t x ≤ MAX_CUR_NUMBER - 1)) ∧
  (∀ i j, w.dist i j ≠ UNREACHABLE → w.dist i j ≤ 2 * MAX_CUR_NUMBER + 1)

/-- Invariant of the dense edge fold: after the edges `es0` have been
folded in (over the base registry `R0`), the registry lists `R0` then the
folded providers, the local distance matrix is exactly the minimum-hop
distance of the graph of `es0` (symmetric, `0` on the diagonal,
`UNREACHABLE` off it for unconnected pairs), every finite entry is
realized by a recorded-first-hop walk, and every cell's signed rate index
is the last registration on its ordered pair. -/
def DInv (R0 : List ℚ) (es0 : List ConvertRate) (w : DWork) : Prop :=
  w.rates = R0 ++ es0.map ConvertRate.rateFn ∧
  (∀ i j, w.dist i j = w.dist j i) ∧
  (∀ i, w.dist i i = 0) ∧
  (∀ i j, i ≠ j → w.dist i j ≠ 0) ∧
  (∀ i j d, IsMinHops es0 i j d → w.dist i j = d) ∧
  (∀ i j, ¬ Reach es0 i j → w.dist i j = UNREACHABLE) ∧
  Realiz es0 w ∧
  (∀ i j, (w.tbl i j).rateId = dSigned R0.length es0 i j)

/-- The direct cells of the sparse table survive the breadth-first runs:
for every adjacent ordered pair the row still maps the neighbour to the
direct cell — self-routing `nextCur` and the last registration's signed
rate index.  (A scan can only overwrite unvisited keys, and every direct
neighbour of the source is marked before its loop starts.) -/
def DirectIntact (es : List ConvertRate) (P : ℕ → Row) : Prop :=
  ∀ i j, adjE es i j → Row.lookup (P i) j = some ⟨dSigned 1 es i j, j⟩

/-- Coverage by one relaxation iteration: measured against the pass-start
matrix `w0`, the `(i, j)` entry is at most the candidate that the `(i, j)`
iteration offered (distances only decrease afterwards, so this survives to
the end of the pass). -/
def Cov (fr t : ℕ) (w0 : DWork) (i j : ℕ) (w : DWork) : Prop :=
  w0.dist fr i ≠ UNREACHABLE → w0.dist t j ≠ UNREACHABLE →
    w.dist i j ≤ w0.dist fr i + w0.dist t j + 1

/-- The routing table after the two direct writes of one `foldEdge`
(main.cpp lines 62-69), before the relaxation pass: the fresh signed rate
index forward, its negation backward, the backward write last. -/
def edgeTbl (w : DWork) (e : ConvertRate) : ℕ → ℕ → Cell :=
  upd2 (upd2 w.tbl e.«from» e.«to»
      ⟨toInt32 w.rates.length, (w.tbl e.«from» e.«to»).nextCur⟩)
    e.«to» e.«from»
    ⟨-toInt32 w.rates.length,
      ((upd2 w.tbl e.«from» e.«to»
        ⟨toInt32 w.rates.length, (w.tbl e.«from» e.«to»).nextCur⟩)
        e.«to» e.«from»).nextCur⟩

/-- The working state at the start of the relaxation pass of one
`foldEdge`. -/
def edgeStart (w : DWork) (e : ConvertRate) : DWork :=
  ⟨edgeTbl w e, w.rates ++ [e.rateFn], w.dist⟩

/-! ## Generic fold lemmas -/

theorem foldl_invariant {α β : Type} (P : α → Prop) (f : α → β → α)
    (l : List β) (a : α) (h0 : P a)
    (hstep : ∀ x b, P x → b ∈ l → P (f x b)) : P (l.foldl f a) := by
  induction l generalizing a with
  | nil => exact h0
  | cons b bs ih =>
    exact ih (f a b) (hstep a b h0 (List.mem_cons_self b bs))
      (fun x c hx hc => hstep x c hx (List.mem_cons_of_mem _ hc))

theorem foldl_congr_inv {α β : Type} (P : α → Prop) (f g : α → β → α)
    (l : List β) (a : α) (h0 : P a)
    (hpres : ∀ x b, P x → b ∈ l → P (f x b))
    (heq : ∀ x b, P x → b ∈ l → f x b = g x b) :
    l.foldl f a = l.foldl g a := by
  induction l generalizing a with
  | nil => rfl
  | cons b bs ih =>
    rw [List.foldl_cons, List.foldl_cons,
      ← heq a b h0 (List.mem_cons_self b bs)]
    exact ih (f a b) (hpres a b h0 (List.mem_cons_self b bs))
      (fun x c hx hc => hpres x c hx (List.mem_cons_of_mem _ hc))
      (fun x c hx hc => heq x c hx (List.mem_cons_of_mem _ hc))

theorem natFold_invariant {α : Type} (P : α → Prop) (f : ℕ → α → α)
    (n : ℕ) (a : α) (h0 : P a)
    (hstep : ∀ i x, i < n → P x → P (f i x)) : P (natFold f n a) := by
  induction n with
  | zero => exact h0
  | succ m ih =>
    exact hstep m _ (by omega)
      (ih (fun i x hi px => hstep i x (by omega) px))

theorem natFold_congr_inv {α : Type} (P : α → Prop) (f g : ℕ → α → α)
    (n : ℕ) (a : α) (h0 : P a)
    (hpres : ∀ i x, i < n → P x → P (f i x))
    (heq : ∀ i x, i < n → P x → f i x = g i x) :
    natFold f n a = natFold g n a := by
  induction n with
  | zero => rfl
  | succ m ih =>
    have hP : P (natFold f m a) :=
      natFold_invariant P f m a h0 (fun i x hi px => hpres i x (by omega) px)
    show f m (natFold f m a) = g m (natFold g m a)
    rw [heq m _ (by omega) hP,
      ih (fun i x hi px => hpres i x (by omega) px)
         (fun i x hi px => heq i x (by omega) px)]

theorem natFold_shrink {α : Type} (P : α → Prop) (f : ℕ → α → α)
    (K m : ℕ) (a : α) (hP : P (natFold f K a))
    (hfix : ∀ i x, K ≤ i → i < K + m → P x → f i x = x) :
    natFold f (K + m) a = natFold f K a := by
  induction m with
  | zero => rfl
  | succ p ih =>
    have hip : natFold f (K + p) a = natFold f K a :=
      ih (fun i x h1 h2 px => hfix i x h1 (by omega) px)
    show f (K + p) (natFold f (K + p) a) = natFold f K a
    rw [hip, hfix (K + p) _ (by omega) (by omega) hP]

theorem natFold_proj_shrink {α γ : Type} (pr : α → γ) (P : α → Prop)
    (f : ℕ → α → α) (K m : ℕ) (a : α)
    (hP : P (natFold f K a))
    (hpres : ∀ i x, K ≤ i → i < K + m → P x → P (f i x))
    (hfix : ∀ i x, K ≤ i → i < K + m → P x → pr (f i x) = pr x) :
    pr (natFold f (K + m) a) = pr (natFold f K a) := by
  induction m with
  | zero => rfl
  | succ p ih =>
    have hip : pr (natFold f (K + p) a) = pr (natFold f K a) :=
      ih (fun i x h1 h2 px => hpres i x h1 (by omega) px)
        (fun i x h1 h2 px => hfix i x h1 (by omega) px)
    have hPp : P (natFold f (K + p) a) := by
      clear ih hip
      induction p with
      | zero => exact hP
      | succ q ihq =>
        exact hpres (K + q) _ (by omega) (by omega)
          (ihq (fun i x h1 h2 px => hpres i x h1 (by omega) px)
               (fun i x h1 h2 px => hfix i x h1 (by omega) px))
    show pr (f (K + p) (natFold f (K + p) a)) = pr (natFold f K a)
    rw [hfix (K + p) _ (by omega) (by omega) hPp, hip]

theorem relaxStep_skip_guard {fr t i j : ℕ} {w : DWork}
    (h : w.dist fr i = UNREACHABLE ∨ w.dist t j = UNREACHABLE) :
    relaxStep fr t i j w = w := by
  unfold relaxStep
  rcases h with h | h <;> simp [h]

theorem relaxStep_skip_ge {fr t i j : ℕ} {w : DWork}
    (h : w.dist i j ≤ cand fr t i j w) :
    relaxStep fr t i j w = w := by
  unfold relaxStep
  split
  · simp only [cand] at h
    rw [if_pos h]
  · rfl

theorem relaxStep_update {fr t i j : ℕ} {w : DWork}
    (h1 : w.dist fr i ≠ UNREACHABLE) (h2 : w.dist t j ≠ UNREACHABLE)
    (h3 : cand fr t i j w < w.dist i j) :
    relaxStep fr t i j w =
      ⟨upd2 (upd2 w.tbl i j ⟨(w.tbl i j).rateId,
          if i ≠ fr then (w.tbl i fr).nextCur else t⟩) j i
        ⟨((upd2 w.tbl i j ⟨(w.tbl i j).rateId,
            if i ≠ fr then (w.tbl i fr).nextCur else t⟩) j i).rateId,
          if j ≠ t then ((upd2 w.tbl i j ⟨(w.tbl i j).rateId,
            if i ≠ fr then (w.tbl i fr).nextCur else t⟩) j t).nextCur else fr⟩,
       w.rates,
       upd2 (upd2 w.dist i j (cand fr t i j w)) j i (cand fr t i j w)⟩ := by
  unfold relaxStep
  rw [if_pos ⟨h1, h2⟩]
  simp only [cand] at h3 ⊢
  rw [if_neg (by omega)]

theorem distBounded_dist0 (K : ℕ) : DistBounded K dist0 := by
  intro i j h
  unfold dist0 at h
  by_cases hij : i = j
  · exact Or.inl hij
  · simp [hij] at h

theorem relaxStep_preserves_distBounded {K fr t : ℕ} (hfr : fr < K)
    (ht : t < K) (i j : ℕ) {w : DWork} (hw : DistBoundedW K w) :
    DistBoundedW K (relaxStep fr t i j w) := by
  unfold DistBoundedW at hw ⊢
  by_cases h1 : w.dist fr i = UNREACHABLE
  · rw [relaxStep_skip_guard (Or.inl h1)]; exact hw
  by_cases h2 : w.dist t j = UNREACHABLE
  · rw [relaxStep_skip_guard (Or.inr h2)]; exact hw
  by_cases h3 : w.dist i j ≤ cand fr t i j w
  · rw [relaxStep_skip_ge h3]; exact hw
  · rw [relaxStep_update h1 h2 (by omega)]
    have hi : i < K := by
      rcases hw fr i h1 with h | h
      · omega
      · exact h.2
    have hj : j < K := by
      rcases hw t j h2 with h | h
      · omega
      · exact h.2
    intro a b hab
    simp only [upd2] at hab
    by_cases e1 : a = j ∧ b = i
    · exact Or.inr ⟨by omega, by omega⟩
    · rw [if_neg e1] at hab
      by_cases e2 : a = i ∧ b = j
      · exact Or.inr ⟨by omega, by omega⟩
      · rw [if_neg e2] at hab
        exact hw a b hab

theorem relaxStep_skip_outside {K fr t : ℕ} (hfr : fr < K) (ht : t < K)
    {i j : ℕ} (hout : K ≤ i ∨ K ≤ j) {w : DWork}
    (hw : DistBoundedW K w) : relaxStep fr t i j w = w := by
  rcases hout with hi | hj
  · apply relaxStep_skip_guard (Or.inl _)
    by_contra h
    rcases hw fr i h with h' | h' <;> omega
  · apply relaxStep_skip_guard (Or.inr _)
    by_contra h
    rcases hw t j h with h' | h' <;> omega

theorem innerFold_preserves {K fr t : ℕ} (hfr : fr < K) (ht : t < K)
    (i n : ℕ) {w : DWork} (hw : DistBoundedW K w) :
    DistBoundedW K (natFold (fun j w => relaxStep fr t i j w) n w) :=
  natFold_invariant (DistBoundedW K) _ n w hw
    (fun b _ _ hx => relaxStep_preserves_distBounded hfr ht i b hx)

theorem innerFold_localize {K fr t : ℕ} (hfr : fr < K) (ht : t < K)
    (hK : K ≤ MAX_CUR_NUMBER) (i : ℕ) {w : DWork}
    (hw : DistBoundedW K w) :
    natFold (fun j w => relaxStep fr t i j w) MAX_CUR_NUMBER w =
      natFold (fun j w => relaxStep fr t i j w) K w := by
  obtain ⟨m, hm⟩ : ∃ m, MAX_CUR_NUMBER = K + m := ⟨MAX_CUR_NUMBER - K, by omega⟩
  rw [hm]
  exact natFold_shrink (DistBoundedW K) _ K m w
    (innerFold_preserves hfr ht i K hw)
    (fun b x hb _ hx => relaxStep_skip_outside hfr ht (Or.inr hb) hx)

theorem innerFold_fixed_outside {K fr t : ℕ} (hfr : fr < K) (ht : t < K)
    {i : ℕ} (hi : K ≤ i) (n : ℕ) {w : DWork} (hw : DistBoundedW K w) :
    natFold (fun j w => relaxStep fr t i j w) n w = w := by
  induction n with
  | zero => rfl
  | succ m ih =>
    show relaxStep fr t i m (natFold (fun j w => relaxStep fr t i j w) m w) = w
    rw [ih, relaxStep_skip_outside hfr ht (Or.inl hi) hw]

theorem relaxPassGen_inner {O K fr t : ℕ} (hfr : fr < K) (ht : t < K)
    (hK : K ≤ MAX_CUR_NUMBER) {w : DWork} (hw : DistBoundedW K w) :
    relaxPassGen O MAX_CUR_NUMBER fr t w = relaxPassGen O K fr t w := by
  unfold relaxPassGen
  exact natFold_congr_inv (DistBoundedW K) _ _ O w hw
    (fun b x _ hx => innerFold_preserves hfr ht b _ hx)
    (fun b x _ hx => innerFold_localize hfr ht hK b hx)

theorem relaxPassGen_outer {K fr t : ℕ} (hfr : fr < K) (ht : t < K)
    (hK : K ≤ MAX_CUR_NUMBER) {w : DWork} (hw : DistBoundedW K w) :
    relaxPassGen MAX_CUR_NUMBER K fr t w = relaxPassGen K K fr t w := by
  unfold relaxPassGen
  obtain ⟨m, hm⟩ : ∃ m, MAX_CUR_NUMBER = K + m := ⟨MAX_CUR_NUMBER - K, by omega⟩
  rw [hm]
  exact natFold_shrink (DistBoundedW K) _ K m w
    (natFold_invariant (DistBoundedW K) _ K w hw
      (fun b x _ hx => innerFold_preserves hfr ht b _ hx))
    (fun b x hb _ hx => innerFold_fixed_outside hfr ht hb K hx)

theorem relaxPass_localize {K fr t : ℕ} (hfr : fr < K) (ht : t < K)
    (hK : K ≤ MAX_CUR_NUMBER) {w : DWork} (hw : DistBoundedW K w) :
    relaxPass fr t w = relaxPassK K fr t w := by
  have h1 : relaxPass fr t w = relaxPassGen MAX_CUR_NUMBER MAX_CUR_NUMBER fr t w := rfl
  have h2 : relaxPassGen K K fr t w = relaxPassK K fr t w := rfl
  rw [h1, relaxPassGen_inner hfr ht hK hw, relaxPassGen_outer hfr ht hK hw, h2]

theorem relaxPassK_preserves {K fr t : ℕ} (hfr : fr < K) (ht : t < K)
    {w : DWork} (hw : DistBoundedW K w) :
    DistBoundedW K (relaxPassK K fr t w) := by
  unfold relaxPassK relaxPassGen
  exact natFold_invariant (DistBoundedW K) _ K w hw
    (fun b x _ hx => innerFold_preserves hfr ht b _ hx)

theorem foldEdge_localize {K : ℕ} {e : ConvertRate} (hfr : e.«from» < K)
    (ht : e.«to» < K) (hK : K ≤ MAX_CUR_NUMBER) {w : DWork}
    (hw : DistBoundedW K w) : foldEdge w e = foldEdgeK K w e := by
  unfold foldEdge foldEdgeK
  exact relaxPass_localize hfr ht hK hw

theorem foldEdgeK_preserves {K : ℕ} {e : ConvertRate} (hfr : e.«from» < K)
    (ht : e.«to» < K) {w : DWork} (hw : DistBoundedW K w) :
    DistBoundedW K (foldEdgeK K w e) := by
  unfold foldEdgeK
  exact relaxPassK_preserves hfr ht hw

/-- Localisation of the whole dense `init`: when every edge endpoint lies in
`[0, K)`, the `2000 × 2000` relaxation loops may be truncated to `K × K`. -/
theorem Converter.init_localize {K : ℕ} (hK : K ≤ MAX_CUR_NUMBER)
    (s : Converter) {es : List ConvertRate}
    (hes : ∀ e ∈ es, e.«from» < K ∧ e.«to» < K) :
    Converter.init s es = Converter.initK K s es := by
  simp only [Converter.init, Converter.initK]
  have h0 : DistBoundedW K ⟨fun _ _ => defaultCell, s.rates ++ [0], dist0⟩ :=
    distBounded_dist0 K
  rw [foldl_congr_inv (DistBoundedW K) foldEdge (foldEdgeK K)
    es _ h0
    (fun x b hx hb => by
      rw [foldEdge_localize (hes b hb).1 (hes b hb).2 hK hx]
      exact foldEdgeK_preserves (hes b hb).1 (hes b hb).2 hx)
    (fun x b hx hb => foldEdge_localize (hes b hb).1 (hes b hb).2 hK hx)]

theorem bfsScanStep_paths_other (fr start : ℕ)
    (s : (ℕ → Row) × (ℕ → ℕ) × List NextCur) (p : ℕ × Cell) (x : ℕ)
    (hx : x ≠ fr) : (bfsScanStep fr start s p).1 x = s.1 x := by
  simp only [bfsScanStep]
  split
  · simp only [upd1, if_neg hx]
  · rfl

theorem bfsScan_paths_other (fr start : ℕ) (cells : Row)
    (st : (ℕ → Row) × (ℕ → ℕ) × List NextCur) (x : ℕ) (hx : x ≠ fr) :
    (bfsScan fr start cells st).1 x = st.1 x := by
  unfold bfsScan
  exact foldl_invariant (fun s => s.1 x = st.1 x) (bfsScanStep fr start)
    cells st rfl
    (fun s p hs _ => (bfsScanStep_paths_other fr start s p x hx).trans hs)

theorem bfsLoop_paths_other (fr : ℕ) (x : ℕ) (hx : x ≠ fr) :
    ∀ (fuel : ℕ) (st : (ℕ → Row) × (ℕ → ℕ)) (q : List NextCur),
      (bfsLoop fr st q fuel).1 x = st.1 x := by
  intro fuel
  induction fuel with
  | zero =>
    intro st q
    cases q with
    | nil => rfl
    | cons h r => rfl
  | succ m ih =>
    intro st q
    cases q with
    | nil => rfl
    | cons nx rest =>
      simp only [bfsLoop]
      rw [ih]
      exact bfsScan_paths_other fr nx.2 (st.1 nx.1) _ x hx

theorem bfsSource_paths_other (paths : ℕ → Row) (visited : ℕ → ℕ)
    (fr x : ℕ) (hx : x ≠ fr) :
    (bfsSource paths visited fr).1 x = paths x := by
  unfold bfsSource
  rw [bfsLoop_paths_other fr x hx]

theorem bfsSource_trivial (paths : ℕ → Row) (visited : ℕ → ℕ) (fr : ℕ)
    (h : paths fr = []) : (bfsSource paths visited fr).1 = paths := by
  unfold bfsSource
  rw [h]
  rfl

theorem bfsDirect_rowsBelow {K : ℕ} {e : ConvertRate} (hfr : e.«from» < K)
    (ht : e.«to» < K) {pr : (ℕ → Row) × List ℚ}
    (h : ∀ x, K ≤ x → pr.1 x = []) :
    ∀ x, K ≤ x → (bfsDirect pr e).1 x = [] := by
  intro x hx
  unfold bfsDirect
  simp only [upd1]
  rw [if_neg (by omega), if_neg (by omega)]
  exact h x hx

theorem bfsSource_rowsBelow {K fr : ℕ} (hfr : fr < K)
    {st : (ℕ → Row) × (ℕ → ℕ)} (h : RowsBelow K st) :
    RowsBelow K (bfsSource st.1 st.2 fr) := by
  intro x hx
  show (bfsSource st.1 st.2 fr).1 x = []
  rw [bfsSource_paths_other st.1 st.2 fr x (by omega)]
  exact h x hx

theorem bfsSource_rowsBelow_outside {K fr : ℕ} (hfr : K ≤ fr)
    {st : (ℕ → Row) × (ℕ → ℕ)} (h : RowsBelow K st) :
    RowsBelow K (bfsSource st.1 st.2 fr) := by
  intro x hx
  show (bfsSource st.1 st.2 fr).1 x = []
  rw [bfsSource_trivial st.1 st.2 fr (h fr hfr)]
  exact h x hx

theorem bfsSource_fixed_outside {K fr : ℕ} (hfr : K ≤ fr)
    {st : (ℕ → Row) × (ℕ → ℕ)} (h : RowsBelow K st) :
    pathsOf (bfsSource st.1 st.2 fr) = pathsOf st := by
  show (bfsSource st.1 st.2 fr).1 = st.1
  exact bfsSource_trivial st.1 st.2 fr (h fr hfr)

/-- Localisation of the BFS `init`: when every edge endpoint lies in
`[0, K)`, the 2000 per-source breadth-first runs may be truncated to the
first `K` sources. -/
theorem BFSConverter.init_localize_bfs {K : ℕ} (hK : K ≤ MAX_CUR_NUMBER)
    (s : BFSConverter) {es : List ConvertRate}
    (hes : ∀ e ∈ es, e.«from» < K ∧ e.«to» < K) :
    BFSConverter.init s es = BFSConverter.initK K es := by
  simp only [BFSConverter.init, BFSConverter.initK]
  have hmk : ∀ (p q : ℕ → Row) (rs : List ℚ), p = q →
      BFSConverter.mk p rs = BFSConverter.mk q rs := by
    intro p q rs h
    rw [h]
  apply hmk
  set A : (ℕ → Row) × (ℕ → ℕ) :=
    ((es.foldl bfsDirect ((fun _ => []), ([0] : List ℚ))).1,
     fun _ => MAX_CUR_NUMBER)
  have hdir : ∀ x, K ≤ x →
      (es.foldl bfsDirect ((fun _ => []), ([0] : List ℚ))).1 x = [] :=
    foldl_invariant (fun pr => ∀ x, K ≤ x → pr.1 x = []) bfsDirect es _
      (fun _ _ => rfl)
      (fun pr e hpr he =>
        bfsDirect_rowsBelow (hes e he).1 (hes e he).2 hpr)
  have hrows : RowsBelow K (natFold (fun fr (st : (ℕ → Row) × (ℕ → ℕ)) =>
      bfsSource st.1 st.2 fr) K A) :=
    natFold_invariant (RowsBelow K) _ K A (fun x hx => hdir x hx)
      (fun i x hi hx => bfsSource_rowsBelow hi hx)
  obtain ⟨m, hm⟩ : ∃ m, MAX_CUR_NUMBER = K + m := ⟨MAX_CUR_NUMBER - K, by omega⟩
  have hp : pathsOf (natFold (fun fr (st : (ℕ → Row) × (ℕ → ℕ)) =>
        bfsSource st.1 st.2 fr) MAX_CUR_NUMBER A) =
      pathsOf (natFold (fun fr (st : (ℕ → Row) × (ℕ → ℕ)) =>
        bfsSource st.1 st.2 fr) K A) := by
    rw [hm]
    exact natFold_proj_shrink pathsOf (RowsBelow K) _ K m A hrows
      (fun i x hi _ hx => bfsSource_rowsBelow_outside hi hx)
      (fun i x hi _ hx => bfsSource_fixed_outside hi hx)
  exact hp

/-! ## Unfolding lemmas for the query loops -/

theorem Converter.walk_eval (s : Converter) (t prev : ℕ) (tot : ℚ)
    (fuel : ℕ) (h : fuel ≠ 0) :
    Converter.walk s t prev tot fuel =
      (if (s.rate_table prev t).nextCur = t
       then some (stepTotal s.rates
         (s.rate_table prev ((s.rate_table prev t).nextCur)).rateId tot)
       else Converter.walk s t ((s.rate_table prev t).nextCur)
         (stepTotal s.rates
           (s.rate_table prev ((s.rate_table prev t).nextCur)).rateId tot)
         (fuel - 1)) := by
  cases fuel with
  | zero => exact absurd rfl h
  | succ n => rfl

theorem BFSConverter.walk_eval_bfs (rs : List ℚ) (t : ℕ) (paths : ℕ → Row)
    (prev : ℕ) (tot : ℚ) (fuel : ℕ) (h : fuel ≠ 0) :
    BFSConverter.walk rs t paths prev tot fuel =
      (let c1 := Row.index (paths prev) t
       let paths1 := upd1 paths prev c1.2
       let c2 := Row.index (paths1 prev) c1.1.nextCur
       let paths2 := upd1 paths1 prev c2.2
       if c1.1.nextCur = t
       then (some (stepTotal rs c2.1.rateId tot), paths2)
       else BFSConverter.walk rs t paths2 c1.1.nextCur
         (stepTotal rs c2.1.rateId tot) (fuel - 1)) := by
  cases fuel with
  | zero => exact absurd rfl h
  | succ n => rfl

/-- Evaluation of a dense two-hop query `fr → m → t` from the routing
facts. -/
theorem Converter.convert_2hop (s : Converter) (v : ℚ) (fr m t : ℕ)
    (q1 q2 : ℚ)
    (h0 : (s.rate_table fr t).nextCur = m) (hmMAX : m ≠ MAX_CUR_NUMBER)
    (hmt : m ≠ t)
    (h1 : (s.rate_table m t).nextCur = t)
    (hs1 : stepTotal s.rates (s.rate_table fr m).rateId 1 = q1)
    (hs2 : stepTotal s.rates (s.rate_table m t).rateId q1 = q2) :
    Converter.convert s v fr t = some (q2 * v) := by
  unfold Converter.convert
  rw [h0, if_neg hmMAX]
  rw [Converter.walk_eval _ _ _ _ _ (by norm_num [MAX_CUR_NUMBER]), h0,
    if_neg hmt, hs1]
  rw [Converter.walk_eval _ _ _ _ _ (by norm_num [MAX_CUR_NUMBER]), h1,
    if_pos rfl, hs2]
  rfl

/-- Evaluation of a sparse two-hop query `fr → m → t` from the routing
facts. -/
theorem BFSConverter.convert_2hop_bfs (s : BFSConverter) (v : ℚ) (fr m t : ℕ)
    (q1 q2 : ℚ) (c1 c2 c3 : Cell)
    (hcount : Row.countKey (s.mPaths fr) t ≠ 0)
    (hfrt : fr ≠ t) (hfrm : fr ≠ m) (hmt : m ≠ t)
    (l1 : Row.lookup (s.mPaths fr) t = some c1) (hc1 : c1.nextCur = m)
    (l2 : Row.lookup (s.mPaths fr) m = some c2)
    (l3 : Row.lookup (s.mPaths m) t = some c3) (hc3 : c3.nextCur = t)
    (hs1 : stepTotal s.mRates c2.rateId 1 = q1)
    (hs2 : stepTotal s.mRates c3.rateId q1 = q2) :
    (BFSConverter.convert s v fr t).1 = some (q2 * v) := by
  unfold BFSConverter.convert
  rw [if_neg hcount, if_neg hfrt]
  rw [BFSConverter.walk_eval_bfs _ _ _ _ _ _ (by norm_num [MAX_CUR_NUMBER])]
  simp only [Row.index, l1, hc1]
  simp [upd1, l2, hmt, hs1]
  refine ⟨q2, ?_, Or.inl rfl⟩
  rw [BFSConverter.walk_eval_bfs _ _ _ _ _ _ (by norm_num [MAX_CUR_NUMBER])]
  have hmfr : ¬(m = fr) := by omega
  simp [upd1, hmfr, Row.index, l3, hc3, hs2]

theorem refRates_bounded : ∀ e ∈ refRates, e.«from» < 5 ∧ e.«to» < 5 := by
  decide

set_option maxRecDepth 40000 in
theorem denseRef_forward :
    Converter.convert (Converter.init Converter.mkNew refRates) 100 0 3 =
      some 3000 := by
  rw [Converter.init_localize (K := 5) (by norm_num [MAX_CUR_NUMBER])
    Converter.mkNew refRates_bounded]
  rw [Converter.convert_2hop (Converter.initK 5 Converter.mkNew refRates)
    100 0 4 3 6 30
    (by decide) (by norm_num [MAX_CUR_NUMBER]) (by norm_num)
    (by decide)
    (by rw [show ((Converter.initK 5 Converter.mkNew refRates).rate_table
          0 4).rateId = 5 from by decide]
        norm_num [stepTotal,
          show rateVal (Converter.initK 5 Converter.mkNew refRates).rates 5
            = (6 : ℚ) from rfl])
    (by rw [show ((Converter.initK 5 Converter.mkNew refRates).rate_table
          4 3).rateId = 4 from by decide]
        norm_num [stepTotal,
          show rateVal (Converter.initK 5 Converter.mkNew refRates).rates 4
            = (5 : ℚ) from rfl])]
  norm_num

set_option maxRecDepth 40000 in
theorem denseRef_backward :
    Converter.convert (Converter.init Converter.mkNew refRates) 3000 3 0 =
      some 100 := by
  rw [Converter.init_localize (K := 5) (by norm_num [MAX_CUR_NUMBER])
    Converter.mkNew refRates_bounded]
  rw [Converter.convert_2hop (Converter.initK 5 Converter.mkNew refRates)
    3000 3 4 0 (1 / 5) (1 / 30)
    (by decide) (by norm_num [MAX_CUR_NUMBER]) (by norm_num)
    (by decide)
    (by rw [show ((Converter.initK 5 Converter.mkNew refRates).rate_table
          3 4).rateId = -4 from by decide]
        norm_num [stepTotal,
          show rateVal (Converter.initK 5 Converter.mkNew refRates).rates 4
            = (5 : ℚ) from rfl])
    (by rw [show ((Converter.initK 5 Converter.mkNew refRates).rate_table
          4 0).rateId = -5 from by decide]
        norm_num [stepTotal,
          show rateVal (Converter.initK 5 Converter.mkNew refRates).rates 5
            = (6 : ℚ) from rfl])]
  norm_num

set_option maxRecDepth 40000 in
theorem bfsRef_forward :
    (BFSConverter.convert (BFSConverter.init BFSConverter.mkNew refRates) 100 0 3).1 =
      some 3000 := by
  rw [BFSConverter.init_localize_bfs (K := 5) (by norm_num [MAX_CUR_NUMBER])
    BFSConverter.mkNew refRates_bounded]
  rw [BFSConverter.convert_2hop_bfs (BFSConverter.initK 5 refRates)
    100 0 4 3 6 30 ⟨0, 4⟩ ⟨5, 4⟩ ⟨4, 3⟩
    (by decide) (by norm_num) (by norm_num) (by norm_num)
    (by decide) rfl (by decide) (by decide) rfl
    (by norm_num [stepTotal,
      show rateVal (BFSConverter.initK 5 refRates).mRates 5 = (6 : ℚ) from rfl])
    (by norm_num [stepTotal,
      show rateVal (BFSConverter.initK 5 refRates).mRates 4 = (5 : ℚ) from rfl])]
  norm_num

set_option maxRecDepth 40000 in
theorem bfsRef_backward :
    (BFSConverter.convert (BFSConverter.init BFSConverter.mkNew refRates) 3000 3 0).1 =
      some 100 := by
  rw [BFSConverter.init_localize_bfs (K := 5) (by norm_num [MAX_CUR_NUMBER])
    BFSConverter.mkNew refRates_bounded]
  rw [BFSConverter.convert_2hop_bfs (BFSConverter.initK 5 refRates)
    3000 3 4 0 (1 / 5) (1 / 30) ⟨0, 4⟩ ⟨-4, 4⟩ ⟨-5, 0⟩
    (by decide) (by norm_num) (by norm_num) (by norm_num)
    (by decide) rfl (by decide) (by decide) rfl
    (by norm_num [stepTotal,
      show rateVal (BFSConverter.initK 5 refRates).mRates 4 = (5 : ℚ) from rfl])
    (by norm_num [stepTotal,
      show rateVal (BFSConverter.initK 5 refRates).mRates 5 = (6 : ℚ) from rfl])]
  norm_num

theorem adjE_symm {es : List ConvertRate} {u v : ℕ} (h : adjE es u v) :
    adjE es v u := by
  rcases h with ⟨e, he, h | h⟩
  · exact ⟨e, he, Or.inr h⟩
  · exact ⟨e, he, Or.inl h⟩

set_option maxRecDepth 40000 in
theorem denseSelf_oneEdge :
    Converter.convert (Converter.init Converter.mkNew oneEdge) 100 0 0 =
      some 0 := by
  rw [Converter.init_localize (K := 2) (by norm_num [MAX_CUR_NUMBER])
    Converter.mkNew (by decide)]
  unfold Converter.convert
  rw [show ((Converter.initK 2 Converter.mkNew oneEdge).rate_table
      0 0).nextCur = MAX_CUR_NUMBER from by decide]
  rw [if_pos rfl]

set_option maxRecDepth 40000 in
theorem bfsSelf_oneEdge :
    (BFSConverter.convert (BFSConverter.init BFSConverter.mkNew oneEdge) 100 0 0).1 =
      some 0 := by
  rw [BFSConverter.init_localize_bfs (K := 2) (by norm_num [MAX_CUR_NUMBER])
    BFSConverter.mkNew (by decide)]
  unfold BFSConverter.convert
  rw [if_pos (show Row.countKey ((BFSConverter.initK 2 oneEdge).mPaths 0) 0
    = 0 from by decide)]

/-- C1 (counterexample): the claim as stated is false at the edge set
`[(0, 1, r=2)]`, amount `100`, `from = to = 0`: the empty path connects `0`
to itself with the minimum number of hops (zero) and empty product `1`, so
the claim demands `some 100`, but both implementations return `some 0`. -/
theorem C1_counterexample : ¬ C1Statement := by
  intro h
  obtain ⟨hdense, -, -, -, -, -⟩ := h
  obtain ⟨p, hp, hend, hmin, hconv⟩ :=
    hdense oneEdge Converter.mkNew 100 0 0 (by decide) (by decide)
      (by norm_num [MAX_CUR_NUMBER]) (by norm_num [MAX_CUR_NUMBER])
      ⟨0, PathN.refl 0⟩
  have hlen : p.length = 0 := Nat.le_zero.mp (hmin.2 0 (PathN.refl 0))
  have hpnil : p = [] := List.length_eq_zero.mp hlen
  subst hpnil
  rw [denseSelf_oneEdge] at hconv
  have h0 : (0 : ℚ) = 100 * pathProd oneEdge 0 [] := Option.some.inj hconv
  norm_num [pathProd] at h0

/-- C2 (code bug): at the edge set `[(0, 1, r=2)]`, which has no self-loop
for currency `0`, both implementations answer the identity query
`convert(100, 0, 0)` with the sentinel `0` instead of the amount `100`
required by the spec's identity property. -/
theorem C2_identity_code_bug :
    Converter.convert (Converter.init Converter.mkNew oneEdge) 100 0 0 =
      some 0 ∧
    (BFSConverter.convert (BFSConverter.init BFSConverter.mkNew oneEdge) 100 0 0).1 = some 0 ∧
    (some (0 : ℚ) : Option ℚ) ≠ some (100 : ℚ) :=
  ⟨denseSelf_oneEdge, bfsSelf_oneEdge, by norm_num⟩

theorem tieRates_bounded : ∀ e ∈ tieRates, e.«from» < 4 ∧ e.«to» < 4 := by
  decide

set_option maxRecDepth 40000 in
theorem denseTie_eval :
    Converter.convert (Converter.init Converter.mkNew tieRates) 100 0 3 =
      some 100 := by
  rw [Converter.init_localize (K := 4) (by norm_num [MAX_CUR_NUMBER])
    Converter.mkNew tieRates_bounded]
  rw [Converter.convert_2hop (Converter.initK 4 Converter.mkNew tieRates)
    100 0 2 3 1 1
    (by decide) (by norm_num [MAX_CUR_NUMBER]) (by norm_num)
    (by decide)
    (by rw [show ((Converter.initK 4 Converter.mkNew tieRates).rate_table
          0 2).rateId = 3 from by decide]
        norm_num [stepTotal,
          show rateVal (Converter.initK 4 Converter.mkNew tieRates).rates 3
            = (1 : ℚ) from rfl])
    (by rw [show ((Converter.initK 4 Converter.mkNew tieRates).rate_table
          2 3).rateId = 1 from by decide]
        norm_num [stepTotal,
          show rateVal (Converter.initK 4 Converter.mkNew tieRates).rates 1
            = (1 : ℚ) from rfl])]
  norm_num

set_option maxRecDepth 40000 in
theorem bfsTie_eval :
    (BFSConverter.convert (BFSConverter.init BFSConverter.mkNew tieRates) 100 0 3).1 =
      some 1000 := by
  rw [BFSConverter.init_localize_bfs (K := 4) (by norm_num [MAX_CUR_NUMBER])
    BFSConverter.mkNew tieRates_bounded]
  rw [BFSConverter.convert_2hop_bfs (BFSConverter.initK 4 tieRates)
    100 0 1 3 1 10 ⟨0, 1⟩ ⟨2, 1⟩ ⟨4, 3⟩
    (by decide) (by norm_num) (by norm_num) (by norm_num)
    (by decide) rfl (by decide) (by decide) rfl
    (by norm_num [stepTotal,
      show rateVal (BFSConverter.initK 4 tieRates).mRates 2 = (1 : ℚ) from rfl])
    (by norm_num [stepTotal,
      show rateVal (BFSConverter.initK 4 tieRates).mRates 4 = (10 : ℚ) from rfl])]
  norm_num

/-- C3 (counterexample): at the edge set `tieRates`, the pair `(0, 3)` is
reachable but the dense implementation answers `100` while the BFS one
answers `1000` — far beyond any floating-point tolerance. -/
theorem C3_counterexample : ¬ C3Statement := by
  intro h
  have hreach : Reach tieRates 0 3 :=
    ⟨2, PathN.cons ⟨⟨0, 1, 1⟩, by norm_num [tieRates], Or.inl ⟨rfl, rfl⟩⟩
      (PathN.cons ⟨⟨1, 3, 10⟩, by norm_num [tieRates], Or.inl ⟨rfl, rfl⟩⟩
        (PathN.refl 3))⟩
  have heq := (h tieRates 100 0 3 (by decide) (by decide)
    (by norm_num [MAX_CUR_NUMBER]) (by norm_num [MAX_CUR_NUMBER])).1 hreach
  rw [denseTie_eval, bfsTie_eval] at heq
  have : (100 : ℚ) = 1000 := Option.some.inj heq
  norm_num at this

/-- C6: in the shared query-loop step (used verbatim by both
implementations, main.cpp lines 106-113 and 220-227), a hop with a negative
signed rate index divides the accumulated multiplier by the provider's
value only when that value is nonzero; when the value is exactly `0` the
multiplier is set to `0` instead, so no division by zero is ever
executed. -/
theorem C6_inverse_hop_no_div_by_zero :
    ∀ (rs : List ℚ) (rateId : ℤ) (tot : ℚ), rateId < 0 →
      (rateVal rs (-rateId) = 0 → stepTotal rs rateId tot = 0) ∧
      (rateVal rs (-rateId) ≠ 0 →
        stepTotal rs rateId tot = tot / rateVal rs (-rateId)) := by
  intro rs rateId tot hneg
  constructor
  · intro h0
    unfold stepTotal
    rw [if_neg (by omega), if_pos h0]
  · intro h0
    unfold stepTotal
    rw [if_neg (by omega), if_neg h0]

theorem C6_inverse_hop_no_div_by_zero_witness :
    ((-2 : ℤ) < 0) ∧
    ((rateVal [0, 4, 0] (-(-2 : ℤ)) = 0 →
        stepTotal [0, 4, 0] (-2) 7 = 0) ∧
      (rateVal [0, 4, 0] (-(-2 : ℤ)) ≠ 0 →
        stepTotal [0, 4, 0] (-2) 7 = 7 / rateVal [0, 4, 0] (-(-2 : ℤ)))) :=
  ⟨by norm_num, C6_inverse_hop_no_div_by_zero [0, 4, 0] (-2) 7 (by norm_num)⟩

theorem upd2_self {α : Type} (f : ℕ → ℕ → α) (a b : ℕ) (v : α) :
    upd2 f a b v a b = v := by
  unfold upd2
  rw [if_pos ⟨rfl, rfl⟩]

theorem upd2_ne {α : Type} (f : ℕ → ℕ → α) (a b : ℕ) (v : α) {i j : ℕ}
    (h : ¬(i = a ∧ j = b)) : upd2 f a b v i j = f i j := by
  unfold upd2
  rw [if_neg h]

theorem relaxStep_dist_at {fr t i j : ℕ} {w : DWork}
    (h1 : w.dist fr i ≠ UNREACHABLE) (h2 : w.dist t j ≠ UNREACHABLE)
    (h3 : cand fr t i j w < w.dist i j) :
    (relaxStep fr t i j w).dist i j = cand fr t i j w := by
  rw [relaxStep_update h1 h2 h3]
  show upd2 (upd2 w.dist i j (cand fr t i j w)) j i (cand fr t i j w) i j =
    cand fr t i j w
  by_cases hij : i = j
  · subst hij
    exact upd2_self _ i i _
  · rw [upd2_ne (upd2 w.dist i j (cand fr t i j w)) j i (cand fr t i j w)
      (fun hc => hij hc.1)]
    exact upd2_self _ i j _

/-- C7: one iteration of the dense relaxation (main.cpp lines 75-83) leaves
the state completely unchanged unless the candidate distance through the
new edge is strictly smaller than the recorded distance; the recorded
distance never increases, and the routing cells change only together with a
strict distance decrease — so a path of equal hop-length never replaces the
one discovered first. -/
theorem C7_strictly_shorter_replaces :
    (∀ (fr t i j : ℕ) (w : DWork),
      w.dist i j ≤ cand fr t i j w → relaxStep fr t i j w = w) ∧
    (∀ (fr t i j : ℕ) (w : DWork),
      (relaxStep fr t i j w).dist i j ≤ w.dist i j) ∧
    (∀ (fr t i j : ℕ) (w : DWork),
      (relaxStep fr t i j w).tbl ≠ w.tbl →
        (relaxStep fr t i j w).dist i j < w.dist i j) := by
  refine ⟨fun fr t i j w h => relaxStep_skip_ge h, ?_, ?_⟩
  · intro fr t i j w
    by_cases h1 : w.dist fr i = UNREACHABLE
    · rw [relaxStep_skip_guard (Or.inl h1)]
    by_cases h2 : w.dist t j = UNREACHABLE
    · rw [relaxStep_skip_guard (Or.inr h2)]
    by_cases h3 : w.dist i j ≤ cand fr t i j w
    · rw [relaxStep_skip_ge h3]
    · rw [relaxStep_dist_at h1 h2 (by omega)]
      omega
  · intro fr t i j w hne
    by_cases h1 : w.dist fr i = UNREACHABLE
    · rw [relaxStep_skip_guard (Or.inl h1)] at hne ⊢
      exact absurd rfl hne
    by_cases h2 : w.dist t j = UNREACHABLE
    · rw [relaxStep_skip_guard (Or.inr h2)] at hne ⊢
      exact absurd rfl hne
    by_cases h3 : w.dist i j ≤ cand fr t i j w
    · rw [relaxStep_skip_ge h3] at hne ⊢
      exact absurd rfl hne
    · rw [relaxStep_dist_at h1 h2 (by omega)]
      omega

theorem C7_strictly_shorter_replaces_witness :
    ((⟨fun _ _ => defaultCell, [], dist0⟩ : DWork).dist 2 3 ≤
        cand 0 1 2 3 ⟨fun _ _ => defaultCell, [], dist0⟩ ∧
      relaxStep 0 1 2 3 ⟨fun _ _ => defaultCell, [], dist0⟩ =
        ⟨fun _ _ => defaultCell, [], dist0⟩) ∧
    (relaxStep 0 1 2 3 ⟨fun _ _ => defaultCell, [], dist0⟩).dist 2 3 ≤
      (⟨fun _ _ => defaultCell, [], dist0⟩ : DWork).dist 2 3 ∧
    ((relaxStep 0 1 0 1 ⟨fun _ _ => defaultCell, [], dist0⟩).tbl ≠
        (⟨fun _ _ => defaultCell, [], dist0⟩ : DWork).tbl ∧
      (relaxStep 0 1 0 1 ⟨fun _ _ => defaultCell, [], dist0⟩).dist 0 1 <
        (⟨fun _ _ => defaultCell, [], dist0⟩ : DWork).dist 0 1) := by
  have htne : (relaxStep 0 1 0 1 ⟨fun _ _ => defaultCell, [], dist0⟩).tbl ≠
      (⟨fun _ _ => defaultCell, [], dist0⟩ : DWork).tbl := by
    intro hEq
    have h01 := congrFun (congrFun hEq 0) 1
    exact absurd h01 (by decide)
  exact ⟨⟨by decide,
      C7_strictly_shorter_replaces.1 0 1 2 3 _ (by decide)⟩,
    C7_strictly_shorter_replaces.2.1 0 1 2 3 _,
    htne, C7_strictly_shorter_replaces.2.2 0 1 0 1 _ htne⟩

theorem stepTotal_zero (rs : List ℚ) (rid : ℤ) : stepTotal rs rid 0 = 0 := by
  unfold stepTotal
  split
  · rw [zero_mul]
  · show (if rateVal rs (-rid) = 0 then 0 else (0 : ℚ) / rateVal rs (-rid)) = 0
    split
    · rfl
    · rw [zero_div]

theorem stepTotal_of_provider_zero (rs : List ℚ) (rid : ℤ) (tot : ℚ)
    (h : providerVal rs rid = 0) : stepTotal rs rid tot = 0 := by
  unfold stepTotal rateVal
  unfold providerVal at h
  split
  · rename_i hpos
    rw [show rid.toNat = rid.natAbs from by omega, h, mul_zero]
  · rename_i hpos
    show (if rs.getD (-rid).toNat 0 = 0 then 0
      else tot / rs.getD (-rid).toNat 0) = 0
    rw [show (-rid).toNat = rid.natAbs from by omega, h, if_pos rfl]

theorem Converter.walk_succ (s : Converter) (t prev : ℕ) (tot : ℚ)
    (n : ℕ) :
    Converter.walk s t prev tot (n + 1) =
      if (s.rate_table prev t).nextCur = t
      then some (stepTotal s.rates
        (s.rate_table prev ((s.rate_table prev t).nextCur)).rateId tot)
      else Converter.walk s t ((s.rate_table prev t).nextCur)
        (stepTotal s.rates
          (s.rate_table prev ((s.rate_table prev t).nextCur)).rateId tot)
        n := rfl

theorem Converter.walkIds_succ (s : Converter) (t prev : ℕ) (n : ℕ) :
    Converter.walkIds s t prev (n + 1) =
      if (s.rate_table prev t).nextCur = t
      then [(s.rate_table prev ((s.rate_table prev t).nextCur)).rateId]
      else (s.rate_table prev ((s.rate_table prev t).nextCur)).rateId ::
        Converter.walkIds s t ((s.rate_table prev t).nextCur) n := rfl

theorem Converter.walk_zero_tot (s : Converter) (t : ℕ) :
    ∀ (fuel prev : ℕ), Converter.walk s t prev 0 fuel = none ∨
      Converter.walk s t prev 0 fuel = some 0 := by
  intro fuel
  induction fuel with
  | zero => exact fun _ => Or.inl rfl
  | succ n ih =>
    intro prev
    rw [Converter.walk_succ, stepTotal_zero]
    split
    · exact Or.inr rfl
    · exact ih _

theorem Converter.walk_zero_of_zero_id (s : Converter) (t : ℕ) :
    ∀ (fuel prev : ℕ) (tot : ℚ),
      (∃ rid ∈ Converter.walkIds s t prev fuel,
        providerVal s.rates rid = 0) →
      Converter.walk s t prev tot fuel = none ∨
        Converter.walk s t prev tot fuel = some 0 := by
  intro fuel
  induction fuel with
  | zero =>
    intro prev tot h
    exact absurd h.choose_spec.1 (List.not_mem_nil _)
  | succ n ih =>
    intro prev tot h
    obtain ⟨rid, hmem, hzero⟩ := h
    rw [Converter.walkIds_succ] at hmem
    rw [Converter.walk_succ]
    by_cases hstop : (s.rate_table prev t).nextCur = t
    · rw [if_pos hstop] at hmem ⊢
      simp only [List.mem_singleton] at hmem
      subst hmem
      rw [stepTotal_of_provider_zero _ _ _ hzero]
      exact Or.inr rfl
    · rw [if_neg hstop] at hmem ⊢
      rcases List.mem_cons.mp hmem with hhd | htl
      · subst hhd
        rw [stepTotal_of_provider_zero _ _ _ hzero]
        exact Converter.walk_zero_tot s t n _
      · exact ih _ _ ⟨rid, htl, hzero⟩

theorem BFSConverter.walk_succ_bfs (rs : List ℚ) (t : ℕ) (paths : ℕ → Row)
    (prev : ℕ) (tot : ℚ) (n : ℕ) :
    BFSConverter.walk rs t paths prev tot (n + 1) =
      (if (Row.index (paths prev) t).1.nextCur = t
       then (some (stepTotal rs
         (Row.index ((upd1 paths prev (Row.index (paths prev) t).2) prev)
           (Row.index (paths prev) t).1.nextCur).1.rateId tot),
         upd1 (upd1 paths prev (Row.index (paths prev) t).2) prev
           (Row.index ((upd1 paths prev (Row.index (paths prev) t).2) prev)
             (Row.index (paths prev) t).1.nextCur).2)
       else BFSConverter.walk rs t
         (upd1 (upd1 paths prev (Row.index (paths prev) t).2) prev
           (Row.index ((upd1 paths prev (Row.index (paths prev) t).2) prev)
             (Row.index (paths prev) t).1.nextCur).2)
         ((Row.index (paths prev) t).1.nextCur)
         (stepTotal rs
           (Row.index ((upd1 paths prev (Row.index (paths prev) t).2) prev)
             (Row.index (paths prev) t).1.nextCur).1.rateId tot)
         n) := rfl

theorem BFSConverter.walkIds_succ_bfs (t : ℕ) (paths : ℕ → Row) (prev n : ℕ) :
    BFSConverter.walkIds t paths prev (n + 1) =
      (if (Row.index (paths prev) t).1.nextCur = t
       then [(Row.index ((upd1 paths prev (Row.index (paths prev) t).2) prev)
         (Row.index (paths prev) t).1.nextCur).1.rateId]
       else (Row.index ((upd1 paths prev (Row.index (paths prev) t).2) prev)
           (Row.index (paths prev) t).1.nextCur).1.rateId ::
         BFSConverter.walkIds t
           (upd1 (upd1 paths prev (Row.index (paths prev) t).2) prev
             (Row.index ((upd1 paths prev (Row.index (paths prev) t).2) prev)
               (Row.index (paths prev) t).1.nextCur).2)
           ((Row.index (paths prev) t).1.nextCur) n) := rfl

theorem BFSConverter.walk_zero_tot_bfs (rs : List ℚ) (t : ℕ) :
    ∀ (fuel prev : ℕ) (paths : ℕ → Row),
      (BFSConverter.walk rs t paths prev 0 fuel).1 = none ∨
        (BFSConverter.walk rs t paths prev 0 fuel).1 = some 0 := by
  intro fuel
  induction fuel with
  | zero => exact fun _ _ => Or.inl rfl
  | succ n ih =>
    intro prev paths
    rw [BFSConverter.walk_succ_bfs, stepTotal_zero]
    split
    · exact Or.inr rfl
    · exact ih _ _

theorem BFSConverter.walk_zero_of_zero_id_bfs (rs : List ℚ) (t : ℕ) :
    ∀ (fuel prev : ℕ) (paths : ℕ → Row) (tot : ℚ),
      (∃ rid ∈ BFSConverter.walkIds t paths prev fuel,
        providerVal rs rid = 0) →
      (BFSConverter.walk rs t paths prev tot fuel).1 = none ∨
        (BFSConverter.walk rs t paths prev tot fuel).1 = some 0 := by
  intro fuel
  induction fuel with
  | zero =>
    intro prev paths tot h
    exact absurd h.choose_spec.1 (List.not_mem_nil _)
  | succ n ih =>
    intro prev paths tot h
    obtain ⟨rid, hmem, hzero⟩ := h
    rw [BFSConverter.walkIds_succ_bfs] at hmem
    rw [BFSConverter.walk_succ_bfs]
    by_cases hstop : (Row.index (paths prev) t).1.nextCur = t
    · rw [if_pos hstop] at hmem ⊢
      simp only [List.mem_singleton] at hmem
      subst hmem
      rw [stepTotal_of_provider_zero _ _ _ hzero]
      exact Or.inr rfl
    · rw [if_neg hstop] at hmem ⊢
      rcases List.mem_cons.mp hmem with hhd | htl
      · subst hhd
        rw [stepTotal_of_provider_zero _ _ _ hzero]
        exact BFSConverter.walk_zero_tot_bfs rs t n _ _
      · exact ih _ _ _ ⟨rid, htl, hzero⟩

/-- C5: if any provider resolved along the chosen path returns `0` at query
time — forward or inverted, at any position — then a completed query
returns exactly `0`, for both implementations. -/
theorem C5_zero_provider_propagates :
    (∀ (s : Converter) (v : ℚ) (fr t : ℕ) (r : ℚ),
      (∃ rid ∈ Converter.chosenIds s fr t, providerVal s.rates rid = 0) →
      Converter.convert s v fr t = some r → r = 0) ∧
    (∀ (s : BFSConverter) (v : ℚ) (fr t : ℕ) (r : ℚ),
      (∃ rid ∈ BFSConverter.chosenIds s fr t, providerVal s.mRates rid = 0) →
      (BFSConverter.convert s v fr t).1 = some r → r = 0) := by
  constructor
  · intro s v fr t r hzero hconv
    unfold Converter.convert at hconv
    unfold Converter.chosenIds at hzero
    by_cases hguard : (s.rate_table fr t).nextCur = MAX_CUR_NUMBER
    · rw [if_pos hguard] at hconv
      exact (Option.some.inj hconv).symm
    · rw [if_neg hguard] at hconv hzero
      rcases Converter.walk_zero_of_zero_id s t MAX_CUR_NUMBER fr 1 hzero with
        hw | hw
      · rw [hw] at hconv
        simp only [Option.map_none'] at hconv
        exact Option.noConfusion hconv
      · rw [hw] at hconv
        simp only [Option.map_some'] at hconv
        rw [← Option.some.inj hconv]
        show (0 : ℚ) * v = 0
        rw [zero_mul]
  · intro s v fr t r hzero hconv
    unfold BFSConverter.convert at hconv
    unfold BFSConverter.chosenIds at hzero
    by_cases hcount : Row.countKey (s.mPaths fr) t = 0
    · rw [if_pos hcount] at hconv
      exact (Option.some.inj hconv).symm
    · rw [if_neg hcount] at hconv hzero
      by_cases hft : fr = t
      · rw [if_pos hft] at hzero
        exact absurd hzero.choose_spec.1 (List.not_mem_nil _)
      · rw [if_neg hft] at hconv hzero
        rcases BFSConverter.walk_zero_of_zero_id_bfs s.mRates t MAX_CUR_NUMBER fr
          s.mPaths 1 hzero with hw | hw
        · rw [hw] at hconv
          simp only [Option.map_none'] at hconv
          exact Option.noConfusion hconv
        · rw [hw] at hconv
          simp only [Option.map_some'] at hconv
          rw [← Option.some.inj hconv]
          show (0 : ℚ) * v = 0
          rw [zero_mul]

/-- Evaluation of a dense one-hop query from the routing facts. -/
theorem Converter.convert_1hop (s : Converter) (v : ℚ) (fr t : ℕ) (q1 : ℚ)
    (h0 : (s.rate_table fr t).nextCur = t) (htMAX : t ≠ MAX_CUR_NUMBER)
    (hs1 : stepTotal s.rates (s.rate_table fr t).rateId 1 = q1) :
    Converter.convert s v fr t = some (q1 * v) := by
  unfold Converter.convert
  rw [h0, if_neg htMAX]
  rw [Converter.walk_eval _ _ _ _ _ (by norm_num [MAX_CUR_NUMBER]), h0,
    if_pos rfl, hs1]
  rfl

set_option maxRecDepth 40000 in
theorem C5_zero_provider_propagates_witness :
    (∃ rid ∈ Converter.chosenIds (Converter.initK 2 Converter.mkNew zeroEdge)
      0 1, providerVal (Converter.initK 2 Converter.mkNew zeroEdge).rates
        rid = 0) ∧
    Converter.convert (Converter.initK 2 Converter.mkNew zeroEdge) 100 0 1 =
      some 0 ∧
    (0 : ℚ) = 0 := by
  have hz : ∃ rid ∈ Converter.chosenIds
      (Converter.initK 2 Converter.mkNew zeroEdge) 0 1,
      providerVal (Converter.initK 2 Converter.mkNew zeroEdge).rates
        rid = 0 := by
    refine ⟨1, ?_, ?_⟩
    · unfold Converter.chosenIds
      rw [if_neg (by decide)]
      rw [show MAX_CUR_NUMBER = 1999 + 1 from rfl, Converter.walkIds_succ]
      rw [show ((Converter.initK 2 Converter.mkNew zeroEdge).rate_table
        0 1).nextCur = 1 from by decide]
      rw [if_pos rfl]
      rw [show ((Converter.initK 2 Converter.mkNew zeroEdge).rate_table
        0 1).rateId = 1 from by decide]
      exact List.mem_singleton.mpr rfl
    · show (Converter.initK 2 Converter.mkNew zeroEdge).rates.getD 1 0 = 0
      rfl
  have hc : Converter.convert (Converter.initK 2 Converter.mkNew zeroEdge)
      100 0 1 = some 0 := by
    rw [show (some (0 : ℚ)) = some ((0 : ℚ) * 100) from by norm_num]
    refine Converter.convert_1hop _ 100 0 1 0 (by decide)
      (by norm_num [MAX_CUR_NUMBER]) ?_
    rw [show ((Converter.initK 2 Converter.mkNew zeroEdge).rate_table
      0 1).rateId = 1 from by decide]
    norm_num [stepTotal,
      show rateVal (Converter.initK 2 Converter.mkNew zeroEdge).rates 1
        = (0 : ℚ) from rfl]
  exact ⟨hz, hc,
    C5_zero_provider_propagates.1
      (Converter.initK 2 Converter.mkNew zeroEdge) 100 0 1 0 hz hc⟩

/-! ## Re-initialisation: the stale dense rate registry is harmless

A second `Converter::init` resets every routing cell but only appends to
`rates`; the fresh rate indices are shifted by the length of the stale
prefix and reference exactly the providers registered during the second
call.  `BFSConverter::init` clears both members, so it is independent of
the prior state by definition. -/

theorem getD_append_add {α : Type} (l l' : List α) (d : α) (n : ℕ) :
    (l ++ l').getD (l.length + n) d = l'.getD n d := by
  rw [List.getD_append_right l l' d (l.length + n) (by omega)]
  congr 1
  omega

theorem natFold_rel {α β : Type} (R : α → β → Prop) (f : ℕ → α → α)
    (g : ℕ → β → β) (n : ℕ) (a : α) (b : β) (h0 : R a b)
    (hstep : ∀ i x y, i < n → R x y → R (f i x) (g i y)) :
    R (natFold f n a) (natFold g n b) := by
  induction n with
  | zero => exact h0
  | succ m ih =>
    exact hstep m _ _ (by omega)
      (ih (fun i x y hi => hstep i x y (by omega)))

theorem upd2_rel {α β : Type} (R : α → β → Prop) (f : ℕ → ℕ → α)
    (f' : ℕ → ℕ → β) (a b : ℕ) (v : α) (v' : β)
    (hf : ∀ i j, R (f i j) (f' i j)) (hv : R v v') :
    ∀ i j, R (upd2 f a b v i j) (upd2 f' a b v' i j) := by
  intro i j
  unfold upd2
  split
  · exact hv
  · exact hf i j

theorem relaxStep_reinit (pr : List ℚ) (fr t i j : ℕ) (w w' : DWork)
    (h : ReinitRel pr w w') :
    ReinitRel pr (relaxStep fr t i j w) (relaxStep fr t i j w') := by
  obtain ⟨hd, hr, hn, hcell⟩ := h
  by_cases h1 : w.dist fr i = UNREACHABLE
  · rw [relaxStep_skip_guard (Or.inl h1),
      relaxStep_skip_guard (Or.inl (by rw [← hd]; exact h1))]
    exact ⟨hd, hr, hn, hcell⟩
  by_cases h2 : w.dist t j = UNREACHABLE
  · rw [relaxStep_skip_guard (Or.inr h2),
      relaxStep_skip_guard (Or.inr (by rw [← hd]; exact h2))]
    exact ⟨hd, hr, hn, hcell⟩
  have hcand : cand fr t i j w' = cand fr t i j w := by
    unfold cand
    rw [hd]
  by_cases h3 : w.dist i j ≤ cand fr t i j w
  · rw [relaxStep_skip_ge h3,
      relaxStep_skip_ge (by rw [hcand, ← hd]; exact h3)]
    exact ⟨hd, hr, hn, hcell⟩
  · rw [relaxStep_update h1 h2 (by omega),
      relaxStep_update (by rw [← hd]; exact h1) (by rw [← hd]; exact h2)
        (by rw [hcand, ← hd]; omega)]
    have hc1 : CellRel pr.length
        ⟨(w.tbl i j).rateId, if i ≠ fr then (w.tbl i fr).nextCur else t⟩
        ⟨(w'.tbl i j).rateId, if i ≠ fr then (w'.tbl i fr).nextCur else t⟩ := by
      constructor
      · show (if i ≠ fr then (w.tbl i fr).nextCur else t) =
          (if i ≠ fr then (w'.tbl i fr).nextCur else t)
        rw [(hcell i fr).1]
      · exact (hcell i j).2
    have htbl1 := upd2_rel (CellRel pr.length) w.tbl w'.tbl i j _ _ hcell hc1
    have hc2 : CellRel pr.length
        ⟨((upd2 w.tbl i j ⟨(w.tbl i j).rateId,
            if i ≠ fr then (w.tbl i fr).nextCur else t⟩) j i).rateId,
          if j ≠ t then ((upd2 w.tbl i j ⟨(w.tbl i j).rateId,
            if i ≠ fr then (w.tbl i fr).nextCur else t⟩) j t).nextCur
          else fr⟩
        ⟨((upd2 w'.tbl i j ⟨(w'.tbl i j).rateId,
            if i ≠ fr then (w'.tbl i fr).nextCur else t⟩) j i).rateId,
          if j ≠ t then ((upd2 w'.tbl i j ⟨(w'.tbl i j).rateId,
            if i ≠ fr then (w'.tbl i fr).nextCur else t⟩) j t).nextCur
          else fr⟩ := by
      constructor
      · show (if j ≠ t then _ else fr) = (if j ≠ t then _ else fr)
        rw [(htbl1 j t).1]
      · exact (htbl1 j i).2
    exact ⟨by rw [hd, hcand], hr, hn,
      upd2_rel (CellRel pr.length) _ _ j i _ _ htbl1 hc2⟩

theorem relaxPass_reinit (pr : List ℚ) (fr t : ℕ) (w w' : DWork)
    (h : ReinitRel pr w w') :
    ReinitRel pr (relaxPass fr t w) (relaxPass fr t w') := by
  unfold relaxPass
  refine natFold_rel (ReinitRel pr)
    (fun i w => natFold (fun j w => relaxStep fr t i j w) MAX_CUR_NUMBER w)
    (fun i w => natFold (fun j w => relaxStep fr t i j w) MAX_CUR_NUMBER w)
    MAX_CUR_NUMBER w w' h ?_
  intro i x y _ hxy
  refine natFold_rel (ReinitRel pr)
    (fun j x => relaxStep fr t i j x) (fun j x => relaxStep fr t i j x)
    MAX_CUR_NUMBER x y hxy ?_
  intro j u v _ huv
  exact relaxStep_reinit pr fr t i j u v huv

theorem relaxStep_ratesIs (fr t i j : ℕ) (r : List ℚ) (w : DWork)
    (h : RatesIs r w) : RatesIs r (relaxStep fr t i j w) := by
  by_cases h1 : w.dist fr i = UNREACHABLE
  · rw [relaxStep_skip_guard (Or.inl h1)]
    exact h
  by_cases h2 : w.dist t j = UNREACHABLE
  · rw [relaxStep_skip_guard (Or.inr h2)]
    exact h
  by_cases h3 : w.dist i j ≤ cand fr t i j w
  · rw [relaxStep_skip_ge h3]
    exact h
  · rw [relaxStep_update h1 h2 (by omega)]
    unfold RatesIs at h ⊢
    exact h

theorem relaxPass_ratesIs (fr t : ℕ) (r : List ℚ) (w : DWork)
    (h : RatesIs r w) : RatesIs r (relaxPass fr t w) := by
  unfold relaxPass
  refine natFold_invariant (RatesIs r)
    (fun i w => natFold (fun j w => relaxStep fr t i j w) MAX_CUR_NUMBER w)
    MAX_CUR_NUMBER w h ?_
  intro i x _ hx
  refine natFold_invariant (RatesIs r)
    (fun j x => relaxStep fr t i j x) MAX_CUR_NUMBER x hx ?_
  intro j y _ hy
  exact relaxStep_ratesIs fr t i j r y hy

theorem foldEdge_ratesIs (w : DWork) (e : ConvertRate) :
    RatesIs (w.rates ++ [e.rateFn]) (foldEdge w e) := by
  show RatesIs (w.rates ++ [e.rateFn]) (relaxPass e.«from» e.«to»
    ⟨upd2 (upd2 w.tbl e.«from» e.«to»
        ⟨toInt32 w.rates.length, (w.tbl e.«from» e.«to»).nextCur⟩)
      e.«to» e.«from»
      ⟨-toInt32 w.rates.length,
        ((upd2 w.tbl e.«from» e.«to»
          ⟨toInt32 w.rates.length, (w.tbl e.«from» e.«to»).nextCur⟩)
          e.«to» e.«from»).nextCur⟩,
     w.rates ++ [e.rateFn], w.dist⟩)
  exact relaxPass_ratesIs e.«from» e.«to» _ _ rfl

theorem foldl_foldEdge_ratesIs (es : List ConvertRate) (w : DWork)
    (r : List ℚ) (h : RatesIs r w) :
    RatesIs (r ++ es.map ConvertRate.rateFn) (es.foldl foldEdge w) := by
  induction es generalizing w r with
  | nil =>
    unfold RatesIs at h ⊢
    simpa using h
  | cons e rest ih =>
    rw [List.foldl_cons]
    have h1 : RatesIs (r ++ [e.rateFn]) (foldEdge w e) := by
      have h2 := foldEdge_ratesIs w e
      unfold RatesIs at h h2 ⊢
      rw [h2, h]
    have h3 := ih (foldEdge w e) (r ++ [e.rateFn]) h1
    unfold RatesIs at h3 ⊢
    rw [h3, List.append_assoc]
    simp

theorem foldEdge_reinit (pr : List ℚ) (e : ConvertRate) (w w' : DWork)
    (h : ReinitRel pr w w')
    (hb : pr.length + w'.rates.length < 2 ^ 31) :
    ReinitRel pr (foldEdge w e) (foldEdge w' e) := by
  obtain ⟨hd, hr, hn, hcell⟩ := h
  have hlen : w.rates.length = pr.length + w'.rates.length := by
    rw [hr, List.length_append]
  have hm' : toInt32 w'.rates.length = (w'.rates.length : ℤ) := by
    unfold toInt32
    rw [Nat.mod_eq_of_lt (by omega), if_pos (by omega)]
  have hm : toInt32 w.rates.length =
      (pr.length : ℤ) + w'.rates.length := by
    unfold toInt32
    rw [hlen, Nat.mod_eq_of_lt (by omega), if_pos (by omega)]
    push_cast
    ring
  have hA : CellRel pr.length
      ⟨toInt32 w.rates.length, (w.tbl e.«from» e.«to»).nextCur⟩
      ⟨toInt32 w'.rates.length, (w'.tbl e.«from» e.«to»).nextCur⟩ := by
    refine ⟨(hcell _ _).1, ?_⟩
    show toInt32 w.rates.length = shiftId pr.length (toInt32 w'.rates.length)
    rw [hm, hm']
    unfold shiftId
    rw [if_neg (by omega), if_pos (by omega)]
    omega
  have htblA := upd2_rel (CellRel pr.length) w.tbl w'.tbl e.«from» e.«to» _ _
    hcell hA
  have hB : CellRel pr.length
      ⟨-toInt32 w.rates.length,
        ((upd2 w.tbl e.«from» e.«to»
          ⟨toInt32 w.rates.length, (w.tbl e.«from» e.«to»).nextCur⟩)
          e.«to» e.«from»).nextCur⟩
      ⟨-toInt32 w'.rates.length,
        ((upd2 w'.tbl e.«from» e.«to»
          ⟨toInt32 w'.rates.length, (w'.tbl e.«from» e.«to»).nextCur⟩)
          e.«to» e.«from»).nextCur⟩ := by
    refine ⟨(htblA _ _).1, ?_⟩
    show -toInt32 w.rates.length = shiftId pr.length (-toInt32 w'.rates.length)
    rw [hm, hm']
    unfold shiftId
    rw [if_neg (by omega), if_neg (by omega)]
    omega
  unfold foldEdge
  apply relaxPass_reinit
  refine ⟨hd, ?_, ?_, ?_⟩
  · show w.rates ++ [e.rateFn] = pr ++ (w'.rates ++ [e.rateFn])
    rw [hr, List.append_assoc]
  · show 0 < (w'.rates ++ [e.rateFn]).length
    rw [List.length_append]
    omega
  · exact upd2_rel (CellRel pr.length) _ _ e.«to» e.«from» _ _ htblA hB

theorem foldl_foldEdge_reinit (pr : List ℚ) (es : List ConvertRate)
    (w w' : DWork) (h : ReinitRel pr w w')
    (hb : pr.length + w'.rates.length + es.length < 2 ^ 31) :
    ReinitRel pr (es.foldl foldEdge w) (es.foldl foldEdge w') := by
  induction es generalizing w w' with
  | nil => exact h
  | cons e rest ih =>
    rw [List.foldl_cons, List.foldl_cons]
    refine ih (foldEdge w e) (foldEdge w' e)
      (foldEdge_reinit pr e w w' h
        (by rw [List.length_cons] at hb; omega)) ?_
    have h2 := foldEdge_ratesIs w' e
    unfold RatesIs at h2
    rw [h2]
    rw [List.length_cons] at hb
    simp only [List.length_append, List.length_cons, List.length_nil]
    omega

theorem Converter.init_rates (s : Converter) (es : List ConvertRate) :
    (Converter.init s es).rates =
      (s.rates ++ [0]) ++ es.map ConvertRate.rateFn := by
  have h := foldl_foldEdge_ratesIs es
    ⟨fun _ _ => defaultCell, s.rates ++ [0], dist0⟩ (s.rates ++ [0]) rfl
  unfold RatesIs at h
  exact h

theorem stepTotal_pos_id (rs : List ℚ) (id : ℤ) (tot : ℚ) (h : id > 0) :
    stepTotal rs id tot = tot * rateVal rs id := by
  unfold stepTotal
  rw [if_pos h]

theorem stepTotal_nonpos_id (rs : List ℚ) (id : ℤ) (tot : ℚ) (h : ¬ id > 0) :
    stepTotal rs id tot =
      if rateVal rs (-id) = 0 then 0 else tot / rateVal rs (-id) := by
  unfold stepTotal
  rw [if_neg h]

theorem stepTotal_shift (pr rs : List ℚ) (tot : ℚ) (id : ℤ)
    (hL : 0 < pr.length) (hpr : pr.getD 0 0 = 0) (hrs : rs.getD 0 0 = 0) :
    stepTotal (pr ++ rs) (shiftId pr.length id) tot = stepTotal rs id tot := by
  rcases lt_trichotomy id 0 with hneg | hz | hpos
  · have hs : shiftId pr.length id = id - pr.length := by
      unfold shiftId
      rw [if_neg (by omega), if_neg (by omega)]
    have hval : rateVal (pr ++ rs) (-(id - (pr.length : ℤ))) =
        rateVal rs (-id) := by
      unfold rateVal
      rw [show (-(id - (pr.length : ℤ))).toNat = pr.length + (-id).toNat from
        by omega, getD_append_add]
    rw [hs, stepTotal_nonpos_id _ _ _ (by omega),
      stepTotal_nonpos_id _ _ _ (by omega), hval]
  · subst hz
    have hs : shiftId pr.length 0 = 0 := by
      unfold shiftId
      rw [if_pos rfl]
    have hval : rateVal (pr ++ rs) (-0) = 0 := by
      unfold rateVal
      rw [show ((-0 : ℤ)).toNat = 0 from rfl,
        List.getD_append _ _ _ _ hL]
      exact hpr
    have hval' : rateVal rs (-0) = 0 := by
      unfold rateVal
      rw [show ((-0 : ℤ)).toNat = 0 from rfl]
      exact hrs
    rw [hs, stepTotal_nonpos_id _ _ _ (by omega),
      stepTotal_nonpos_id _ _ _ (by omega), hval, hval']
  · have hs : shiftId pr.length id = id + pr.length := by
      unfold shiftId
      rw [if_neg (by omega), if_pos (by omega)]
    have hval : rateVal (pr ++ rs) (id + (pr.length : ℤ)) = rateVal rs id := by
      unfold rateVal
      rw [show ((id + (pr.length : ℤ))).toNat = pr.length + id.toNat from
        by omega, getD_append_add]
    rw [hs, stepTotal_pos_id _ _ _ (by omega),
      stepTotal_pos_id _ _ _ hpos, hval]

theorem Converter.walk_shift (pr : List ℚ) (s s' : Converter)
    (hrs : s.rates = pr ++ s'.rates) (hL : 0 < pr.length)
    (hpr : pr.getD 0 0 = 0) (hrs0 : s'.rates.getD 0 0 = 0)
    (hcell : ∀ i j, CellRel pr.length (s.rate_table i j) (s'.rate_table i j))
    (t : ℕ) : ∀ (fuel prev : ℕ) (tot : ℚ),
    Converter.walk s t prev tot fuel = Converter.walk s' t prev tot fuel := by
  intro fuel
  induction fuel with
  | zero =>
    intro prev tot
    rfl
  | succ n ih =>
    intro prev tot
    rw [Converter.walk_succ, Converter.walk_succ, (hcell prev t).1]
    have hst : stepTotal s.rates
        (s.rate_table prev ((s'.rate_table prev t).nextCur)).rateId tot =
        stepTotal s'.rates
        (s'.rate_table prev ((s'.rate_table prev t).nextCur)).rateId tot := by
      rw [(hcell prev ((s'.rate_table prev t).nextCur)).2, hrs]
      exact stepTotal_shift pr s'.rates tot _ hL hpr hrs0
    rw [hst, ih]

/-- **C10**: re-running `init` with a second edge set `es2` on a dense
`Converter` previously initialised with `es1` gives every subsequent
`convert` query the same answer as a freshly constructed converter
initialised with `es2` alone (the stale providers of the first call stay
in `rates`, but the rebuilt table's rate indices are shifted past them and
reference exactly the providers of the second call), and
`BFSConverter::init` clears both member containers, so its result does not
depend on the prior state at all.  The length hypothesis keeps the
`static_cast<int32_t>` of the registry size from wrapping. -/
theorem C10_reinit_equivalent (es1 es2 : List ConvertRate) (v : ℚ) (a b : ℕ)
    (hb : es1.length + es2.length + 2 < 2 ^ 31) :
    (Converter.convert
        (Converter.init (Converter.init Converter.mkNew es1) es2) v a b
      = Converter.convert (Converter.init Converter.mkNew es2) v a b)
    ∧ ∀ (s : BFSConverter) (es : List ConvertRate),
        BFSConverter.init s es = BFSConverter.init BFSConverter.mkNew es := by
  refine ⟨?_, fun s es => rfl⟩
  have hpr : (Converter.init Converter.mkNew es1).rates =
      (Converter.mkNew.rates ++ [0]) ++ es1.map ConvertRate.rateFn :=
    Converter.init_rates Converter.mkNew es1
  have hprlen : (Converter.init Converter.mkNew es1).rates.length =
      1 + es1.length := by
    rw [hpr]
    simp [Converter.mkNew]
    omega
  have hpr0 : (Converter.init Converter.mkNew es1).rates.getD 0 0 = 0 := by
    rw [hpr]
    rfl
  have h0 : ReinitRel (Converter.init Converter.mkNew es1).rates
      ⟨fun _ _ => defaultCell,
        (Converter.init Converter.mkNew es1).rates ++ [0], dist0⟩
      ⟨fun _ _ => defaultCell, Converter.mkNew.rates ++ [0], dist0⟩ := by
    refine ⟨rfl, rfl, by decide, ?_⟩
    intro i j
    refine ⟨rfl, ?_⟩
    show (0 : ℤ) = shiftId (Converter.init Converter.mkNew es1).rates.length 0
    unfold shiftId
    rw [if_pos rfl]
  have hrel := foldl_foldEdge_reinit (Converter.init Converter.mkNew es1).rates
    es2 _ _ h0
    (by
      show (Converter.init Converter.mkNew es1).rates.length + 1 +
        es2.length < 2 ^ 31
      rw [hprlen]
      omega)
  obtain ⟨hdist, hrates, hn1, hcell⟩ := hrel
  have hSLr : (Converter.init (Converter.init Converter.mkNew es1) es2).rates =
      (es2.foldl foldEdge ⟨fun _ _ => defaultCell,
        (Converter.init Converter.mkNew es1).rates ++ [0], dist0⟩).rates := rfl
  have hSRr : (Converter.init Converter.mkNew es2).rates =
      (es2.foldl foldEdge ⟨fun _ _ => defaultCell,
        Converter.mkNew.rates ++ [0], dist0⟩).rates := rfl
  have hSLt : (Converter.init (Converter.init Converter.mkNew es1)
        es2).rate_table =
      (es2.foldl foldEdge ⟨fun _ _ => defaultCell,
        (Converter.init Converter.mkNew es1).rates ++ [0], dist0⟩).tbl := rfl
  have hSRt : (Converter.init Converter.mkNew es2).rate_table =
      (es2.foldl foldEdge ⟨fun _ _ => defaultCell,
        Converter.mkNew.rates ++ [0], dist0⟩).tbl := rfl
  have hrs' : (Converter.init (Converter.init Converter.mkNew es1) es2).rates =
      (Converter.init Converter.mkNew es1).rates ++
        (Converter.init Converter.mkNew es2).rates := by
    rw [hSLr, hSRr]
    exact hrates
  have hcell' : ∀ i j,
      CellRel (Converter.init Converter.mkNew es1).rates.length
        ((Converter.init (Converter.init Converter.mkNew es1)
          es2).rate_table i j)
        ((Converter.init Converter.mkNew es2).rate_table i j) := by
    intro i j
    rw [hSLt, hSRt]
    exact hcell i j
  have hrs0 : (Converter.init Converter.mkNew es2).rates.getD 0 0 = 0 := by
    rw [Converter.init_rates]
    rfl
  have hwalk := Converter.walk_shift (Converter.init Converter.mkNew es1).rates
    (Converter.init (Converter.init Converter.mkNew es1) es2)
    (Converter.init Converter.mkNew es2)
    hrs' (by rw [hprlen]; omega) hpr0 hrs0 hcell' b
  unfold Converter.convert
  rw [(hcell' a b).1, hwalk MAX_CUR_NUMBER a 1]

/-- Witness for `C10_reinit_equivalent` at a concrete instance. -/
theorem C10_reinit_equivalent_witness :
    (([⟨0, 1, 2⟩] : List ConvertRate).length +
        ([⟨2, 3, 5⟩] : List ConvertRate).length + 2 < 2 ^ 31) ∧
    ((Converter.convert (Converter.init (Converter.init Converter.mkNew
          [⟨0, 1, 2⟩]) [⟨2, 3, 5⟩]) 7 0 1
        = Converter.convert (Converter.init Converter.mkNew [⟨2, 3, 5⟩]) 7 0 1)
      ∧ ∀ (s : BFSConverter) (es : List ConvertRate),
          BFSConverter.init s es = BFSConverter.init BFSConverter.mkNew es) :=
  ⟨by norm_num,
    C10_reinit_equivalent [⟨0, 1, 2⟩] [⟨2, 3, 5⟩] 7 0 1 (by norm_num)⟩

theorem PathN.snoc {es : List ConvertRate} {u v w : ℕ} {n : ℕ}
    (p : PathN es u v n) : adjE es v w → PathN es u w (n + 1) := by
  induction p with
  | refl x =>
    intro h
    exact PathN.cons h (PathN.refl w)
  | cons hadj _ ih =>
    intro h
    exact PathN.cons hadj (ih h)

theorem PathN.symm {es : List ConvertRate} {u v : ℕ} {n : ℕ}
    (p : PathN es u v n) : PathN es v u n := by
  induction p with
  | refl x => exact PathN.refl x
  | cons hadj _ ih => exact PathN.snoc ih (adjE_symm hadj)

theorem Reach.refl (es : List ConvertRate) (u : ℕ) : Reach es u u :=
  ⟨0, PathN.refl u⟩

theorem Reach.trans {es : List ConvertRate} {u v w : ℕ}
    (h1 : Reach es u v) (h2 : Reach es v w) : Reach es u w := by
  obtain ⟨n, p⟩ := h1
  revert h2
  induction p with
  | refl x =>
    intro h2
    exact h2
  | cons hadj _ ih =>
    intro h2
    obtain ⟨k, r⟩ := ih h2
    exact ⟨k + 1, PathN.cons hadj r⟩

theorem Reach.swap {es : List ConvertRate} {u v : ℕ} (h : Reach es u v) :
    Reach es v u := by
  obtain ⟨n, p⟩ := h
  exact ⟨n, PathN.symm p⟩

theorem adjE_reach {es : List ConvertRate} {u v : ℕ} (h : adjE es u v) :
    Reach es u v := ⟨1, PathN.cons h (PathN.refl v)⟩

theorem upd2_eq_or {α : Type} (f : ℕ → ℕ → α) (a b : ℕ) (v : α)
    (i j : ℕ) :
    (i = a ∧ j = b ∧ upd2 f a b v i j = v) ∨ upd2 f a b v i j = f i j := by
  unfold upd2
  by_cases h : i = a ∧ j = b
  · rw [if_pos h]
    exact Or.inl ⟨h.1, h.2, rfl⟩
  · rw [if_neg h]
    exact Or.inr rfl

theorem relaxStep_sound (es : List ConvertRate) (fr t i j : ℕ) (w : DWork)
    (hadj : adjE es fr t) (h : TblSound es w) :
    TblSound es (relaxStep fr t i j w) := by
  by_cases h1 : w.dist fr i = UNREACHABLE
  · rw [relaxStep_skip_guard (Or.inl h1)]
    exact h
  by_cases h2 : w.dist t j = UNREACHABLE
  · rw [relaxStep_skip_guard (Or.inr h2)]
    exact h
  by_cases h3 : w.dist i j ≤ cand fr t i j w
  · rw [relaxStep_skip_ge h3]
    exact h
  rw [relaxStep_update h1 h2 (by omega)]
  obtain ⟨hdst, htbl⟩ := h
  have hij : Reach es i j :=
    Reach.trans (Reach.swap (hdst fr i h1))
      (Reach.trans (adjE_reach hadj) (hdst t j h2))
  constructor
  · intro a b hab
    rcases upd2_eq_or (upd2 w.dist i j (cand fr t i j w)) j i
        (cand fr t i j w) a b with ⟨rfl, rfl, hv⟩ | hv
    · exact Reach.swap hij
    rcases upd2_eq_or w.dist i j (cand fr t i j w) a b with
      ⟨rfl, rfl, hv2⟩ | hv2
    · exact hij
    refine hdst a b ?_
    rw [← hv2, ← hv]
    exact hab
  · intro a b hab
    rcases upd2_eq_or
        (upd2 w.tbl i j ⟨(w.tbl i j).rateId,
          if i ≠ fr then (w.tbl i fr).nextCur else t⟩) j i
        ⟨((upd2 w.tbl i j ⟨(w.tbl i j).rateId,
            if i ≠ fr then (w.tbl i fr).nextCur else t⟩) j i).rateId,
          if j ≠ t then ((upd2 w.tbl i j ⟨(w.tbl i j).rateId,
            if i ≠ fr then (w.tbl i fr).nextCur else t⟩) j t).nextCur
          else fr⟩ a b with ⟨rfl, rfl, hv⟩ | hv
    · exact Reach.swap hij
    rcases upd2_eq_or w.tbl i j ⟨(w.tbl i j).rateId,
        if i ≠ fr then (w.tbl i fr).nextCur else t⟩ a b with
      ⟨rfl, rfl, hv2⟩ | hv2
    · exact hij
    refine htbl a b ?_
    rw [← congrArg Cell.nextCur hv2, ← congrArg Cell.nextCur hv]
    exact hab

theorem relaxPass_sound (es : List ConvertRate) (fr t : ℕ) (w : DWork)
    (hadj : adjE es fr t) (h : TblSound es w) :
    TblSound es (relaxPass fr t w) := by
  unfold relaxPass
  refine natFold_invariant (TblSound es)
    (fun i w => natFold (fun j w => relaxStep fr t i j w) MAX_CUR_NUMBER w)
    MAX_CUR_NUMBER w h ?_
  intro i x _ hx
  refine natFold_invariant (TblSound es)
    (fun j x => relaxStep fr t i j x) MAX_CUR_NUMBER x hx ?_
  intro j y _ hy
  exact relaxStep_sound es fr t i j y hadj hy

theorem foldEdge_sound (es : List ConvertRate) (e : ConvertRate) (w : DWork)
    (he : e ∈ es) (h : TblSound es w) : TblSound es (foldEdge w e) := by
  have hadj : adjE es e.«from» e.«to» := ⟨e, he, Or.inl ⟨rfl, rfl⟩⟩
  unfold foldEdge
  apply relaxPass_sound es e.«from» e.«to» _ hadj
  refine ⟨h.1, ?_⟩
  intro a b hab
  rcases upd2_eq_or
      (upd2 w.tbl e.«from» e.«to»
        ⟨toInt32 w.rates.length, (w.tbl e.«from» e.«to»).nextCur⟩)
      e.«to» e.«from»
      ⟨-toInt32 w.rates.length,
        ((upd2 w.tbl e.«from» e.«to»
          ⟨toInt32 w.rates.length, (w.tbl e.«from» e.«to»).nextCur⟩)
          e.«to» e.«from»).nextCur⟩ a b with ⟨rfl, rfl, hv⟩ | hv
  · exact Reach.swap (adjE_reach hadj)
  rcases upd2_eq_or w.tbl e.«from» e.«to»
      ⟨toInt32 w.rates.length, (w.tbl e.«from» e.«to»).nextCur⟩ a b with
    ⟨rfl, rfl, hv2⟩ | hv2
  · exact adjE_reach hadj
  refine h.2 a b ?_
  rw [← congrArg Cell.nextCur hv2, ← congrArg Cell.nextCur hv]
  exact hab

theorem init_tblSound (es : List ConvertRate) (rs : List ℚ) :
    TblSound es (es.foldl foldEdge ⟨fun _ _ => defaultCell, rs, dist0⟩) := by
  refine foldl_invariant (TblSound es) foldEdge es _ ⟨?_, ?_⟩ ?_
  · intro i j hij
    have hij2 : (if i = j then 0 else UNREACHABLE : ℕ) ≠ UNREACHABLE := hij
    by_cases h : i = j
    · subst h
      exact Reach.refl es i
    · rw [if_neg h] at hij2
      exact absurd rfl hij2
  · intro i j hij
    exact absurd rfl hij
  · intro x e hx he
    exact foldEdge_sound es e x he hx

theorem upd1_mem {paths : ℕ → Row} {a : ℕ} {r : Row} {fr : ℕ} {p : ℕ × Cell}
    (hp : p ∈ upd1 paths a r fr) : (fr = a ∧ p ∈ r) ∨ p ∈ paths fr := by
  unfold upd1 at hp
  by_cases h : fr = a
  · rw [if_pos h] at hp
    exact Or.inl ⟨h, hp⟩
  · rw [if_neg h] at hp
    exact Or.inr hp

theorem Row.store_mem {row : Row} {k : ℕ} {v : Cell} {p : ℕ × Cell}
    (hp : p ∈ Row.store row k v) : p = (k, v) ∨ p ∈ row := by
  unfold Row.store at hp
  split at hp
  · rcases List.mem_map.mp hp with ⟨q, hq, hmap⟩
    by_cases hqk : q.1 = k
    · rw [if_pos hqk] at hmap
      exact Or.inl hmap.symm
    · rw [if_neg hqk] at hmap
      rw [← hmap]
      exact Or.inr hq
  · rcases List.mem_append.mp hp with h | h
    · exact Or.inr h
    · exact Or.inl (List.mem_singleton.mp h)

theorem RowsSound.store (es : List ConvertRate) {paths : ℕ → Row}
    (h : RowsSound es paths) (a k : ℕ) (v : Cell)
    (hk : Reach es a k) (hv : Reach es a v.nextCur) :
    RowsSound es (upd1 paths a (Row.store (paths a) k v)) := by
  intro fr p hp
  rcases upd1_mem hp with ⟨rfl, hpr⟩ | hpr
  · rcases Row.store_mem hpr with rfl | hpr
    · exact ⟨hk, hv⟩
    · exact h fr p hpr
  · exact h fr p hpr

theorem bfsDirect_sound (es : List ConvertRate) (e : ConvertRate)
    (pr : (ℕ → Row) × List ℚ) (he : e ∈ es) (h : RowsSound es pr.1) :
    RowsSound es (bfsDirect pr e).1 := by
  have hadj : adjE es e.«from» e.«to» := ⟨e, he, Or.inl ⟨rfl, rfl⟩⟩
  have h1 := RowsSound.store es h e.«from» e.«to»
    ⟨toInt32 pr.2.length, e.«to»⟩ (adjE_reach hadj) (adjE_reach hadj)
  have h2 := RowsSound.store es h1 e.«to» e.«from»
    ⟨-toInt32 pr.2.length, e.«from»⟩ (Reach.swap (adjE_reach hadj))
    (Reach.swap (adjE_reach hadj))
  exact h2

theorem bfsScanStep_pos (fr start : ℕ)
    (st : (ℕ → Row) × (ℕ → ℕ) × List NextCur) (p : ℕ × Cell)
    (h : st.2.1 p.2.nextCur ≠ fr) :
    bfsScanStep fr start st p =
      (upd1 st.1 fr (Row.store (st.1 fr) p.2.nextCur ⟨Cell.norate, start⟩),
       upd1 st.2.1 p.2.nextCur fr, st.2.2 ++ [(p.2.nextCur, start)]) := by
  show (if st.2.1 p.2.nextCur ≠ fr then
      (upd1 st.1 fr (Row.store (st.1 fr) p.2.nextCur ⟨Cell.norate, start⟩),
       upd1 st.2.1 p.2.nextCur fr, st.2.2 ++ [(p.2.nextCur, start)])
    else st) =
      (upd1 st.1 fr (Row.store (st.1 fr) p.2.nextCur ⟨Cell.norate, start⟩),
       upd1 st.2.1 p.2.nextCur fr, st.2.2 ++ [(p.2.nextCur, start)])
  rw [if_pos h]

theorem bfsScanStep_neg (fr start : ℕ)
    (st : (ℕ → Row) × (ℕ → ℕ) × List NextCur) (p : ℕ × Cell)
    (h : ¬ st.2.1 p.2.nextCur ≠ fr) :
    bfsScanStep fr start st p = st := by
  show (if st.2.1 p.2.nextCur ≠ fr then
      (upd1 st.1 fr (Row.store (st.1 fr) p.2.nextCur ⟨Cell.norate, start⟩),
       upd1 st.2.1 p.2.nextCur fr, st.2.2 ++ [(p.2.nextCur, start)])
    else st) = st
  rw [if_neg h]

theorem bfsScanStep_sound (es : List ConvertRate) (fr start : ℕ)
    (st : (ℕ → Row) × (ℕ → ℕ) × List NextCur) (p : ℕ × Cell)
    (hnc : Reach es fr p.2.nextCur) (hstart : Reach es fr start)
    (h : RowsSound es st.1 ∧
      ∀ q ∈ st.2.2, Reach es fr q.1 ∧ Reach es fr q.2) :
    RowsSound es (bfsScanStep fr start st p).1 ∧
      ∀ q ∈ (bfsScanStep fr start st p).2.2,
        Reach es fr q.1 ∧ Reach es fr q.2 := by
  obtain ⟨hrows, hq⟩ := h
  by_cases hc : st.2.1 p.2.nextCur ≠ fr
  · rw [bfsScanStep_pos fr start st p hc]
    constructor
    · exact RowsSound.store es hrows fr p.2.nextCur ⟨Cell.norate, start⟩
        hnc hstart
    · intro q hqm
      rcases List.mem_append.mp hqm with hold | hnew
      · exact hq q hold
      · have hq2 : q = (p.2.nextCur, start) := List.mem_singleton.mp hnew
        rw [hq2]
        exact ⟨hnc, hstart⟩
  · rw [bfsScanStep_neg fr start st p hc]
    exact ⟨hrows, hq⟩

theorem bfsScan_sound (es : List ConvertRate) (fr start : ℕ) (cells : Row)
    (st : (ℕ → Row) × (ℕ → ℕ) × List NextCur)
    (hcells : ∀ p ∈ cells, Reach es fr p.2.nextCur)
    (hstart : Reach es fr start)
    (h : RowsSound es st.1 ∧
      ∀ q ∈ st.2.2, Reach es fr q.1 ∧ Reach es fr q.2) :
    RowsSound es (bfsScan fr start cells st).1 ∧
      ∀ q ∈ (bfsScan fr start cells st).2.2,
        Reach es fr q.1 ∧ Reach es fr q.2 := by
  unfold bfsScan
  refine foldl_invariant
    (fun st => RowsSound es st.1 ∧
      ∀ q ∈ st.2.2, Reach es fr q.1 ∧ Reach es fr q.2)
    (bfsScanStep fr start) cells st h ?_
  intro x p hx hp
  exact bfsScanStep_sound es fr start x p (hcells p hp) hstart hx

theorem bfsLoop_sound (es : List ConvertRate) (fr : ℕ) :
    ∀ (fuel : ℕ) (st : (ℕ → Row) × (ℕ → ℕ)) (queue : List NextCur),
    RowsSound es st.1 →
    (∀ q ∈ queue, Reach es fr q.1 ∧ Reach es fr q.2) →
    RowsSound es (bfsLoop fr st queue fuel).1 := by
  intro fuel
  induction fuel with
  | zero =>
    intro st queue h hq
    cases queue with
    | nil => exact h
    | cons nx rest => exact h
  | succ n ih =>
    intro st queue h hq
    cases queue with
    | nil => exact h
    | cons nx rest =>
      simp only [bfsLoop]
      have hfr1 : Reach es fr nx.1 :=
        (hq nx (List.mem_cons_self nx rest)).1
      have hfr2 : Reach es fr nx.2 :=
        (hq nx (List.mem_cons_self nx rest)).2
      have hscan := bfsScan_sound es fr nx.2 (st.1 nx.1)
        (st.1, upd1 st.2 nx.1 fr, [])
        (fun p hp => Reach.trans hfr1 (h nx.1 p hp).2)
        hfr2
        ⟨h, fun q hqm => absurd hqm (List.not_mem_nil q)⟩
      refine ih _ _ hscan.1 ?_
      intro q hqm
      rcases List.mem_append.mp hqm with hold | hnew
      · exact hq q (List.mem_cons_of_mem nx hold)
      · exact hscan.2 q hnew

theorem bfsSource_sound (es : List ConvertRate) (paths : ℕ → Row)
    (visited : ℕ → ℕ) (fr : ℕ) (h : RowsSound es paths) :
    RowsSound es (pathsOf (bfsSource paths visited fr)) := by
  unfold bfsSource pathsOf
  apply bfsLoop_sound es fr _ _ _ h
  intro q hqm
  rcases List.mem_map.mp hqm with ⟨p, hp, hmap⟩
  rw [← hmap]
  exact ⟨(h fr p hp).1, (h fr p hp).1⟩

theorem init_rowsSound (es : List ConvertRate) :
    RowsSound es (pathsOf (natFold (fun fr (st : (ℕ → Row) × (ℕ → ℕ)) =>
        bfsSource st.1 st.2 fr) MAX_CUR_NUMBER
      ((es.foldl bfsDirect ((fun _ => []), ([0] : List ℚ))).1,
       fun _ => MAX_CUR_NUMBER))) := by
  refine natFold_invariant (fun st => RowsSound es (pathsOf st))
    (fun fr st => bfsSource st.1 st.2 fr) MAX_CUR_NUMBER _ ?_ ?_
  · show RowsSound es (es.foldl bfsDirect ((fun _ => []), ([0] : List ℚ))).1
    refine foldl_invariant (fun pr => RowsSound es pr.1) bfsDirect es _ ?_ ?_
    · intro fr p hp
      exact absurd hp (List.not_mem_nil p)
    · intro x e hx he
      exact bfsDirect_sound es e x he hx
  · intro i x _ hx
    exact bfsSource_sound es x.1 x.2 i hx

theorem countKey_eq_zero {row : Row} {t : ℕ} (h : ∀ p ∈ row, p.1 ≠ t) :
    Row.countKey row t = 0 := by
  unfold Row.countKey
  induction row with
  | nil => rfl
  | cons q rest ih =>
    have hQ : ¬ (decide (q.1 = t) = true) := by
      simp only [decide_eq_true_eq]
      exact h q (List.mem_cons_self q rest)
    rw [List.filter_cons, if_neg hQ]
    exact ih (fun p hp => h p (List.mem_cons_of_mem q hp))

/-- **C4**: when no path of directly-quoted edges connects `fr` and `t`,
both implementations report the unavailable sentinel: the dense routing
cell's next hop still holds `MAX_CUR_NUMBER` and `Converter::convert`
returns `0`, and the sparse adjacency map of `fr` has no entry for `t`
and `BFSConverter::convert` returns `0`. -/
theorem C4_unreachable_returns_zero (es : List ConvertRate) (v : ℚ)
    (fr t : ℕ) (h : ¬ Reach es fr t) :
    (((Converter.init Converter.mkNew es).rate_table fr t).nextCur =
        MAX_CUR_NUMBER
      ∧ Converter.convert (Converter.init Converter.mkNew es) v fr t =
        some 0)
    ∧ (Row.countKey ((BFSConverter.init BFSConverter.mkNew es).mPaths fr) t
        = 0
      ∧ (BFSConverter.convert (BFSConverter.init BFSConverter.mkNew es)
          v fr t).1 = some 0) := by
  have hds := init_tblSound es (Converter.mkNew.rates ++ [0])
  have hsen : ((Converter.init Converter.mkNew es).rate_table fr t).nextCur =
      MAX_CUR_NUMBER := by
    by_contra hne
    exact h (hds.2 fr t hne)
  have hbs := init_rowsSound es
  have hinit : BFSConverter.init BFSConverter.mkNew es =
      ⟨pathsOf (natFold (fun fr (st : (ℕ → Row) × (ℕ → ℕ)) =>
          bfsSource st.1 st.2 fr) MAX_CUR_NUMBER
        ((es.foldl bfsDirect ((fun _ => []), ([0] : List ℚ))).1,
         fun _ => MAX_CUR_NUMBER)),
       (es.foldl bfsDirect ((fun _ => []), ([0] : List ℚ))).2⟩ := rfl
  have hcnt0 : Row.countKey (pathsOf (natFold
      (fun fr (st : (ℕ → Row) × (ℕ → ℕ)) => bfsSource st.1 st.2 fr)
      MAX_CUR_NUMBER
      ((es.foldl bfsDirect ((fun _ => []), ([0] : List ℚ))).1,
       fun _ => MAX_CUR_NUMBER)) fr) t = 0 := by
    apply countKey_eq_zero
    intro p hp hpt
    exact h (hpt ▸ (hbs fr p hp).1)
  have hMP : (BFSConverter.init BFSConverter.mkNew es).mPaths =
      pathsOf (natFold
        (fun fr (st : (ℕ → Row) × (ℕ → ℕ)) => bfsSource st.1 st.2 fr)
        MAX_CUR_NUMBER
        ((es.foldl bfsDirect ((fun _ => []), ([0] : List ℚ))).1,
         fun _ => MAX_CUR_NUMBER)) := by
    rw [hinit]
  have hcnt : Row.countKey
      ((BFSConverter.init BFSConverter.mkNew es).mPaths fr) t = 0 := by
    rw [hMP]
    exact hcnt0
  refine ⟨⟨hsen, ?_⟩, hcnt, ?_⟩
  · unfold Converter.convert
    rw [if_pos hsen]
  · unfold BFSConverter.convert
    rw [if_pos hcnt]

/-- Witness for `C4_unreachable_returns_zero`: the empty edge set leaves
`0` and `1` disconnected. -/
theorem C4_unreachable_returns_zero_witness :
    (¬ Reach ([] : List ConvertRate) 0 1) ∧
    ((((Converter.init Converter.mkNew []).rate_table 0 1).nextCur =
        MAX_CUR_NUMBER
      ∧ Converter.convert (Converter.init Converter.mkNew []) 5 0 1 =
        some 0)
    ∧ (Row.countKey ((BFSConverter.init BFSConverter.mkNew []).mPaths 0) 1
        = 0
      ∧ (BFSConverter.convert (BFSConverter.init BFSConverter.mkNew [])
          5 0 1).1 = some 0)) := by
  have hNR : ¬ Reach ([] : List ConvertRate) 0 1 := by
    rintro ⟨n, hp⟩
    cases hp with
    | cons hadj hrest =>
      obtain ⟨e, he, _⟩ := hadj
      exact absurd he (List.not_mem_nil e)
  exact ⟨hNR, C4_unreachable_returns_zero [] 5 0 1 hNR⟩

theorem find_map_store_eq (row : Row) (k : ℕ) (v : Cell) :
    List.find? (fun p => p.1 = k)
      (List.map (fun p => if p.1 = k then (k, v) else p) row) =
      (List.find? (fun p => p.1 = k) row).map (fun _ => (k, v)) := by
  induction row with
  | nil => rfl
  | cons q rest ih =>
    rw [List.map_cons]
    by_cases hq : q.1 = k
    · rw [if_pos hq]
      rw [List.find?_cons_of_pos _ (by simp),
        List.find?_cons_of_pos _ (by simpa using hq)]
      rfl
    · rw [if_neg hq]
      rw [List.find?_cons_of_neg _ (by simpa using hq),
        List.find?_cons_of_neg _ (by simpa using hq)]
      exact ih

theorem find_map_store_ne (row : Row) (k : ℕ) (v : Cell) (x : ℕ)
    (hx : x ≠ k) :
    List.find? (fun p => p.1 = x)
      (List.map (fun p => if p.1 = k then (k, v) else p) row) =
      List.find? (fun p => p.1 = x) row := by
  induction row with
  | nil => rfl
  | cons q rest ih =>
    rw [List.map_cons]
    by_cases hq : q.1 = k
    · rw [if_pos hq]
      rw [List.find?_cons_of_neg _
          (by simp only [decide_eq_true_eq]; omega),
        List.find?_cons_of_neg _
          (by simp only [decide_eq_true_eq]; omega)]
      exact ih
    · rw [if_neg hq]
      by_cases hqx : q.1 = x
      · rw [List.find?_cons_of_pos _ (by simpa using hqx),
          List.find?_cons_of_pos _ (by simpa using hqx)]
      · rw [List.find?_cons_of_neg _ (by simpa using hqx),
          List.find?_cons_of_neg _ (by simpa using hqx)]
        exact ih

theorem Row.lookup_store (row : Row) (k : ℕ) (v : Cell) (x : ℕ) :
    Row.lookup (Row.store row k v) x =
      if x = k then some v else Row.lookup row x := by
  unfold Row.store
  split
  · rename_i hsome
    by_cases hx : x = k
    · subst hx
      rw [if_pos rfl]
      unfold Row.lookup
      rw [find_map_store_eq]
      have h2 : (List.find? (fun p => p.1 = x) row).isSome = true := by
        unfold Row.lookup at hsome
        simpa using hsome
      obtain ⟨q, hq⟩ := Option.isSome_iff_exists.mp h2
      rw [hq]
      rfl
    · rw [if_neg hx]
      unfold Row.lookup
      rw [find_map_store_ne row k v x hx]
  · rename_i hnone
    unfold Row.lookup
    rw [List.find?_append]
    by_cases hx : x = k
    · subst hx
      rw [if_pos rfl]
      have h2 : List.find? (fun p => p.1 = x) row = none := by
        unfold Row.lookup at hnone
        rcases h3 : List.find? (fun p => p.1 = x) row with _ | q
        · exact h3
        · rw [h3] at hnone
          exact absurd rfl hnone
      rw [h2, List.find?_cons_of_pos _ (by simp)]
      rfl
    · rw [if_neg hx]
      rw [show List.find? (fun p => p.1 = x) [(k, v)] = none from by
        rw [List.find?_cons_of_neg _
          (by simp only [decide_eq_true_eq]; omega)]
        rfl]
      rw [Option.or_none]

theorem keyed_of_mem {row : Row} {p : ℕ × Cell} (hp : p ∈ row) :
    keyed row p.1 := by
  unfold keyed Row.lookup
  rw [Option.isSome_map']
  rw [List.find?_isSome]
  exact ⟨p, hp, by simp⟩

theorem lookup_mem {row : Row} {k : ℕ} {c : Cell}
    (h : Row.lookup row k = some c) : (k, c) ∈ row := by
  unfold Row.lookup at h
  rcases h2 : List.find? (fun p => p.1 = k) row with _ | q
  · rw [h2] at h
    exact absurd h (by simp)
  · rw [h2] at h
    have hq1 : q.1 = k := by simpa using List.find?_some h2
    have hq2 : q.2 = c := by simpa using h
    have hmem := List.mem_of_find?_eq_some h2
    rw [← hq1, ← hq2]
    exact hmem

theorem keyed_exists {row : Row} {k : ℕ} (h : keyed row k) :
    ∃ c, Row.lookup row k = some c := by
  unfold keyed at h
  exact Option.isSome_iff_exists.mp h

theorem keyed_store {row : Row} {k : ℕ} {v : Cell} {x : ℕ}
    (h : keyed row x) : keyed (Row.store row k v) x := by
  unfold keyed
  rw [Row.lookup_store]
  by_cases hx : x = k
  · rw [if_pos hx]
    rfl
  · rw [if_neg hx]
    exact h

theorem keyed_store_self (row : Row) (k : ℕ) (v : Cell) :
    keyed (Row.store row k v) k := by
  unfold keyed
  rw [Row.lookup_store, if_pos rfl]
  rfl

theorem Row.index_keyed {row : Row} {k : ℕ} {c : Cell}
    (h : Row.lookup row k = some c) : Row.index row k = (c, row) := by
  unfold Row.index
  rw [h]

theorem upd1_self {α : Type} (f : ℕ → α) (a : ℕ) : upd1 f a (f a) = f := by
  funext x
  unfold upd1
  by_cases h : x = a
  · rw [if_pos h, h]
  · rw [if_neg h]

theorem countKey_pos_keyed {row : Row} {t : ℕ}
    (h : Row.countKey row t ≠ 0) : keyed row t := by
  unfold Row.countKey at h
  rcases h2 : List.filter (fun p => p.1 = t) row with _ | ⟨q, rest⟩
  · rw [h2] at h
    exact absurd rfl h
  · have hq : q ∈ List.filter (fun p => p.1 = t) row := by
      rw [h2]
      exact List.mem_cons_self q rest
    have hmem := List.mem_of_mem_filter hq
    have hqt : q.1 = t := by simpa using List.of_mem_filter hq
    rw [← hqt]
    exact keyed_of_mem hmem

theorem markedCard_upd_fresh {V : ℕ → ℕ} {fr x : ℕ} (hx : x < MAX_CUR_NUMBER)
    (hfresh : V x ≠ fr) :
    markedCard (upd1 V x fr) fr = markedCard V fr + 1 := by
  unfold markedCard
  have hset : (Finset.range MAX_CUR_NUMBER).filter
        (fun y => upd1 V x fr y = fr) =
      insert x ((Finset.range MAX_CUR_NUMBER).filter (fun y => V y = fr)) := by
    ext y
    simp only [Finset.mem_filter, Finset.mem_insert, Finset.mem_range]
    unfold upd1
    by_cases hy : y = x
    · subst hy
      rw [if_pos rfl]
      constructor
      · intro h
        exact Or.inl rfl
      · intro h
        exact ⟨hx, rfl⟩
    · rw [if_neg hy]
      constructor
      · intro h
        exact Or.inr h
      · intro h
        rcases h with h | h
        · exact absurd h hy
        · exact h
  rw [hset, Finset.card_insert_of_not_mem]
  simp only [Finset.mem_filter, Finset.mem_range]
  intro hcontra
  exact hfresh hcontra.2

theorem markedCard_le (V : ℕ → ℕ) (fr : ℕ) :
    markedCard V fr ≤ MAX_CUR_NUMBER := by
  unfold markedCard
  calc ((Finset.range MAX_CUR_NUMBER).filter (fun x => V x = fr)).card
      ≤ (Finset.range MAX_CUR_NUMBER).card := Finset.card_filter_le _ _
    _ = MAX_CUR_NUMBER := Finset.card_range _

theorem markedCard_mono {V V' : ℕ → ℕ} {fr : ℕ}
    (h : ∀ x, V x = fr → V' x = fr) :
    markedCard V fr ≤ markedCard V' fr := by
  unfold markedCard
  apply Finset.card_le_card
  intro x hx
  simp only [Finset.mem_filter, Finset.mem_range] at hx ⊢
  exact ⟨hx.1, h x hx.2⟩

theorem bfsDirect_mem {pr : (ℕ → Row) × List ℚ} {e : ConvertRate} {s : ℕ}
    {p : ℕ × Cell} (hp : p ∈ (bfsDirect pr e).1 s) :
    p ∈ pr.1 s ∨ p = (e.«to», ⟨toInt32 pr.2.length, e.«to»⟩)
      ∨ p = (e.«from», ⟨-toInt32 pr.2.length, e.«from»⟩) := by
  have hp2 : p ∈ upd1
      (upd1 pr.1 e.«from» (Row.store (pr.1 e.«from») e.«to»
        ⟨toInt32 pr.2.length, e.«to»⟩))
      e.«to» (Row.store ((upd1 pr.1 e.«from»
        (Row.store (pr.1 e.«from») e.«to»
          ⟨toInt32 pr.2.length, e.«to»⟩)) e.«to») e.«from»
        ⟨-toInt32 pr.2.length, e.«from»⟩) s := hp
  rcases upd1_mem hp2 with ⟨hs, hpr⟩ | hpr
  · rcases Row.store_mem hpr with rfl | hpr
    · exact Or.inr (Or.inr rfl)
    rcases upd1_mem hpr with ⟨hs2, hpr2⟩ | hpr2
    · rcases Row.store_mem hpr2 with rfl | hpr2
      · exact Or.inr (Or.inl rfl)
      · refine Or.inl ?_
        rw [hs, hs2]
        exact hpr2
    · refine Or.inl ?_
      rw [hs]
      exact hpr2
  · rcases upd1_mem hpr with ⟨hs, hpr2⟩ | hpr2
    · rcases Row.store_mem hpr2 with rfl | hpr2
      · exact Or.inr (Or.inl rfl)
      · refine Or.inl ?_
        rw [hs]
        exact hpr2
    · exact Or.inl hpr2

theorem bfsDirect_keyed_mono {pr : (ℕ → Row) × List ℚ} {e : ConvertRate}
    {s x : ℕ} (h : keyed (pr.1 s) x) : keyed ((bfsDirect pr e).1 s) x := by
  show keyed ((upd1
      (upd1 pr.1 e.«from» (Row.store (pr.1 e.«from») e.«to»
        ⟨toInt32 pr.2.length, e.«to»⟩))
      e.«to» (Row.store ((upd1 pr.1 e.«from»
        (Row.store (pr.1 e.«from») e.«to»
          ⟨toInt32 pr.2.length, e.«to»⟩)) e.«to») e.«from»
        ⟨-toInt32 pr.2.length, e.«from»⟩)) s) x
  unfold upd1
  by_cases h2 : s = e.«to»
  · rw [if_pos h2]
    apply keyed_store
    by_cases h3 : e.«to» = e.«from»
    · rw [if_pos h3]
      apply keyed_store
      rw [← h3, ← h2]
      exact h
    · rw [if_neg h3]
      rw [← h2]
      exact h
  · rw [if_neg h2]
    by_cases h3 : s = e.«from»
    · rw [if_pos h3]
      apply keyed_store
      rw [← h3]
      exact h
    · rw [if_neg h3]
      exact h

theorem foldl_bfsDirect_keyed_mono (rest : List ConvertRate)
    (pr : (ℕ → Row) × List ℚ) (s x : ℕ) (h : keyed (pr.1 s) x) :
    keyed ((rest.foldl bfsDirect pr).1 s) x :=
  foldl_invariant (fun pr => keyed (pr.1 s) x) bfsDirect rest pr h
    (fun q e hq _ => bfsDirect_keyed_mono hq)

theorem bfsDirect_keyed_from {pr : (ℕ → Row) × List ℚ} (e : ConvertRate) :
    keyed ((bfsDirect pr e).1 e.«from») e.«to» := by
  show keyed ((upd1
      (upd1 pr.1 e.«from» (Row.store (pr.1 e.«from») e.«to»
        ⟨toInt32 pr.2.length, e.«to»⟩))
      e.«to» (Row.store ((upd1 pr.1 e.«from»
        (Row.store (pr.1 e.«from») e.«to»
          ⟨toInt32 pr.2.length, e.«to»⟩)) e.«to») e.«from»
        ⟨-toInt32 pr.2.length, e.«from»⟩)) e.«from») e.«to»
  unfold upd1
  by_cases h2 : e.«from» = e.«to»
  · rw [if_pos h2]
    rw [← h2]
    apply keyed_store
    rw [if_pos rfl]
    rw [h2]
    exact keyed_store_self _ _ _
  · rw [if_neg h2]
    rw [if_pos rfl]
    exact keyed_store_self _ _ _

theorem bfsDirect_keyed_to {pr : (ℕ → Row) × List ℚ} (e : ConvertRate) :
    keyed ((bfsDirect pr e).1 e.«to») e.«from» := by
  show keyed ((upd1
      (upd1 pr.1 e.«from» (Row.store (pr.1 e.«from») e.«to»
        ⟨toInt32 pr.2.length, e.«to»⟩))
      e.«to» (Row.store ((upd1 pr.1 e.«from»
        (Row.store (pr.1 e.«from») e.«to»
          ⟨toInt32 pr.2.length, e.«to»⟩)) e.«to») e.«from»
        ⟨-toInt32 pr.2.length, e.«from»⟩)) e.«to») e.«from»
  unfold upd1
  rw [if_pos rfl]
  exact keyed_store_self _ _ _

theorem direct_directKeys (es : List ConvertRate) :
    ∀ pr, DirectKeys es ((es.foldl bfsDirect pr).1) := by
  induction es with
  | nil =>
    intro pr e he
    exact absurd he (List.not_mem_nil e)
  | cons e rest ih =>
    intro pr e' he'
    rcases List.mem_cons.mp he' with rfl | hrest
    · rw [List.foldl_cons]
      exact ⟨foldl_bfsDirect_keyed_mono rest _ _ _ (bfsDirect_keyed_from e'),
        foldl_bfsDirect_keyed_mono rest _ _ _ (bfsDirect_keyed_to e')⟩
    · rw [List.foldl_cons]
      exact ih (bfsDirect pr e) e' hrest

theorem direct_bounds (es : List ConvertRate)
    (hlt : ∀ e ∈ es, e.«from» < MAX_CUR_NUMBER ∧ e.«to» < MAX_CUR_NUMBER) :
    KeysBound (es.foldl bfsDirect ((fun _ => []), ([0] : List ℚ))).1 ∧
    SelfNext (es.foldl bfsDirect ((fun _ => []), ([0] : List ℚ))).1 := by
  refine foldl_invariant
    (fun pr => KeysBound pr.1 ∧ SelfNext pr.1) bfsDirect es _ ⟨?_, ?_⟩ ?_
  · intro s p hp
    exact absurd hp (List.not_mem_nil p)
  · intro s p hp
    exact absurd hp (List.not_mem_nil p)
  · intro x e hx he
    constructor
    · intro s p hp
      rcases bfsDirect_mem hp with h | rfl | rfl
      · exact hx.1 s p h
      · exact (hlt e he).2
      · exact (hlt e he).1
    · intro s p hp
      rcases bfsDirect_mem hp with h | rfl | rfl
      · exact hx.2 s p h
      · rfl
      · rfl

theorem upd1_at {α : Type} (f : ℕ → α) (a : ℕ) (v : α) : upd1 f a v a = v := by
  unfold upd1
  rw [if_pos rfl]

theorem upd1_ne {α : Type} (f : ℕ → α) (a : ℕ) (v : α) {x : ℕ} (h : x ≠ a) :
    upd1 f a v x = f x := by
  unfold upd1
  rw [if_neg h]

theorem bfsScanStep_inv (es : List ConvertRate) (fr start : ℕ) (V0 : ℕ → ℕ)
    (hstart_lt : start < MAX_CUR_NUMBER)
    (st : (ℕ → Row) × (ℕ → ℕ) × List NextCur) (p : ℕ × Cell)
    (hnc_lt : p.2.nextCur < MAX_CUR_NUMBER)
    (h : ScanInv es fr start V0 st.1 st.2.1 st.2.2) :
    ScanInv es fr start V0 (bfsScanStep fr start st p).1
      (bfsScanStep fr start st p).2.1 (bfsScanStep fr start st p).2.2 := by
  obtain ⟨A1, A2, A3, A4, A5, A6, A7, A8, A9, A11, A12, A13⟩ := h
  by_cases hc : st.2.1 p.2.nextCur ≠ fr
  · rw [bfsScanStep_pos fr start st p hc]
    show ScanInv es fr start V0
      (upd1 st.1 fr (Row.store (st.1 fr) p.2.nextCur ⟨Cell.norate, start⟩))
      (upd1 st.2.1 p.2.nextCur fr)
      (st.2.2 ++ [(p.2.nextCur, start)])
    have hfreshkey : ¬ keyed (st.1 fr) p.2.nextCur := by
      intro hk
      obtain ⟨c, hc2⟩ := keyed_exists hk
      exact hc (A6 _ (lookup_mem hc2))
    have hrow : (upd1 st.1 fr (Row.store (st.1 fr) p.2.nextCur
        ⟨Cell.norate, start⟩)) fr =
        Row.store (st.1 fr) p.2.nextCur ⟨Cell.norate, start⟩ :=
      upd1_at _ _ _
    have hrow' : ∀ s, s ≠ fr →
        (upd1 st.1 fr (Row.store (st.1 fr) p.2.nextCur
          ⟨Cell.norate, start⟩)) s = st.1 s :=
      fun s hs => upd1_ne _ _ _ hs
    have hmem' : ∀ s q, q ∈ (upd1 st.1 fr (Row.store (st.1 fr) p.2.nextCur
        ⟨Cell.norate, start⟩)) s →
        q ∈ st.1 s ∨ (s = fr ∧ q = (p.2.nextCur, ⟨Cell.norate, start⟩)) := by
      intro s q hq
      rcases upd1_mem hq with ⟨hs, hq2⟩ | hq2
      · rcases Row.store_mem hq2 with rfl | hq2
        · exact Or.inr ⟨hs, rfl⟩
        · refine Or.inl ?_
          rw [hs]
          exact hq2
      · exact Or.inl hq2
    have hkeyed' : ∀ x, keyed (st.1 fr) x →
        keyed ((upd1 st.1 fr (Row.store (st.1 fr) p.2.nextCur
          ⟨Cell.norate, start⟩)) fr) x := by
      intro x hx
      rw [hrow]
      exact keyed_store hx
    have hmark : ∀ x, st.2.1 x = fr → upd1 st.2.1 p.2.nextCur fr x = fr := by
      intro x hx
      by_cases hxn : x = p.2.nextCur
      · subst hxn
        exact upd1_at _ _ _
      · rw [upd1_ne _ _ _ hxn]
        exact hx
    have hlookup_pres : ∀ x c, Row.lookup (st.1 fr) x = some c →
        Row.lookup ((upd1 st.1 fr (Row.store (st.1 fr) p.2.nextCur
          ⟨Cell.norate, start⟩)) fr) x = some c := by
      intro x c hx
      have hne : x ≠ p.2.nextCur := by
        intro hh
        apply hfreshkey
        rw [← hh]
        exact keyed_of_mem (lookup_mem hx)
      rw [hrow, Row.lookup_store, if_neg hne]
      exact hx
    refine ⟨?_, ?_, ?_, ?_, ?_, ?_, ?_, ?_, ?_, ?_, ?_, ?_⟩
    · intro s q hq
      rcases hmem' s q hq with hq2 | ⟨hs, rfl⟩
      · exact A1 s q hq2
      · exact hnc_lt
    · intro s q hq
      rcases hmem' s q hq with hq2 | ⟨hs, rfl⟩
      · exact A2 s q hq2
      · exact hstart_lt
    · intro s q hq
      rcases hmem' s q hq with hq2 | ⟨hs, rfl⟩
      · by_cases hs : s = fr
        · subst hs
          exact hkeyed' _ (A3 s q hq2)
        · rw [hrow' s hs]
          exact A3 s q hq2
      · subst hs
        exact hkeyed' _ A11
    · intro e he
      obtain ⟨⟨c1, hc1, hn1⟩, ⟨c2, hc2, hn2⟩⟩ := A4 e he
      constructor
      · refine ⟨c1, ?_, hn1⟩
        by_cases hs : e.«from» = fr
        · rw [hs]
          refine hlookup_pres _ _ ?_
          rw [← hs]
          exact hc1
        · rw [hrow' _ hs]
          exact hc1
      · refine ⟨c2, ?_, hn2⟩
        by_cases hs : e.«to» = fr
        · rw [hs]
          refine hlookup_pres _ _ ?_
          rw [← hs]
          exact hc2
        · rw [hrow' _ hs]
          exact hc2
    · intro x hx
      by_cases hxn : x = p.2.nextCur
      · subst hxn
        refine Or.inr ?_
        rw [hrow]
        exact keyed_store_self _ _ _
      · rw [upd1_ne _ _ _ hxn] at hx
        rcases A5 x hx with h5 | h5
        · exact Or.inl h5
        · exact Or.inr (hkeyed' _ h5)
    · intro q hq
      rw [hrow] at hq
      rcases Row.store_mem hq with rfl | hq2
      · exact upd1_at _ _ _
      · exact hmark _ (A6 q hq2)
    · intro q hq
      rcases List.mem_append.mp hq with hold | hnew
      · obtain ⟨hq1, hq2, hq3⟩ := A7 q hold
        exact ⟨hmark _ hq1, hq2, hq3⟩
      · have hq2 : q = (p.2.nextCur, start) := List.mem_singleton.mp hnew
        subst hq2
        exact ⟨upd1_at _ _ _, rfl, hnc_lt⟩
    · intro x hx
      exact hmark _ (A8 x hx)
    · rw [List.length_append]
      rw [markedCard_upd_fresh hnc_lt (fun hh => hc hh)]
      simp only [List.length_cons, List.length_nil]
      omega
    · exact hkeyed' _ A11
    · exact hmark _ A12
    · intro x hx
      by_cases hxn : x = p.2.nextCur
      · subst hxn
        exact Or.inr ⟨(p.2.nextCur, start),
          List.mem_append.mpr (Or.inr (List.mem_singleton.mpr rfl)), rfl⟩
      · rw [upd1_ne _ _ _ hxn] at hx
        rcases A13 x hx with h13 | ⟨q, hq, hq1⟩
        · exact Or.inl h13
        · exact Or.inr ⟨q, List.mem_append.mpr (Or.inl hq), hq1⟩
  · rw [bfsScanStep_neg fr start st p hc]
    exact ⟨A1, A2, A3, A4, A5, A6, A7, A8, A9, A11, A12, A13⟩

theorem bfsScan_inv (es : List ConvertRate) (fr start : ℕ) (V0 : ℕ → ℕ)
    (hstart_lt : start < MAX_CUR_NUMBER) (cells : Row)
    (st : (ℕ → Row) × (ℕ → ℕ) × List NextCur)
    (hcells : ∀ p ∈ cells, p.2.nextCur < MAX_CUR_NUMBER)
    (h : ScanInv es fr start V0 st.1 st.2.1 st.2.2) :
    ScanInv es fr start V0 (bfsScan fr start cells st).1
      (bfsScan fr start cells st).2.1 (bfsScan fr start cells st).2.2 := by
  unfold bfsScan
  refine foldl_invariant
    (fun st => ScanInv es fr start V0 st.1 st.2.1 st.2.2)
    (bfsScanStep fr start) cells st h ?_
  intro x p hx hp
  exact bfsScanStep_inv es fr start V0 hstart_lt x p (hcells p hp) hx

theorem bfsScanStep_visited_mono (fr start : ℕ)
    (st : (ℕ → Row) × (ℕ → ℕ) × List NextCur) (p : ℕ × Cell) (x : ℕ)
    (h : st.2.1 x = fr) : (bfsScanStep fr start st p).2.1 x = fr := by
  by_cases hc : st.2.1 p.2.nextCur ≠ fr
  · rw [bfsScanStep_pos fr start st p hc]
    show upd1 st.2.1 p.2.nextCur fr x = fr
    by_cases hxn : x = p.2.nextCur
    · subst hxn
      exact upd1_at _ _ _
    · rw [upd1_ne _ _ _ hxn]
      exact h
  · rw [bfsScanStep_neg fr start st p hc]
    exact h

theorem bfsScan_visited_mono (fr start : ℕ) (cells : Row)
    (st : (ℕ → Row) × (ℕ → ℕ) × List NextCur) (x : ℕ)
    (h : st.2.1 x = fr) : (bfsScan fr start cells st).2.1 x = fr := by
  unfold bfsScan
  refine foldl_invariant (fun st => st.2.1 x = fr) (bfsScanStep fr start)
    cells st h ?_
  intro y p hy _
  exact bfsScanStep_visited_mono fr start y p x hy

theorem bfsScan_marks (fr start : ℕ) :
    ∀ (cells : Row) (st : (ℕ → Row) × (ℕ → ℕ) × List NextCur),
    ∀ p ∈ cells, (bfsScan fr start cells st).2.1 p.2.nextCur = fr := by
  intro cells
  induction cells with
  | nil =>
    intro st p hp
    exact absurd hp (List.not_mem_nil p)
  | cons c rest ih =>
    intro st p hp
    show (bfsScan fr start rest (bfsScanStep fr start st c)).2.1
      p.2.nextCur = fr
    rcases List.mem_cons.mp hp with rfl | hrest
    · refine bfsScan_visited_mono fr start rest _ _ ?_
      by_cases hc : st.2.1 p.2.nextCur ≠ fr
      · rw [bfsScanStep_pos fr start st p hc]
        show upd1 st.2.1 p.2.nextCur fr p.2.nextCur = fr
        exact upd1_at _ _ _
      · rw [bfsScanStep_neg fr start st p hc]
        omega
    · exact ih (bfsScanStep fr start st c) p hrest

theorem bfsScan_keyed_mono (fr start : ℕ) (cells : Row)
    (st : (ℕ → Row) × (ℕ → ℕ) × List NextCur) (x : ℕ)
    (h : keyed (st.1 fr) x) : keyed ((bfsScan fr start cells st).1 fr) x := by
  unfold bfsScan
  refine foldl_invariant (fun st => keyed (st.1 fr) x) (bfsScanStep fr start)
    cells st h ?_
  intro y p hy _
  by_cases hc : y.2.1 p.2.nextCur ≠ fr
  · rw [bfsScanStep_pos fr start y p hc]
    show keyed ((upd1 y.1 fr (Row.store (y.1 fr) p.2.nextCur
      ⟨Cell.norate, start⟩)) fr) x
    rw [upd1_at]
    exact keyed_store hy
  · rw [bfsScanStep_neg fr start y p hc]
    exact hy

theorem loopInv_done {es : List ConvertRate} {fr : ℕ} {P : ℕ → Row}
    {V : ℕ → ℕ} (h : LoopInv es fr P V []) : LoopDone es fr P V := by
  obtain ⟨A1, A2, A3, A4, A5, A6, _, A8⟩ := h
  refine ⟨A1, A2, A3, A4, A5, A6, ?_⟩
  intro x hx hxf
  rcases A8 x hx hxf with ⟨q, hq, _⟩ | h8
  · exact absurd hq (List.not_mem_nil q)
  · exact h8

theorem bfsLoop_done (es : List ConvertRate) (fr : ℕ) :
    ∀ (fuel : ℕ) (st : (ℕ → Row) × (ℕ → ℕ)) (Q : List NextCur),
    LoopInv es fr st.1 st.2 Q →
    Q.length + (MAX_CUR_NUMBER - markedCard st.2 fr) ≤ fuel →
    LoopDone es fr (bfsLoop fr st Q fuel).1 (bfsLoop fr st Q fuel).2 ∧
    (∀ x, st.2 x = fr → (bfsLoop fr st Q fuel).2 x = fr) := by
  intro fuel
  induction fuel with
  | zero =>
    intro st Q hInv hfuel
    cases Q with
    | nil => exact ⟨loopInv_done hInv, fun x hx => hx⟩
    | cons nx rest =>
      exfalso
      simp only [List.length_cons] at hfuel
      have := markedCard_le st.2 fr
      omega
  | succ n ih =>
    intro st Q hInv hfuel
    obtain ⟨A1, A2, A3, A4, A5, A6, A7, A8⟩ := hInv
    cases Q with
    | nil => exact ⟨loopInv_done ⟨A1, A2, A3, A4, A5, A6,
        fun q hq => absurd hq (List.not_mem_nil q), A8⟩, fun x hx => hx⟩
    | cons nx rest =>
      simp only [bfsLoop]
      obtain ⟨hnx1, hnx2, hnxk, hnx1lt, hnx2lt⟩ :=
        A7 nx (List.mem_cons_self nx rest)
      have hvmono : ∀ x, st.2 x = fr → upd1 st.2 nx.1 fr x = fr := by
        intro x hx
        by_cases hxn : x = nx.1
        · subst hxn
          exact upd1_at _ _ _
        · rw [upd1_ne _ _ _ hxn]
          exact hx
      have hscan := bfsScan_inv es fr nx.2 (upd1 st.2 nx.1 fr) hnx2lt
        (st.1 nx.1) (st.1, upd1 st.2 nx.1 fr, [])
        (fun p hp => A2 nx.1 p hp)
        (by
          show ScanInv es fr nx.2 (upd1 st.2 nx.1 fr) st.1
            (upd1 st.2 nx.1 fr) []
          refine ⟨A1, A2, A3, A4, ?_, ?_, ?_, ?_, ?_, hnxk, ?_, ?_⟩
          · intro x hx
            by_cases hxn : x = nx.1
            · subst hxn
              exact A5 _ hnx1
            · rw [upd1_ne _ _ _ hxn] at hx
              exact A5 x hx
          · intro p hp
            exact hvmono _ (A6 p hp)
          · intro q hq
            exact absurd hq (List.not_mem_nil q)
          · intro x hx
            exact hx
          · simp
          · exact hvmono _ hnx2
          · intro x hx
            exact Or.inl hx)
      have hmarks := bfsScan_marks fr nx.2 (st.1 nx.1)
        (st.1, upd1 st.2 nx.1 fr, [])
      have hsmono : ∀ x, upd1 st.2 nx.1 fr x = fr →
          (bfsScan fr nx.2 (st.1 nx.1)
            (st.1, upd1 st.2 nx.1 fr, [])).2.1 x = fr :=
        fun x hx => bfsScan_visited_mono fr nx.2 (st.1 nx.1) _ x hx
      have hkmono : ∀ x, keyed (st.1 fr) x →
          keyed ((bfsScan fr nx.2 (st.1 nx.1)
            (st.1, upd1 st.2 nx.1 fr, [])).1 fr) x :=
        fun x hx => bfsScan_keyed_mono fr nx.2 (st.1 nx.1) _ x hx
      have hother : ∀ x, x ≠ fr →
          (bfsScan fr nx.2 (st.1 nx.1)
            (st.1, upd1 st.2 nx.1 fr, [])).1 x = st.1 x :=
        fun x hx => bfsScan_paths_other fr nx.2 (st.1 nx.1) _ x hx
      obtain ⟨B1, B2, B3, B4, B5, B6, B7, B8, B9, B11, B12, B13⟩ := hscan
      have hInv2 : LoopInv es fr
          (bfsScan fr nx.2 (st.1 nx.1) (st.1, upd1 st.2 nx.1 fr, [])).1
          (bfsScan fr nx.2 (st.1 nx.1) (st.1, upd1 st.2 nx.1 fr, [])).2.1
          (rest ++ (bfsScan fr nx.2 (st.1 nx.1)
            (st.1, upd1 st.2 nx.1 fr, [])).2.2) := by
        refine ⟨B1, B2, B3, B4, B5, B6, ?_, ?_⟩
        · intro q hq
          rcases List.mem_append.mp hq with hqr | hqs
          · obtain ⟨hq1, hq2, hq3, hq4, hq5⟩ :=
              A7 q (List.mem_cons_of_mem nx hqr)
            exact ⟨hsmono _ (hvmono _ hq1), hsmono _ (hvmono _ hq2),
              hkmono _ hq3, hq4, hq5⟩
          · obtain ⟨hq1, hq2, hq4⟩ := B7 q hqs
            refine ⟨hq1, ?_, ?_, hq4, ?_⟩
            · rw [hq2]
              exact B12
            · rw [hq2]
              exact B11
            · rw [hq2]
              exact hnx2lt
        · intro x hx hxf
          rcases B13 x hx with hold | ⟨q, hq, hq1⟩
          · by_cases hxn : x = nx.1
            · subst hxn
              refine Or.inr ?_
              intro p hp
              rw [hother _ hxf] at hp
              exact hmarks p hp
            · have hx0 : st.2 x = fr := by
                rw [upd1_ne _ _ _ hxn] at hold
                exact hold
              rcases A8 x hx0 hxf with ⟨q, hq, hq1⟩ | hclosed
              · rcases List.mem_cons.mp hq with rfl | hqrest
                · exact absurd hq1.symm hxn
                · exact Or.inl ⟨q, List.mem_append.mpr (Or.inl hqrest), hq1⟩
              · refine Or.inr ?_
                intro p hp
                rw [hother _ hxf] at hp
                exact hsmono _ (hvmono _ (hclosed p hp))
          · exact Or.inl ⟨q, List.mem_append.mpr (Or.inr hq), hq1⟩
      have hfuel2 : (rest ++ (bfsScan fr nx.2 (st.1 nx.1)
            (st.1, upd1 st.2 nx.1 fr, [])).2.2).length +
          (MAX_CUR_NUMBER - markedCard (bfsScan fr nx.2 (st.1 nx.1)
            (st.1, upd1 st.2 nx.1 fr, [])).2.1 fr) ≤ n := by
        have hm1 : markedCard st.2 fr ≤
            markedCard (upd1 st.2 nx.1 fr) fr := markedCard_mono hvmono
        have hm3 := markedCard_le
          (bfsScan fr nx.2 (st.1 nx.1) (st.1, upd1 st.2 nx.1 fr, [])).2.1 fr
        rw [List.length_append]
        simp only [List.length_cons] at hfuel
        omega
      have hres := ih ((bfsScan fr nx.2 (st.1 nx.1)
          (st.1, upd1 st.2 nx.1 fr, [])).1,
        (bfsScan fr nx.2 (st.1 nx.1) (st.1, upd1 st.2 nx.1 fr, [])).2.1)
        (rest ++ (bfsScan fr nx.2 (st.1 nx.1)
          (st.1, upd1 st.2 nx.1 fr, [])).2.2) hInv2 hfuel2
      refine ⟨hres.1, ?_⟩
      intro x hx
      exact hres.2 x (hsmono _ (hvmono _ hx))

theorem bfsScanStep_writes (fr start : ℕ)
    (st : (ℕ → Row) × (ℕ → ℕ) × List NextCur) (p : ℕ × Cell) (x : ℕ) :
    (bfsScanStep fr start st p).2.1 x = st.2.1 x ∨
      (bfsScanStep fr start st p).2.1 x = fr := by
  by_cases hc : st.2.1 p.2.nextCur ≠ fr
  · rw [bfsScanStep_pos fr start st p hc]
    show upd1 st.2.1 p.2.nextCur fr x = st.2.1 x ∨
      upd1 st.2.1 p.2.nextCur fr x = fr
    by_cases hxn : x = p.2.nextCur
    · subst hxn
      exact Or.inr (upd1_at _ _ _)
    · rw [upd1_ne _ _ _ hxn]
      exact Or.inl rfl
  · rw [bfsScanStep_neg fr start st p hc]
    exact Or.inl rfl

theorem bfsScan_writes (fr start : ℕ) (cells : Row)
    (st : (ℕ → Row) × (ℕ → ℕ) × List NextCur) (x : ℕ) :
    (bfsScan fr start cells st).2.1 x = st.2.1 x ∨
      (bfsScan fr start cells st).2.1 x = fr := by
  unfold bfsScan
  refine foldl_invariant
    (fun y => y.2.1 x = st.2.1 x ∨ y.2.1 x = fr)
    (bfsScanStep fr start) cells st (Or.inl rfl) ?_
  intro y p hy _
  rcases bfsScanStep_writes fr start y p x with h | h
  · rw [h]
    exact hy
  · exact Or.inr h

theorem bfsLoop_writes (fr : ℕ) :
    ∀ (fuel : ℕ) (st : (ℕ → Row) × (ℕ → ℕ)) (Q : List NextCur) (x : ℕ),
    (bfsLoop fr st Q fuel).2 x = st.2 x ∨ (bfsLoop fr st Q fuel).2 x = fr := by
  intro fuel
  induction fuel with
  | zero =>
    intro st Q x
    cases Q with
    | nil => exact Or.inl rfl
    | cons nx rest => exact Or.inl rfl
  | succ n ih =>
    intro st Q x
    cases Q with
    | nil => exact Or.inl rfl
    | cons nx rest =>
      simp only [bfsLoop]
      rcases ih ((bfsScan fr nx.2 (st.1 nx.1)
          (st.1, upd1 st.2 nx.1 fr, [])).1,
        (bfsScan fr nx.2 (st.1 nx.1) (st.1, upd1 st.2 nx.1 fr, [])).2.1)
        (rest ++ (bfsScan fr nx.2 (st.1 nx.1)
          (st.1, upd1 st.2 nx.1 fr, [])).2.2) x with h | h
      · rw [h]
        show (bfsScan fr nx.2 (st.1 nx.1)
            (st.1, upd1 st.2 nx.1 fr, [])).2.1 x = st.2 x ∨
          (bfsScan fr nx.2 (st.1 nx.1)
            (st.1, upd1 st.2 nx.1 fr, [])).2.1 x = fr
        rcases bfsScan_writes fr nx.2 (st.1 nx.1)
          (st.1, upd1 st.2 nx.1 fr, []) x with h2 | h2
        · rw [h2]
          show upd1 st.2 nx.1 fr x = st.2 x ∨ upd1 st.2 nx.1 fr x = fr
          by_cases hxn : x = nx.1
          · subst hxn
            exact Or.inr (upd1_at _ _ _)
          · rw [upd1_ne _ _ _ hxn]
            exact Or.inl rfl
        · rw [h2]
          exact Or.inr rfl
      · exact Or.inr h

theorem bfsSource_writes (P : ℕ → Row) (V : ℕ → ℕ) (fr x : ℕ) :
    (bfsSource P V fr).2 x = V x ∨ (bfsSource P V fr).2 x = fr := by
  unfold bfsSource
  rcases bfsLoop_writes fr ((P fr).length + MAX_CUR_NUMBER)
    (P, List.foldl (fun v (p : ℕ × Cell) => upd1 v p.1 fr)
      (upd1 V fr fr) (P fr))
    (List.map (fun (p : ℕ × Cell) => (p.1, p.1)) (P fr)) x with h | h
  · rw [h]
    have hfold : ∀ (l : List (ℕ × Cell)) (v : ℕ → ℕ),
        (l.foldl (fun v (p : ℕ × Cell) => upd1 v p.1 fr) v) x = v x ∨
        (l.foldl (fun v (p : ℕ × Cell) => upd1 v p.1 fr) v) x = fr := by
      intro l
      induction l with
      | nil => exact fun v => Or.inl rfl
      | cons q rest ih =>
        intro v
        rcases ih (upd1 v q.1 fr) with h2 | h2
        · rw [List.foldl_cons, h2]
          by_cases hxq : x = q.1
          · subst hxq
            exact Or.inr (upd1_at _ _ _)
          · rw [upd1_ne _ _ _ hxq]
            exact Or.inl rfl
        · rw [List.foldl_cons, h2]
          exact Or.inr rfl
    show List.foldl (fun v (p : ℕ × Cell) => upd1 v p.1 fr)
        (upd1 V fr fr) (P fr) x = V x ∨
      List.foldl (fun v (p : ℕ × Cell) => upd1 v p.1 fr)
        (upd1 V fr fr) (P fr) x = fr
    rcases hfold (P fr) (upd1 V fr fr) with h2 | h2
    · rw [h2]
      by_cases hxf : x = fr
      · subst hxf
        exact Or.inr (upd1_at _ _ _)
      · rw [upd1_ne _ _ _ hxf]
        exact Or.inl rfl
    · rw [h2]
      exact Or.inr rfl
  · exact Or.inr h

theorem fold_mark_mono (fr x : ℕ) (l : List (ℕ × Cell)) (v : ℕ → ℕ)
    (h : v x = fr) :
    (l.foldl (fun v (p : ℕ × Cell) => upd1 v p.1 fr) v) x = fr := by
  refine foldl_invariant (fun w => w x = fr)
    (fun v (p : ℕ × Cell) => upd1 v p.1 fr) l v h ?_
  intro w p hw _
  show upd1 w p.1 fr x = fr
  by_cases hxp : x = p.1
  · subst hxp
    exact upd1_at _ _ _
  · rw [upd1_ne _ _ _ hxp]
    exact hw

theorem fold_mark_all (fr : ℕ) :
    ∀ (l : List (ℕ × Cell)) (v : ℕ → ℕ) (p : ℕ × Cell), p ∈ l →
    (l.foldl (fun v (p : ℕ × Cell) => upd1 v p.1 fr) v) p.1 = fr := by
  intro l
  induction l with
  | nil =>
    intro v p hp
    exact absurd hp (List.not_mem_nil p)
  | cons q rest ih =>
    intro v p hp
    rw [List.foldl_cons]
    rcases List.mem_cons.mp hp with rfl | hrest
    · exact fold_mark_mono fr p.1 rest _ (upd1_at _ _ _)
    · exact ih _ p hrest

theorem fold_mark_char (fr x : ℕ) (row : Row) (v : ℕ → ℕ) :
    (row.foldl (fun v (p : ℕ × Cell) => upd1 v p.1 fr) v) x = fr →
      v x = fr ∨ ∃ p ∈ row, p.1 = x := by
  refine foldl_invariant
    (fun w => w x = fr → v x = fr ∨ ∃ p ∈ row, p.1 = x)
    (fun v (p : ℕ × Cell) => upd1 v p.1 fr) row v (fun h => Or.inl h) ?_
  intro w p hw hp hfx
  by_cases hxp : x = p.1
  · exact Or.inr ⟨p, hp, hxp.symm⟩
  · have hfx2 : w x = fr := by
      have : upd1 w p.1 fr x = fr := hfx
      rw [upd1_ne _ _ _ hxp] at this
      exact this
    exact hw hfx2

theorem bfsSource_done (es : List ConvertRate) (P : ℕ → Row) (V : ℕ → ℕ)
    (fr : ℕ)
    (h1 : KeysBound P) (h2 : NextBound P) (h3 : CellsKeyed P)
    (h4 : DirNext es P) (hfresh : ∀ x, V x ≠ fr) :
    LoopDone es fr (bfsSource P V fr).1 (bfsSource P V fr).2 ∧
    (bfsSource P V fr).2 fr = fr := by
  unfold bfsSource
  have hV2fr : (List.foldl (fun v (p : ℕ × Cell) => upd1 v p.1 fr)
      (upd1 V fr fr) (P fr)) fr = fr :=
    fold_mark_mono fr fr (P fr) _ (upd1_at _ _ _)
  have hchar : ∀ x, (List.foldl (fun v (p : ℕ × Cell) => upd1 v p.1 fr)
      (upd1 V fr fr) (P fr)) x = fr → x = fr ∨ ∃ p ∈ P fr, p.1 = x := by
    intro x hx
    rcases fold_mark_char fr x (P fr) (upd1 V fr fr) hx with h | ⟨p, hp, hpx⟩
    · by_cases hxf : x = fr
      · exact Or.inl hxf
      · rw [upd1_ne _ _ _ hxf] at h
        exact absurd h (hfresh x)
    · exact Or.inr ⟨p, hp, hpx⟩
  have hInv : LoopInv es fr P
      (List.foldl (fun v (p : ℕ × Cell) => upd1 v p.1 fr)
        (upd1 V fr fr) (P fr))
      (List.map (fun (p : ℕ × Cell) => (p.1, p.1)) (P fr)) := by
    refine ⟨h1, h2, h3, h4, ?_, ?_, ?_, ?_⟩
    · intro x hx
      rcases hchar x hx with h | ⟨p, hp, hpx⟩
      · exact Or.inl h
      · refine Or.inr ?_
        rw [← hpx]
        exact keyed_of_mem hp
    · intro p hp
      exact fold_mark_all fr (P fr) _ p hp
    · intro q hq
      rcases List.mem_map.mp hq with ⟨p, hp, hmap⟩
      rw [← hmap]
      exact ⟨fold_mark_all fr (P fr) _ p hp, fold_mark_all fr (P fr) _ p hp,
        keyed_of_mem hp, h1 fr p hp, h1 fr p hp⟩
    · intro x hx hxf
      rcases hchar x hx with h | ⟨p, hp, hpx⟩
      · exact absurd h hxf
      · exact Or.inl ⟨(p.1, p.1), List.mem_map.mpr ⟨p, hp, rfl⟩, hpx⟩
  have hres := bfsLoop_done es fr ((P fr).length + MAX_CUR_NUMBER)
    (P, List.foldl (fun v (p : ℕ × Cell) => upd1 v p.1 fr)
      (upd1 V fr fr) (P fr))
    (List.map (fun (p : ℕ × Cell) => (p.1, p.1)) (P fr)) hInv
    (by
      rw [List.length_map]
      omega)
  exact ⟨hres.1, hres.2 fr hV2fr⟩

theorem pathN_last {es : List ConvertRate} {u v : ℕ} {n : ℕ}
    (p : PathN es u v (n + 1)) : ∃ w, PathN es u w n ∧ adjE es w v := by
  have p2 := PathN.symm p
  cases p2 with
  | cons hadj q => exact ⟨_, PathN.symm q, adjE_symm hadj⟩

theorem dirNext_adj {es : List ConvertRate} {P : ℕ → Row} (hD : DirNext es P)
    {u v : ℕ} (h : adjE es u v) :
    ∃ c, Row.lookup (P u) v = some c ∧ c.nextCur = v := by
  obtain ⟨e, he, hor⟩ := h
  rcases hor with ⟨hf, ht⟩ | ⟨hf, ht⟩
  · obtain ⟨⟨c, hc, hn⟩, _⟩ := hD e he
    subst hf
    subst ht
    exact ⟨c, hc, hn⟩
  · obtain ⟨_, ⟨c, hc, hn⟩⟩ := hD e he
    subst hf
    subst ht
    exact ⟨c, hc, hn⟩

theorem loopDone_complete {es : List ConvertRate} {fr : ℕ} {P : ℕ → Row}
    {V : ℕ → ℕ} (h : LoopDone es fr P V) :
    ∀ n t, PathN es fr t n → t = fr ∨ (V t = fr ∧ keyed (P fr) t) := by
  obtain ⟨h1, h2, h3, h4, h5, h6, h7⟩ := h
  intro n
  induction n with
  | zero =>
    intro t hp
    cases hp
    exact Or.inl rfl
  | succ m ih =>
    intro t hp
    obtain ⟨w, pw, hadj⟩ := pathN_last hp
    by_cases htf : t = fr
    · exact Or.inl htf
    have hmark_t : V t = fr := by
      have hwcase : w = fr ∨ (V w = fr ∧ w ≠ fr) := by
        rcases ih w pw with h | ⟨hm, _⟩
        · exact Or.inl h
        · by_cases hwf : w = fr
          · exact Or.inl hwf
          · exact Or.inr ⟨hm, hwf⟩
      rcases hwcase with rfl | ⟨hwm, hwf⟩
      · obtain ⟨c, hc, _⟩ := dirNext_adj h4 hadj
        exact h6 (t, c) (lookup_mem hc)
      · obtain ⟨c, hc, hcn⟩ := dirNext_adj h4 hadj
        have := h7 w hwm hwf (t, c) (lookup_mem hc)
        rw [hcn] at this
        exact this
    exact Or.inr ⟨hmark_t, (h5 t hmark_t).resolve_left htf⟩

theorem natFold_invariant_idx {α : Type} (P : ℕ → α → Prop) (f : ℕ → α → α)
    (n : ℕ) (a : α) (h0 : P 0 a)
    (hstep : ∀ i x, i < n → P i x → P (i + 1) (f i x)) :
    P n (natFold f n a) := by
  induction n with
  | zero => exact h0
  | succ m ih =>
    exact hstep m _ (by omega)
      (ih (fun i x hi px => hstep i x (by omega) px))

theorem init_srcInv (es : List ConvertRate)
    (hlt : ∀ e ∈ es, e.«from» < MAX_CUR_NUMBER ∧ e.«to» < MAX_CUR_NUMBER) :
    SrcInv es MAX_CUR_NUMBER
      (natFold (fun fr (st : (ℕ → Row) × (ℕ → ℕ)) => bfsSource st.1 st.2 fr)
        MAX_CUR_NUMBER
        ((es.foldl bfsDirect ((fun _ => []), ([0] : List ℚ))).1,
         fun _ => MAX_CUR_NUMBER)) := by
  refine natFold_invariant_idx (SrcInv es)
    (fun fr (st : (ℕ → Row) × (ℕ → ℕ)) => bfsSource st.1 st.2 fr)
    MAX_CUR_NUMBER _ ?_ ?_
  · obtain ⟨hKB, hSN⟩ := direct_bounds es hlt
    have hDK := direct_directKeys es ((fun _ => []), ([0] : List ℚ))
    refine ⟨hKB, ?_, ?_, ?_, ?_, ?_⟩
    · intro s p hp
      rw [hSN s p hp]
      exact hKB s p hp
    · intro s p hp
      rw [hSN s p hp]
      exact keyed_of_mem hp
    · intro e he
      obtain ⟨h1, h2⟩ := hDK e he
      obtain ⟨c1, hc1⟩ := keyed_exists h1
      obtain ⟨c2, hc2⟩ := keyed_exists h2
      exact ⟨⟨c1, hc1, hSN _ _ (lookup_mem hc1)⟩,
        ⟨c2, hc2, hSN _ _ (lookup_mem hc2)⟩⟩
    · intro x
      exact Or.inl rfl
    · intro s hs
      omega
  · intro i st hi hinv
    obtain ⟨C1, C2, C3, C4, C5, C6⟩ := hinv
    have hfresh : ∀ x, st.2 x ≠ i := by
      intro x
      rcases C5 x with h | h
      · omega
      · omega
    have hdone := bfsSource_done es st.1 st.2 i C1 C2 C3 C4 hfresh
    obtain ⟨⟨D1, D2, D3, D4, D5, D6, D7⟩, Dfr⟩ := hdone
    refine ⟨D1, D2, D3, D4, ?_, ?_⟩
    · intro x
      rcases bfsSource_writes st.1 st.2 i x with h | h
      · rw [h]
        rcases C5 x with h2 | h2
        · exact Or.inl h2
        · exact Or.inr (by omega)
      · rw [h]
        exact Or.inr (by omega)
    · intro s hs t hr hts
      by_cases hsi : s = i
      · subst hsi
        obtain ⟨n, hp⟩ := hr
        rcases loopDone_complete ⟨D1, D2, D3, D4, D5, D6, D7⟩ n t hp with
          h | ⟨_, hk⟩
        · exact absurd h hts
        · exact hk
      · have hrow : (bfsSource st.1 st.2 i).1 s = st.1 s :=
          bfsSource_paths_other st.1 st.2 i s hsi
        show keyed ((bfsSource st.1 st.2 i).1 s) t
        rw [hrow]
        exact C6 s (by omega) t hr hts

theorem walk_no_insert (rs : List ℚ) (t : ℕ) (P : ℕ → Row)
    (hCK : CellsKeyed P)
    (hKI : ∀ prev c, Row.lookup (P prev) t = some c → c.nextCur ≠ t →
      keyed (P c.nextCur) t) :
    ∀ (fuel prev : ℕ) (tot : ℚ), keyed (P prev) t →
      (BFSConverter.walk rs t P prev tot fuel).2 = P := by
  intro fuel
  induction fuel with
  | zero =>
    intro prev tot h
    rfl
  | succ n ih =>
    intro prev tot h
    obtain ⟨c, hc⟩ := keyed_exists h
    rw [BFSConverter.walk_succ_bfs, Row.index_keyed hc,
      show ((c, P prev).1 : Cell) = c from rfl,
      show ((c, P prev).2 : Row) = P prev from rfl,
      upd1_self]
    obtain ⟨c2, hc2⟩ := keyed_exists (hCK prev (t, c) (lookup_mem hc))
    rw [Row.index_keyed hc2,
      show ((c2, P prev).1 : Cell) = c2 from rfl,
      show ((c2, P prev).2 : Row) = P prev from rfl,
      upd1_self]
    by_cases hct : c.nextCur = t
    · rw [if_pos hct]
    · rw [if_neg hct]
      exact ih c.nextCur _ (hKI prev c hc hct)

/-- **C9**: a `convert` query on a `BFSConverter` built by `init` from
in-range edges performs no mutation: the early returns hand the state back
unchanged, and along the walk every `operator[]` lookup hits an existing
key (the dense `Converter::convert` only reads its fixed-size arrays, so it
cannot mutate by construction). -/
theorem C9_convert_no_mutation (es : List ConvertRate)
    (hlt : ∀ e ∈ es, e.«from» < MAX_CUR_NUMBER ∧ e.«to» < MAX_CUR_NUMBER)
    (v : ℚ) (fr t : ℕ) :
    (BFSConverter.convert (BFSConverter.init BFSConverter.mkNew es)
      v fr t).2 = BFSConverter.init BFSConverter.mkNew es := by
  obtain ⟨S1, S2, S3, S4, S5, S6⟩ := init_srcInv es hlt
  have hsound := init_rowsSound es
  have hinit : BFSConverter.init BFSConverter.mkNew es =
      ⟨pathsOf (natFold (fun fr (st : (ℕ → Row) × (ℕ → ℕ)) =>
          bfsSource st.1 st.2 fr) MAX_CUR_NUMBER
        ((es.foldl bfsDirect ((fun _ => []), ([0] : List ℚ))).1,
         fun _ => MAX_CUR_NUMBER)),
       (es.foldl bfsDirect ((fun _ => []), ([0] : List ℚ))).2⟩ := rfl
  have hMP : (BFSConverter.init BFSConverter.mkNew es).mPaths =
      pathsOf (natFold
        (fun fr (st : (ℕ → Row) × (ℕ → ℕ)) => bfsSource st.1 st.2 fr)
        MAX_CUR_NUMBER
        ((es.foldl bfsDirect ((fun _ => []), ([0] : List ℚ))).1,
         fun _ => MAX_CUR_NUMBER)) := by
    rw [hinit]
  unfold BFSConverter.convert
  by_cases hcnt : Row.countKey
      ((BFSConverter.init BFSConverter.mkNew es).mPaths fr) t = 0
  · rw [if_pos hcnt]
  · rw [if_neg hcnt]
    by_cases hft : fr = t
    · rw [if_pos hft]
    · rw [if_neg hft]
      have hCK : CellsKeyed
          ((BFSConverter.init BFSConverter.mkNew es).mPaths) := by
        rw [hMP]
        exact S3
      have hKI : ∀ prev c, Row.lookup
            ((BFSConverter.init BFSConverter.mkNew es).mPaths prev) t =
            some c → c.nextCur ≠ t →
          keyed ((BFSConverter.init BFSConverter.mkNew es).mPaths
            c.nextCur) t := by
        rw [hMP]
        intro prev c hc hct
        have hmem := lookup_mem hc
        have hs1 := (hsound prev (t, c) hmem).1
        have hs2 := (hsound prev (t, c) hmem).2
        have hb := S2 prev (t, c) hmem
        exact S6 c.nextCur hb t (Reach.trans (Reach.swap hs2) hs1)
          (fun hh => hct hh.symm)
      have hkey : keyed
          ((BFSConverter.init BFSConverter.mkNew es).mPaths fr) t :=
        countKey_pos_keyed hcnt
      have hwalk2 := walk_no_insert
        (BFSConverter.init BFSConverter.mkNew es).mRates t
        (BFSConverter.init BFSConverter.mkNew es).mPaths hCK hKI
        MAX_CUR_NUMBER fr 1 hkey
      show (⟨(BFSConverter.walk
          (BFSConverter.init BFSConverter.mkNew es).mRates t
          (BFSConverter.init BFSConverter.mkNew es).mPaths fr 1
          MAX_CUR_NUMBER).2,
        (BFSConverter.init BFSConverter.mkNew es).mRates⟩ : BFSConverter) =
        BFSConverter.init BFSConverter.mkNew es
      rw [hwalk2]

/-- Witness for `C9_convert_no_mutation` at a concrete instance. -/
theorem C9_convert_no_mutation_witness :
    (∀ e ∈ ([⟨0, 1, 2⟩] : List ConvertRate),
        e.«from» < MAX_CUR_NUMBER ∧ e.«to» < MAX_CUR_NUMBER) ∧
    (BFSConverter.convert (BFSConverter.init BFSConverter.mkNew [⟨0, 1, 2⟩])
        7 0 1).2 = BFSConverter.init BFSConverter.mkNew [⟨0, 1, 2⟩] :=
  ⟨by decide, C9_convert_no_mutation [⟨0, 1, 2⟩] (by decide) 7 0 1⟩

theorem isMinHops_exists {es : List ConvertRate} {u v : ℕ}
    (h : Reach es u v) : ∃ l, IsMinHops es u v l := by
  obtain ⟨n, hp⟩ := h
  have hdec : DecidablePred (fun m => PathN es u v m) :=
    fun m => Classical.propDecidable _
  refine ⟨Nat.find (⟨n, hp⟩ : ∃ m, PathN es u v m), ?_, ?_⟩
  · exact Nat.find_spec (⟨n, hp⟩ : ∃ m, PathN es u v m)
  · intro m hm
    exact Nat.find_le hm

theorem isMinHops_unique {es : List ConvertRate} {u v : ℕ} {l l' : ℕ}
    (h : IsMinHops es u v l) (h' : IsMinHops es u v l') : l = l' :=
  Nat.le_antisymm (h.2 l' h'.1) (h'.2 l h.1)

theorem isMinHops_self (es : List ConvertRate) (u : ℕ) :
    IsMinHops es u u 0 :=
  ⟨PathN.refl u, fun m _ => Nat.zero_le m⟩

theorem isMinHops_pos {es : List ConvertRate} {u v : ℕ} {l : ℕ}
    (h : IsMinHops es u v l) (hne : v ≠ u) : 1 ≤ l := by
  rcases Nat.eq_zero_or_pos l with rfl | hp
  · cases h.1
    exact absurd rfl hne
  · exact hp

theorem isMinHops_le_of_path {es : List ConvertRate} {u v : ℕ} {l n : ℕ}
    (h : IsMinHops es u v l) (hp : PathN es u v n) : l ≤ n :=
  h.2 n hp

theorem bfsScan_noop (fr start : ℕ) :
    ∀ (cells : Row) (st : (ℕ → Row) × (ℕ → ℕ) × List NextCur),
    (∀ p ∈ cells, st.2.1 p.2.nextCur = fr) →
    bfsScan fr start cells st = st := by
  intro cells
  induction cells with
  | nil =>
    intro st h
    rfl
  | cons c rest ih =>
    intro st h
    show bfsScan fr start rest (bfsScanStep fr start st c) = st
    rw [bfsScanStep_neg fr start st c
      (fun hne => hne (h c (List.mem_cons_self c rest)))]
    exact ih st (fun p hp => h p (List.mem_cons_of_mem c hp))

theorem bfsScan_queue_mem (fr start : ℕ) :
    ∀ (cells : Row) (st : (ℕ → Row) × (ℕ → ℕ) × List NextCur)
      (q : NextCur), q ∈ (bfsScan fr start cells st).2.2 →
      q ∈ st.2.2 ∨ (∃ p ∈ cells, q = (p.2.nextCur, start) ∧
        st.2.1 p.2.nextCur ≠ fr) := by
  intro cells
  induction cells with
  | nil =>
    intro st q hq
    exact Or.inl hq
  | cons c rest ih =>
    intro st q hq
    rcases ih (bfsScanStep fr start st c) q hq with hq2 | ⟨p, hp, hqp, hfresh⟩
    · by_cases hc : st.2.1 c.2.nextCur ≠ fr
      · rw [bfsScanStep_pos fr start st c hc] at hq2
        have hq3 : q ∈ st.2.2 ++ [(c.2.nextCur, start)] := hq2
        rcases List.mem_append.mp hq3 with h | h
        · exact Or.inl h
        · exact Or.inr ⟨c, List.mem_cons_self c rest,
            List.mem_singleton.mp h, hc⟩
      · rw [bfsScanStep_neg fr start st c hc] at hq2
        exact Or.inl hq2
    · refine Or.inr ⟨p, List.mem_cons_of_mem c hp, hqp, ?_⟩
      intro hmark
      exact hfresh (bfsScanStep_visited_mono fr start st c _ hmark)

theorem bfsScan_rowfr_mem (fr start : ℕ) :
    ∀ (cells : Row) (st : (ℕ → Row) × (ℕ → ℕ) × List NextCur)
      (p : ℕ × Cell), p ∈ (bfsScan fr start cells st).1 fr →
      p ∈ st.1 fr ∨ (∃ cp ∈ cells,
        p = (cp.2.nextCur, ⟨Cell.norate, start⟩) ∧
        st.2.1 cp.2.nextCur ≠ fr) := by
  intro cells
  induction cells with
  | nil =>
    intro st p hp
    exact Or.inl hp
  | cons c rest ih =>
    intro st p hp
    rcases ih (bfsScanStep fr start st c) p hp with hp2 | ⟨cp, hcp, hpc, hfr⟩
    · by_cases hc : st.2.1 c.2.nextCur ≠ fr
      · rw [bfsScanStep_pos fr start st c hc] at hp2
        have hp3 : p ∈ upd1 st.1 fr (Row.store (st.1 fr) c.2.nextCur
            ⟨Cell.norate, start⟩) fr := hp2
        rw [upd1_at] at hp3
        rcases Row.store_mem hp3 with rfl | hp4
        · exact Or.inr ⟨c, List.mem_cons_self c rest, rfl, hc⟩
        · exact Or.inl hp4
      · rw [bfsScanStep_neg fr start st c hc] at hp2
        exact Or.inl hp2
    · refine Or.inr ⟨cp, List.mem_cons_of_mem c hcp, hpc, ?_⟩
      intro hmark
      exact hfr (bfsScanStep_visited_mono fr start st c _ hmark)

theorem lc_shift (es : List ConvertRate) (fr d : ℕ) (P : ℕ → Row)
    (V : ℕ → ℕ) (Q : List NextCur)
    (hInv : LoopInv es fr P V Q)
    (hLC : ∀ x l, IsMinHops es fr x l → l ≤ d → V x = fr)
    (hNBRS : ∀ t, adjE es fr t → V t = fr)
    (hQlvl : ∀ q ∈ Q, q.1 = fr ∨ IsMinHops es fr q.1 (d + 1)) :
    ∀ x l, IsMinHops es fr x l → l ≤ d + 1 → V x = fr := by
  obtain ⟨A1, A2, A3, A4, A5, A6, A7, A8⟩ := hInv
  intro x l hx hl
  by_cases hld : l ≤ d
  · exact hLC x l hx hld
  have hld1 : l = d + 1 := by omega
  subst hld1
  obtain ⟨w, pw, hadj⟩ := pathN_last hx.1
  obtain ⟨lw, hlw⟩ := isMinHops_exists ⟨d, pw⟩
  have hlwd : lw ≤ d := isMinHops_le_of_path hlw pw
  have hwm : V w = fr := hLC w lw hlw hlwd
  by_cases hwf : w = fr
  · subst hwf
    exact hNBRS x hadj
  · rcases A8 w hwm hwf with ⟨q, hq, hq1⟩ | hclosed
    · rcases hQlvl q hq with hqf | hqlvl
      · rw [hq1] at hqf
        exact absurd hqf hwf
      · rw [hq1] at hqlvl
        have := isMinHops_unique hlw hqlvl
        omega
    · obtain ⟨c, hc, hcn⟩ := dirNext_adj A4 hadj
      have hres := hclosed (x, c) (lookup_mem hc)
      rw [hcn] at hres
      exact hres

theorem bfsLoop_lvl (es : List ConvertRate) (fr : ℕ) :
    ∀ (fuel : ℕ) (st : (ℕ → Row) × (ℕ → ℕ)) (Q : List NextCur),
    LoopInv es fr st.1 st.2 Q →
    LoopLvl es fr st.1 st.2 Q →
    Q.length + (MAX_CUR_NUMBER - markedCard st.2 fr) ≤ fuel →
    (∀ s p, p ∈ (bfsLoop fr st Q fuel).1 s → adjE es s p.2.nextCur) ∧
    (∀ p ∈ (bfsLoop fr st Q fuel).1 fr, p.1 = fr ∨
      ∃ l, IsMinHops es fr p.1 l ∧ adjE es fr p.2.nextCur ∧
        PathN es p.2.nextCur p.1 (l - 1)) := by
  intro fuel
  induction fuel with
  | zero =>
    intro st Q hInv hLvl hfuel
    cases Q with
    | nil =>
      obtain ⟨d, Q1, Q2, hsp, hZ1, hZ2, hLC, hNB, hHM, hDH, hRC⟩ := hLvl
      exact ⟨hDH, hRC⟩
    | cons nx rest =>
      exfalso
      simp only [List.length_cons] at hfuel
      have := markedCard_le st.2 fr
      omega
  | succ n ih =>
    intro st Q hInv hLvl hfuel
    cases Q with
    | nil =>
      obtain ⟨d, Q1, Q2, hsp, hZ1, hZ2, hLC, hNB, hHM, hDH, hRC⟩ := hLvl
      exact ⟨hDH, hRC⟩
    | cons nx rest =>
      have hInvKeep := hInv
      obtain ⟨A1, A2, A3, A4, A5, A6, A7, A8⟩ := hInv
      obtain ⟨hnx1, hnx2, hnxk, hnx1lt, hnx2lt⟩ :=
        A7 nx (List.mem_cons_self nx rest)
      obtain ⟨d0, Q1, Q2, hsp, hZ1, hZ2, hLC0, hNB0, hHM0, hDH0, hRC0⟩ :=
        hLvl
      obtain ⟨d, R1, R2, hEntry, hsp2, hZ1', hZ2', hLC, hNB, hHM, hDH, hRC⟩ :
          ∃ d R1 R2, EntryAt es fr d nx ∧ rest = R1 ++ R2 ∧
            (∀ q ∈ R1, EntryAt es fr d q) ∧
            (∀ q ∈ R2, EntryAt es fr (d + 1) q) ∧
            (∀ x l, IsMinHops es fr x l → l ≤ d → st.2 x = fr) ∧
            (∀ t, adjE es fr t → st.2 t = fr) ∧
            (∀ p ∈ st.1 fr, st.2 p.2.nextCur = fr) ∧
            (∀ s p, p ∈ st.1 s → adjE es s p.2.nextCur) ∧
            (∀ p ∈ st.1 fr, p.1 = fr ∨ ∃ l, IsMinHops es fr p.1 l ∧
              adjE es fr p.2.nextCur ∧ PathN es p.2.nextCur p.1 (l - 1)) := by
        cases Q1 with
        | nil =>
          have hQ2eq : Q2 = nx :: rest := by simpa using hsp.symm
          refine ⟨d0 + 1, rest, [], ?_, by simp, ?_, ?_, ?_,
            hNB0, hHM0, hDH0, hRC0⟩
          · exact hZ2 nx (by rw [hQ2eq]; exact List.mem_cons_self nx rest)
          · intro q hq
            exact hZ2 q (by rw [hQ2eq]; exact List.mem_cons_of_mem nx hq)
          · intro q hq
            exact absurd hq (List.not_mem_nil q)
          · refine lc_shift es fr d0 st.1 st.2 (nx :: rest) hInvKeep
              hLC0 hNB0 ?_
            intro q hq
            rcases hZ2 q (by rw [hQ2eq]; exact hq) with h | h
            · exact Or.inl h
            · exact Or.inr h.1
        | cons c t =>
          rw [List.cons_append] at hsp
          injection hsp with hh1 hh2
          refine ⟨d0, t, Q2, ?_, hh2, ?_, hZ2, hLC0, hNB0, hHM0, hDH0, hRC0⟩
          · rw [hh1]
            exact hZ1 c (List.mem_cons_self c t)
          · intro q hq
            exact hZ1 q (List.mem_cons_of_mem c hq)
      have hvmono : ∀ x, st.2 x = fr → upd1 st.2 nx.1 fr x = fr := by
        intro x hx
        by_cases hxn : x = nx.1
        · subst hxn
          exact upd1_at _ _ _
        · rw [upd1_ne _ _ _ hxn]
          exact hx
      by_cases hinert : nx.1 = fr
      · -- inert self entry: the scan discovers nothing
        have hnoop : bfsScan fr nx.2 (st.1 nx.1)
            (st.1, upd1 st.2 nx.1 fr, []) = (st.1, upd1 st.2 nx.1 fr, []) := by
          refine bfsScan_noop fr nx.2 (st.1 nx.1) _ ?_
          intro p hp
          show upd1 st.2 nx.1 fr p.2.nextCur = fr
          rw [hinert] at hp
          exact hvmono _ (hHM p hp)
        have hstep : bfsLoop fr st (nx :: rest) (n + 1) =
            bfsLoop fr (st.1, upd1 st.2 nx.1 fr) rest n := by
          simp only [bfsLoop]
          rw [hnoop]
          rw [show ((st.1, upd1 st.2 nx.1 fr,
            ([] : List NextCur)) : (ℕ → Row) × (ℕ → ℕ) × List NextCur).2.2 =
            ([] : List NextCur) from rfl]
          rw [List.append_nil]
        rw [hstep]
        refine ih (st.1, upd1 st.2 nx.1 fr) rest ?_ ?_ ?_
        · refine ⟨A1, A2, A3, A4, ?_, ?_, ?_, ?_⟩
          · intro x hx
            by_cases hxn : x = nx.1
            · subst hxn
              exact Or.inl hinert
            · have hx2 : st.2 x = fr := by
                have hx3 : upd1 st.2 nx.1 fr x = fr := hx
                rw [upd1_ne _ _ _ hxn] at hx3
                exact hx3
              exact A5 x hx2
          · intro p hp
            exact hvmono _ (A6 p hp)
          · intro q hq
            obtain ⟨h1, h2, h3, h4, h5⟩ := A7 q (List.mem_cons_of_mem nx hq)
            exact ⟨hvmono _ h1, hvmono _ h2, h3, h4, h5⟩
          · intro x hx hxf
            by_cases hxn : x = nx.1
            · subst hxn
              exact absurd hinert hxf
            · have hx2 : st.2 x = fr := by
                have hx3 : upd1 st.2 nx.1 fr x = fr := hx
                rw [upd1_ne _ _ _ hxn] at hx3
                exact hx3
              rcases A8 x hx2 hxf with ⟨q, hq, hq1⟩ | hclosed
              · rcases List.mem_cons.mp hq with hqe | hqr
                · exfalso
                  apply hxf
                  rw [← hq1, hqe, hinert]
                · exact Or.inl ⟨q, hqr, hq1⟩
              · refine Or.inr ?_
                intro p hp
                exact hvmono _ (hclosed p hp)
        · refine ⟨d, R1, R2, hsp2, hZ1', hZ2', ?_, ?_, ?_, hDH, hRC⟩
          · intro x l hx hl
            exact hvmono _ (hLC x l hx hl)
          · intro t ht
            exact hvmono _ (hNB t ht)
          · intro p hp
            exact hvmono _ (hHM p hp)
        · have hm1 : markedCard st.2 fr ≤
              markedCard (upd1 st.2 nx.1 fr) fr := markedCard_mono hvmono
          have hm3 := markedCard_le (upd1 st.2 nx.1 fr) fr
          simp only [List.length_cons] at hfuel
          show rest.length +
            (MAX_CUR_NUMBER - markedCard (upd1 st.2 nx.1 fr) fr) ≤ n
          omega
      · -- a genuine level-d entry
        have hGood : GoodStart es fr d nx := hEntry.resolve_left hinert
        obtain ⟨hmin, hadj1, hpath⟩ := hGood
        have hd1 : 1 ≤ d := isMinHops_pos hmin hinert
        have hfrm : st.2 fr = fr :=
          hLC fr 0 (isMinHops_self es fr) (Nat.zero_le d)
        -- the shared first-hop facts for freshly discovered cells
        have hGS : ∀ p ∈ st.1 nx.1,
            upd1 st.2 nx.1 fr p.2.nextCur ≠ fr →
            p.2.nextCur ≠ fr ∧ IsMinHops es fr p.2.nextCur (d + 1) ∧
              PathN es nx.2 p.2.nextCur d := by
          intro p hp hfq
          have hadjx : adjE es nx.1 p.2.nextCur := hDH nx.1 p hp
          have hnm : st.2 p.2.nextCur ≠ fr := by
            intro hc
            exact hfq (hvmono _ hc)
          have hncf : p.2.nextCur ≠ fr := by
            intro hc
            rw [hc] at hnm
            exact hnm hfrm
          have hpath2 : PathN es fr p.2.nextCur (d + 1) :=
            PathN.snoc hmin.1 hadjx
          obtain ⟨lq, hlq⟩ := isMinHops_exists ⟨d + 1, hpath2⟩
          have hle : lq ≤ d + 1 := isMinHops_le_of_path hlq hpath2
          have hgt : ¬ lq ≤ d := by
            intro hc
            exact hnm (hLC _ lq hlq hc)
          have hlq2 : lq = d + 1 := by omega
          subst hlq2
          have hpath3 : PathN es nx.2 p.2.nextCur d := by
            have h4 := PathN.snoc hpath hadjx
            have h5 : d - 1 + 1 = d := by omega
            rw [h5] at h4
            exact h4
          exact ⟨hncf, hlq, hpath3⟩
        have hscan := bfsScan_inv es fr nx.2 (upd1 st.2 nx.1 fr) hnx2lt
          (st.1 nx.1) (st.1, upd1 st.2 nx.1 fr, [])
          (fun p hp => A2 nx.1 p hp)
          (by
            show ScanInv es fr nx.2 (upd1 st.2 nx.1 fr) st.1
              (upd1 st.2 nx.1 fr) []
            refine ⟨A1, A2, A3, A4, ?_, ?_, ?_, ?_, ?_, hnxk, ?_, ?_⟩
            · intro x hx
              by_cases hxn : x = nx.1
              · subst hxn
                exact A5 _ hnx1
              · rw [upd1_ne _ _ _ hxn] at hx
                exact A5 x hx
            · intro p hp
              exact hvmono _ (A6 p hp)
            · intro q hq
              exact absurd hq (List.not_mem_nil q)
            · intro x hx
              exact hx
            · simp
            · exact hvmono _ hnx2
            · intro x hx
              exact Or.inl hx)
        have hsmono : ∀ x, upd1 st.2 nx.1 fr x = fr →
            (bfsScan fr nx.2 (st.1 nx.1)
              (st.1, upd1 st.2 nx.1 fr, [])).2.1 x = fr :=
          fun x hx => bfsScan_visited_mono fr nx.2 (st.1 nx.1) _ x hx
        have hkmono : ∀ x, keyed (st.1 fr) x →
            keyed ((bfsScan fr nx.2 (st.1 nx.1)
              (st.1, upd1 st.2 nx.1 fr, [])).1 fr) x :=
          fun x hx => bfsScan_keyed_mono fr nx.2 (st.1 nx.1) _ x hx
        have hother : ∀ x, x ≠ fr →
            (bfsScan fr nx.2 (st.1 nx.1)
              (st.1, upd1 st.2 nx.1 fr, [])).1 x = st.1 x :=
          fun x hx => bfsScan_paths_other fr nx.2 (st.1 nx.1) _ x hx
        obtain ⟨B1, B2, B3, B4, B5, B6, B7, B8, B9, B11, B12, B13⟩ := hscan
        simp only [bfsLoop]
        have hInv2 : LoopInv es fr
            (bfsScan fr nx.2 (st.1 nx.1) (st.1, upd1 st.2 nx.1 fr, [])).1
            (bfsScan fr nx.2 (st.1 nx.1) (st.1, upd1 st.2 nx.1 fr, [])).2.1
            (rest ++ (bfsScan fr nx.2 (st.1 nx.1)
              (st.1, upd1 st.2 nx.1 fr, [])).2.2) := by
          refine ⟨B1, B2, B3, B4, B5, B6, ?_, ?_⟩
          · intro q hq
            rcases List.mem_append.mp hq with hqr | hqs
            · obtain ⟨hq1, hq2, hq3, hq4, hq5⟩ :=
                A7 q (List.mem_cons_of_mem nx hqr)
              exact ⟨hsmono _ (hvmono _ hq1), hsmono _ (hvmono _ hq2),
                hkmono _ hq3, hq4, hq5⟩
            · obtain ⟨hq1, hq2, hq4⟩ := B7 q hqs
              refine ⟨hq1, ?_, ?_, hq4, ?_⟩
              · rw [hq2]
                exact B12
              · rw [hq2]
                exact B11
              · rw [hq2]
                exact hnx2lt
          · intro x hx hxf
            rcases B13 x hx with hold | ⟨q, hq, hq1⟩
            · by_cases hxn : x = nx.1
              · subst hxn
                refine Or.inr ?_
                intro p hp
                rw [hother _ hxf] at hp
                exact bfsScan_marks fr nx.2 (st.1 nx.1) _ p hp
              · have hx0 : st.2 x = fr := by
                  rw [upd1_ne _ _ _ hxn] at hold
                  exact hold
                rcases A8 x hx0 hxf with ⟨q, hq, hq1⟩ | hclosed
                · rcases List.mem_cons.mp hq with hqe | hqrest
                  · exfalso
                    apply hxn
                    rw [← hq1, hqe]
                  · exact Or.inl ⟨q, List.mem_append.mpr (Or.inl hqrest), hq1⟩
                · refine Or.inr ?_
                  intro p hp
                  rw [hother _ hxf] at hp
                  exact hsmono _ (hvmono _ (hclosed p hp))
            · exact Or.inl ⟨q, List.mem_append.mpr (Or.inr hq), hq1⟩
        have hLvl2 : LoopLvl es fr
            (bfsScan fr nx.2 (st.1 nx.1) (st.1, upd1 st.2 nx.1 fr, [])).1
            (bfsScan fr nx.2 (st.1 nx.1) (st.1, upd1 st.2 nx.1 fr, [])).2.1
            (rest ++ (bfsScan fr nx.2 (st.1 nx.1)
              (st.1, upd1 st.2 nx.1 fr, [])).2.2) := by
          refine ⟨d, R1, R2 ++ (bfsScan fr nx.2 (st.1 nx.1)
            (st.1, upd1 st.2 nx.1 fr, [])).2.2, ?_, hZ1', ?_, ?_, ?_, ?_,
            ?_, ?_⟩
          · rw [hsp2, List.append_assoc]
          · intro q hq
            rcases List.mem_append.mp hq with hq2 | hqs
            · exact hZ2' q hq2
            · rcases bfsScan_queue_mem fr nx.2 (st.1 nx.1) _ q hqs with
                habs | ⟨p, hp, hqp, hfq⟩
              · exact absurd habs (List.not_mem_nil q)
              · obtain ⟨hncf, hlq, hpp⟩ := hGS p hp hfq
                refine Or.inr ⟨?_, ?_, ?_⟩
                · rw [hqp]
                  exact hlq
                · rw [hqp]
                  exact hadj1
                · rw [hqp]
                  show PathN es nx.2 p.2.nextCur (d + 1 - 1)
                  rw [Nat.add_sub_cancel]
                  exact hpp
          · intro x l hx hl
            exact hsmono _ (hvmono _ (hLC x l hx hl))
          · intro t ht
            exact hsmono _ (hvmono _ (hNB t ht))
          · intro p hp
            rcases bfsScan_rowfr_mem fr nx.2 (st.1 nx.1) _ p hp with
              hp2 | ⟨cp, hcp, hpc, hfq⟩
            · exact hsmono _ (hvmono _ (hHM p hp2))
            · rw [hpc]
              show (bfsScan fr nx.2 (st.1 nx.1)
                (st.1, upd1 st.2 nx.1 fr, [])).2.1 nx.2 = fr
              exact hsmono _ (hvmono _ hnx2)
          · intro s p hp
            by_cases hs : s = fr
            · rw [hs] at hp ⊢
              rcases bfsScan_rowfr_mem fr nx.2 (st.1 nx.1) _ p hp with
                hp2 | ⟨cp, hcp, hpc, hfq⟩
              · exact hDH fr p hp2
              · rw [hpc]
                exact hadj1
            · rw [hother _ hs] at hp
              exact hDH s p hp
          · intro p hp
            rcases bfsScan_rowfr_mem fr nx.2 (st.1 nx.1) _ p hp with
              hp2 | ⟨cp, hcp, hpc, hfq⟩
            · exact hRC p hp2
            · obtain ⟨hncf, hlq, hpp⟩ := hGS cp hcp hfq
              refine Or.inr ⟨d + 1, ?_, ?_, ?_⟩
              · rw [hpc]
                exact hlq
              · rw [hpc]
                exact hadj1
              · rw [hpc]
                show PathN es nx.2 cp.2.nextCur (d + 1 - 1)
                rw [Nat.add_sub_cancel]
                exact hpp
        have hfuel2 : (rest ++ (bfsScan fr nx.2 (st.1 nx.1)
              (st.1, upd1 st.2 nx.1 fr, [])).2.2).length +
            (MAX_CUR_NUMBER - markedCard (bfsScan fr nx.2 (st.1 nx.1)
              (st.1, upd1 st.2 nx.1 fr, [])).2.1 fr) ≤ n := by
          have hm1 : markedCard st.2 fr ≤
              markedCard (upd1 st.2 nx.1 fr) fr := markedCard_mono hvmono
          have hm3 := markedCard_le
            (bfsScan fr nx.2 (st.1 nx.1)
              (st.1, upd1 st.2 nx.1 fr, [])).2.1 fr
          rw [List.length_append]
          simp only [List.length_cons] at hfuel
          omega
        exact ih ((bfsScan fr nx.2 (st.1 nx.1)
            (st.1, upd1 st.2 nx.1 fr, [])).1,
          (bfsScan fr nx.2 (st.1 nx.1) (st.1, upd1 st.2 nx.1 fr, [])).2.1)
          (rest ++ (bfsScan fr nx.2 (st.1 nx.1)
            (st.1, upd1 st.2 nx.1 fr, [])).2.2) hInv2 hLvl2 hfuel2

theorem pathN_zero {es : List ConvertRate} {u v : ℕ}
    (h : PathN es u v 0) : u = v := by
  cases h
  rfl

theorem adj_minHops_one {es : List ConvertRate} {fr t : ℕ}
    (hadj : adjE es fr t) (hne : t ≠ fr) : IsMinHops es fr t 1 := by
  refine ⟨PathN.cons hadj (PathN.refl t), ?_⟩
  intro m hm
  cases m with
  | zero => exact absurd (pathN_zero hm).symm hne
  | succ k => omega

theorem bfsDirect_mem_row {pr : (ℕ → Row) × List ℚ} {e : ConvertRate}
    {s : ℕ} {p : ℕ × Cell} (hp : p ∈ (bfsDirect pr e).1 s) :
    p ∈ pr.1 s ∨ (s = e.«from» ∧ p.1 = e.«to») ∨
      (s = e.«to» ∧ p.1 = e.«from») := by
  have hp2 : p ∈ upd1
      (upd1 pr.1 e.«from» (Row.store (pr.1 e.«from») e.«to»
        ⟨toInt32 pr.2.length, e.«to»⟩))
      e.«to» (Row.store ((upd1 pr.1 e.«from»
        (Row.store (pr.1 e.«from») e.«to»
          ⟨toInt32 pr.2.length, e.«to»⟩)) e.«to») e.«from»
        ⟨-toInt32 pr.2.length, e.«from»⟩) s := hp
  rcases upd1_mem hp2 with ⟨hs, hpr⟩ | hpr
  · rcases Row.store_mem hpr with heq | hpr
    · refine Or.inr (Or.inr ⟨hs, ?_⟩)
      rw [heq]
    rcases upd1_mem hpr with ⟨hs2, hpr2⟩ | hpr2
    · rcases Row.store_mem hpr2 with heq | hpr2
      · refine Or.inr (Or.inr ⟨hs, ?_⟩)
        rw [heq, ← hs2]
      · refine Or.inl ?_
        rw [hs, hs2]
        exact hpr2
    · refine Or.inl ?_
      rw [hs]
      exact hpr2
  · rcases upd1_mem hpr with ⟨hs, hpr2⟩ | hpr2
    · rcases Row.store_mem hpr2 with heq | hpr2
      · refine Or.inr (Or.inl ⟨hs, ?_⟩)
        rw [heq]
      · refine Or.inl ?_
        rw [hs]
        exact hpr2
    · exact Or.inl hpr2

theorem direct_adjKeys (es : List ConvertRate) :
    ∀ s p, p ∈ (es.foldl bfsDirect ((fun _ => []), ([0] : List ℚ))).1 s →
      adjE es s p.1 := by
  refine foldl_invariant (fun pr => ∀ s p, p ∈ pr.1 s → adjE es s p.1)
    bfsDirect es _ ?_ ?_
  · intro s p hp
    exact absurd hp (List.not_mem_nil p)
  · intro pr e hpr he s p hp
    rcases bfsDirect_mem_row hp with h | ⟨hs, hp1⟩ | ⟨hs, hp1⟩
    · exact hpr s p h
    · exact ⟨e, he, Or.inl ⟨hs.symm, hp1.symm⟩⟩
    · exact ⟨e, he, Or.inr ⟨hp1.symm, hs.symm⟩⟩


theorem bfsSource_lvl (es : List ConvertRate) (P : ℕ → Row) (V : ℕ → ℕ)
    (fr : ℕ)
    (h1 : KeysBound P) (h2 : NextBound P) (h3 : CellsKeyed P)
    (h4 : DirNext es P) (hfresh : ∀ x, V x ≠ fr)
    (hDH : ∀ s p, p ∈ P s → adjE es s p.2.nextCur)
    (hAK : ∀ p ∈ P fr, adjE es fr p.1)
    (hSNfr : ∀ p ∈ P fr, p.2.nextCur = p.1) :
    (∀ s p, p ∈ (bfsSource P V fr).1 s → adjE es s p.2.nextCur) ∧
    (∀ p ∈ (bfsSource P V fr).1 fr, p.1 = fr ∨
      ∃ l, IsMinHops es fr p.1 l ∧ adjE es fr p.2.nextCur ∧
        PathN es p.2.nextCur p.1 (l - 1)) := by
  unfold bfsSource
  have hV2fr : (List.foldl (fun v (p : ℕ × Cell) => upd1 v p.1 fr)
      (upd1 V fr fr) (P fr)) fr = fr :=
    fold_mark_mono fr fr (P fr) _ (upd1_at _ _ _)
  have hchar : ∀ x, (List.foldl (fun v (p : ℕ × Cell) => upd1 v p.1 fr)
      (upd1 V fr fr) (P fr)) x = fr → x = fr ∨ ∃ p ∈ P fr, p.1 = x := by
    intro x hx
    rcases fold_mark_char fr x (P fr) (upd1 V fr fr) hx with h | ⟨p, hp, hpx⟩
    · by_cases hxf : x = fr
      · exact Or.inl hxf
      · rw [upd1_ne _ _ _ hxf] at h
        exact absurd h (hfresh x)
    · exact Or.inr ⟨p, hp, hpx⟩
  have hmark : ∀ t, adjE es fr t →
      (List.foldl (fun v (p : ℕ × Cell) => upd1 v p.1 fr)
        (upd1 V fr fr) (P fr)) t = fr := by
    intro t ht
    obtain ⟨c, hc, _⟩ := dirNext_adj h4 ht
    exact fold_mark_all fr (P fr) _ (t, c) (lookup_mem hc)
  have hInv : LoopInv es fr P
      (List.foldl (fun v (p : ℕ × Cell) => upd1 v p.1 fr)
        (upd1 V fr fr) (P fr))
      (List.map (fun (p : ℕ × Cell) => (p.1, p.1)) (P fr)) := by
    refine ⟨h1, h2, h3, h4, ?_, ?_, ?_, ?_⟩
    · intro x hx
      rcases hchar x hx with h | ⟨p, hp, hpx⟩
      · exact Or.inl h
      · refine Or.inr ?_
        rw [← hpx]
        exact keyed_of_mem hp
    · intro p hp
      exact fold_mark_all fr (P fr) _ p hp
    · intro q hq
      rcases List.mem_map.mp hq with ⟨p, hp, hmap⟩
      rw [← hmap]
      exact ⟨fold_mark_all fr (P fr) _ p hp, fold_mark_all fr (P fr) _ p hp,
        keyed_of_mem hp, h1 fr p hp, h1 fr p hp⟩
    · intro x hx hxf
      rcases hchar x hx with h | ⟨p, hp, hpx⟩
      · exact absurd h hxf
      · exact Or.inl ⟨(p.1, p.1), List.mem_map.mpr ⟨p, hp, rfl⟩, hpx⟩
  have hLvl : LoopLvl es fr P
      (List.foldl (fun v (p : ℕ × Cell) => upd1 v p.1 fr)
        (upd1 V fr fr) (P fr))
      (List.map (fun (p : ℕ × Cell) => (p.1, p.1)) (P fr)) := by
    refine ⟨1, List.map (fun (p : ℕ × Cell) => (p.1, p.1)) (P fr), [],
      (List.append_nil _).symm, ?_, ?_, ?_, hmark, ?_, hDH, ?_⟩
    · intro q hq
      rcases List.mem_map.mp hq with ⟨p, hp, hmap⟩
      rw [← hmap]
      unfold EntryAt GoodStart
      by_cases hpf : p.1 = fr
      · exact Or.inl hpf
      · refine Or.inr ⟨adj_minHops_one (hAK p hp) hpf, hAK p hp, ?_⟩
        show PathN es p.1 p.1 0
        exact PathN.refl p.1
    · intro q hq
      exact absurd hq (List.not_mem_nil q)
    · intro x l hx hl
      cases l with
      | zero =>
        have hx0 : fr = x := pathN_zero hx.1
        rw [← hx0]
        exact hV2fr
      | succ k =>
        have hk : k = 0 := by omega
        subst hk
        obtain ⟨w, pw, hadj⟩ := pathN_last hx.1
        have hw : fr = w := pathN_zero pw
        rw [← hw] at hadj
        exact hmark x hadj
    · intro p hp
      rw [hSNfr p hp]
      exact fold_mark_all fr (P fr) _ p hp
    · intro p hp
      by_cases hpf : p.1 = fr
      · exact Or.inl hpf
      · refine Or.inr ⟨1, adj_minHops_one (hAK p hp) hpf, ?_, ?_⟩
        · rw [hSNfr p hp]
          exact hAK p hp
        · show PathN es p.2.nextCur p.1 0
          rw [hSNfr p hp]
          exact PathN.refl p.1
  exact bfsLoop_lvl es fr ((P fr).length + MAX_CUR_NUMBER)
    (P, List.foldl (fun v (p : ℕ × Cell) => upd1 v p.1 fr)
      (upd1 V fr fr) (P fr))
    (List.map (fun (p : ℕ × Cell) => (p.1, p.1)) (P fr)) hInv hLvl
    (by
      rw [List.length_map]
      omega)

theorem init_foldLvl (es : List ConvertRate)
    (hlt : ∀ e ∈ es, e.«from» < MAX_CUR_NUMBER ∧ e.«to» < MAX_CUR_NUMBER) :
    FoldLvl es MAX_CUR_NUMBER
      (natFold (fun fr (st : (ℕ → Row) × (ℕ → ℕ)) => bfsSource st.1 st.2 fr)
        MAX_CUR_NUMBER
        ((es.foldl bfsDirect ((fun _ => []), ([0] : List ℚ))).1,
         fun _ => MAX_CUR_NUMBER)) := by
  refine natFold_invariant_idx (FoldLvl es)
    (fun fr (st : (ℕ → Row) × (ℕ → ℕ)) => bfsSource st.1 st.2 fr)
    MAX_CUR_NUMBER _ ?_ ?_
  · obtain ⟨hKB, hSN⟩ := direct_bounds es hlt
    have hDK := direct_directKeys es ((fun _ => []), ([0] : List ℚ))
    have hAJ := direct_adjKeys es
    refine ⟨hKB, ?_, ?_, ?_, ?_, ?_, ?_, ?_⟩
    · intro s p hp
      rw [hSN s p hp]
      exact hKB s p hp
    · intro s p hp
      rw [hSN s p hp]
      exact keyed_of_mem hp
    · intro e he
      obtain ⟨hk1, hk2⟩ := hDK e he
      obtain ⟨c1, hc1⟩ := keyed_exists hk1
      obtain ⟨c2, hc2⟩ := keyed_exists hk2
      exact ⟨⟨c1, hc1, hSN _ _ (lookup_mem hc1)⟩,
        ⟨c2, hc2, hSN _ _ (lookup_mem hc2)⟩⟩
    · intro x
      exact Or.inl rfl
    · intro s hs
      rfl
    · intro s p hp
      rw [hSN s p hp]
      exact hAJ s p hp
    · intro s p hp
      by_cases hps : p.1 = s
      · exact Or.inl hps
      · refine Or.inr ⟨1, adj_minHops_one (hAJ s p hp) hps, ?_, ?_⟩
        · rw [hSN s p hp]
          exact hAJ s p hp
        · show PathN es p.2.nextCur p.1 0
          rw [hSN s p hp]
          exact PathN.refl p.1
  · intro i st hi hinv
    obtain ⟨C1, C2, C3, C4, C5, CU, C7d, C8r⟩ := hinv
    have hfresh : ∀ x, st.2 x ≠ i := by
      intro x
      rcases C5 x with h | h
      · omega
      · omega
    have hAK : ∀ p ∈ pathsOf st i, adjE es i p.1 := by
      intro p hp
      rw [CU i (le_refl i)] at hp
      exact direct_adjKeys es i p hp
    have hSNi : ∀ p ∈ pathsOf st i, p.2.nextCur = p.1 := by
      intro p hp
      rw [CU i (le_refl i)] at hp
      exact (direct_bounds es hlt).2 i p hp
    have hdone := bfsSource_done es st.1 st.2 i C1 C2 C3 C4 hfresh
    obtain ⟨⟨D1, D2, D3, D4, D5, D6, D7⟩, Dfr⟩ := hdone
    have hlvl := bfsSource_lvl es st.1 st.2 i C1 C2 C3 C4 hfresh C7d hAK hSNi
    refine ⟨D1, D2, D3, D4, ?_, ?_, hlvl.1, ?_⟩
    · intro x
      rcases bfsSource_writes st.1 st.2 i x with h | h
      · rw [h]
        rcases C5 x with h2 | h2
        · exact Or.inl h2
        · exact Or.inr (by omega)
      · rw [h]
        exact Or.inr (by omega)
    · intro s hs
      have hrow : (bfsSource st.1 st.2 i).1 s = st.1 s :=
        bfsSource_paths_other st.1 st.2 i s (by omega)
      show (bfsSource st.1 st.2 i).1 s = _
      rw [hrow]
      exact CU s (by omega)
    · intro s p hp
      by_cases hsi : s = i
      · subst hsi
        exact hlvl.2 p hp
      · have hrow : (bfsSource st.1 st.2 i).1 s = st.1 s :=
          bfsSource_paths_other st.1 st.2 i s hsi
        have hp2 : p ∈ pathsOf st s := by
          have hp3 : p ∈ (bfsSource st.1 st.2 i).1 s := hp
          rw [hrow] at hp3
          exact hp3
        exact C8r s p hp2

theorem bfsScan_once (fr start : ℕ) (cells : Row)
    (st : (ℕ → Row) × (ℕ → ℕ) × List NextCur)
    (h1 : (st.2.2.map Prod.fst).Nodup)
    (h2 : ∀ q ∈ st.2.2, st.2.1 q.1 = fr) :
    ((bfsScan fr start cells st).2.2.map Prod.fst).Nodup ∧
    (∀ q ∈ (bfsScan fr start cells st).2.2,
      (bfsScan fr start cells st).2.1 q.1 = fr) := by
  unfold bfsScan
  refine foldl_invariant (fun s => ((s.2.2.map Prod.fst).Nodup ∧
    ∀ q ∈ s.2.2, s.2.1 q.1 = fr)) (bfsScanStep fr start) cells st
    ⟨h1, h2⟩ ?_
  intro s p hs _
  by_cases hc : s.2.1 p.2.nextCur ≠ fr
  · rw [bfsScanStep_pos fr start s p hc]
    constructor
    · show ((s.2.2 ++ [(p.2.nextCur, start)]).map Prod.fst).Nodup
      rw [List.map_append, List.nodup_append]
      refine ⟨hs.1, by simp, ?_⟩
      intro a ha ha2
      have ha3 : a = p.2.nextCur := by simpa using ha2
      rcases List.mem_map.mp ha with ⟨q, hq, hq1⟩
      apply hc
      have hm : s.2.1 q.1 = fr := hs.2 q hq
      rw [hq1, ha3] at hm
      exact hm
    · intro q hq
      show upd1 s.2.1 p.2.nextCur fr q.1 = fr
      rcases List.mem_append.mp hq with hold | hnew
      · by_cases hqn : q.1 = p.2.nextCur
        · rw [hqn]
          exact upd1_at _ _ _
        · rw [upd1_ne _ _ _ hqn]
          exact hs.2 q hold
      · have hq2 : q = (p.2.nextCur, start) := by simpa using hnew
        rw [hq2]
        show upd1 s.2.1 p.2.nextCur fr p.2.nextCur = fr
        exact upd1_at _ _ _
  · rw [bfsScanStep_neg fr start s p hc]
    exact hs

theorem bfsLoop_once_step (fr : ℕ) (st : (ℕ → Row) × (ℕ → ℕ))
    (nx : NextCur) (rest : List NextCur)
    (h : LoopOnce fr st.2 (nx :: rest)) :
    LoopOnce fr
      (bfsScan fr nx.2 (st.1 nx.1) (st.1, upd1 st.2 nx.1 fr, [])).2.1
      (rest ++ (bfsScan fr nx.2 (st.1 nx.1)
        (st.1, upd1 st.2 nx.1 fr, [])).2.2) := by
  obtain ⟨hnd, hmk⟩ := h
  have hndrest : (rest.map Prod.fst).Nodup := by
    rw [List.map_cons] at hnd
    exact (List.nodup_cons.mp hnd).2
  have hvmono : ∀ x, st.2 x = fr → upd1 st.2 nx.1 fr x = fr := by
    intro x hx
    by_cases hxn : x = nx.1
    · rw [hxn]
      exact upd1_at _ _ _
    · rw [upd1_ne _ _ _ hxn]
      exact hx
  have hso := bfsScan_once fr nx.2 (st.1 nx.1)
    (st.1, upd1 st.2 nx.1 fr, [])
    (by
      show (([] : List NextCur).map Prod.fst).Nodup
      simp)
    (by
      intro q hq
      exact absurd hq (List.not_mem_nil q))
  constructor
  · rw [List.map_append, List.nodup_append]
    refine ⟨hndrest, hso.1, ?_⟩
    intro a ha ha2
    rcases List.mem_map.mp ha with ⟨q, hq, hq1⟩
    rcases List.mem_map.mp ha2 with ⟨q2, hq2, hq21⟩
    rcases bfsScan_queue_mem fr nx.2 (st.1 nx.1) _ q2 hq2 with
      habs | ⟨p, hp, hqp, hfq⟩
    · exact absurd habs (List.not_mem_nil q2)
    · apply hfq
      have hm : upd1 st.2 nx.1 fr q.1 = fr :=
        hvmono _ (hmk q (List.mem_cons_of_mem nx hq))
      rw [hq1, ← hq21, hqp] at hm
      exact hm
  · intro q hq
    rcases List.mem_append.mp hq with hold | hnew
    · exact bfsScan_visited_mono fr nx.2 (st.1 nx.1) _ q.1
        (hvmono _ (hmk q (List.mem_cons_of_mem nx hold)))
    · exact hso.2 q hnew

/-- **C8**: each per-source breadth-first run of `BFSConverter::init`
traverses the graph along direct edges only — although the scanned rows
may contain composite cells of earlier source runs, every such cell's
recorded hop is itself a direct neighbour of the scanned node — enqueues
each destination at most once per run (the visited check) and each node
entering the queue is marked at once so the queue never repeats a node,
processes the queue in FIFO order (head dequeued, discoveries appended),
and records every composite cell with `rateId = Cell.norate` together
with a first-hop currency lying on a minimum-hop path from the source. -/
theorem C8_bfs_traversal (es : List ConvertRate)
    (hlt : ∀ e ∈ es, e.«from» < MAX_CUR_NUMBER ∧ e.«to» < MAX_CUR_NUMBER) :
    C8Conclusion es := by
  have hfl := init_foldLvl es hlt
  obtain ⟨F1, F2, F3, F4, F5, F6, F7, F8⟩ := hfl
  have hinit : BFSConverter.init BFSConverter.mkNew es =
      ⟨pathsOf (natFold (fun fr (st : (ℕ → Row) × (ℕ → ℕ)) =>
          bfsSource st.1 st.2 fr) MAX_CUR_NUMBER
        ((es.foldl bfsDirect ((fun _ => []), ([0] : List ℚ))).1,
         fun _ => MAX_CUR_NUMBER)),
       (es.foldl bfsDirect ((fun _ => []), ([0] : List ℚ))).2⟩ := rfl
  have hMP : (BFSConverter.init BFSConverter.mkNew es).mPaths =
      pathsOf (natFold
        (fun fr (st : (ℕ → Row) × (ℕ → ℕ)) => bfsSource st.1 st.2 fr)
        MAX_CUR_NUMBER
        ((es.foldl bfsDirect ((fun _ => []), ([0] : List ℚ))).1,
         fun _ => MAX_CUR_NUMBER)) := by
    rw [hinit]
  refine ⟨?_, ?_, ?_, ?_, ?_, ?_⟩
  · intro fr st nx rest fuel
    rfl
  · intro fr start st p h
    exact bfsScanStep_pos fr start st p h
  · intro fr start st p h
    exact bfsScanStep_neg fr start st p (fun hcon => hcon h)
  · intro fr st nx rest h
    exact bfsLoop_once_step fr st nx rest h
  · intro s p hp
    rw [hMP] at hp
    exact F7 s p hp
  · intro s p hp
    rw [hMP] at hp
    exact F8 s p hp

/-- Witness for `C8_bfs_traversal`: the one-edge set is in range. -/
theorem C8_bfs_traversal_witness :
    (∀ e ∈ oneEdge, e.«from» < MAX_CUR_NUMBER ∧ e.«to» < MAX_CUR_NUMBER) ∧
    C8Conclusion oneEdge :=
  ⟨by decide, C8_bfs_traversal oneEdge (by decide)⟩

/-- **C3** (amended): the reachable-pair half of the claim fails — the two
implementations break minimum-hop ties differently (see the
counterexample) — but the unreachable half holds: on every pair not
connected by the input edges both implementations return the sentinel
`0`. -/
theorem C3_unreachable_agreement (es : List ConvertRate) (v : ℚ)
    (a b : ℕ) (h : ¬ Reach es a b) :
    Converter.convert (Converter.init Converter.mkNew es) v a b = some 0 ∧
    (BFSConverter.convert (BFSConverter.init BFSConverter.mkNew es)
      v a b).1 = some 0 := by
  have hds := init_tblSound es (Converter.mkNew.rates ++ [0])
  have hsen : ((Converter.init Converter.mkNew es).rate_table a b).nextCur =
      MAX_CUR_NUMBER := by
    by_contra hne
    exact h (hds.2 a b hne)
  have hbs := init_rowsSound es
  have hinit : BFSConverter.init BFSConverter.mkNew es =
      ⟨pathsOf (natFold (fun fr (st : (ℕ → Row) × (ℕ → ℕ)) =>
          bfsSource st.1 st.2 fr) MAX_CUR_NUMBER
        ((es.foldl bfsDirect ((fun _ => []), ([0] : List ℚ))).1,
         fun _ => MAX_CUR_NUMBER)),
       (es.foldl bfsDirect ((fun _ => []), ([0] : List ℚ))).2⟩ := rfl
  have hcnt0 : Row.countKey (pathsOf (natFold
      (fun fr (st : (ℕ → Row) × (ℕ → ℕ)) => bfsSource st.1 st.2 fr)
      MAX_CUR_NUMBER
      ((es.foldl bfsDirect ((fun _ => []), ([0] : List ℚ))).1,
       fun _ => MAX_CUR_NUMBER)) a) b = 0 := by
    apply countKey_eq_zero
    intro p hp hpt
    exact h (hpt ▸ (hbs a p hp).1)
  have hMP2 : (BFSConverter.init BFSConverter.mkNew es).mPaths =
      pathsOf (natFold
        (fun fr (st : (ℕ → Row) × (ℕ → ℕ)) => bfsSource st.1 st.2 fr)
        MAX_CUR_NUMBER
        ((es.foldl bfsDirect ((fun _ => []), ([0] : List ℚ))).1,
         fun _ => MAX_CUR_NUMBER)) := by
    rw [hinit]
  have hcnt : Row.countKey
      ((BFSConverter.init BFSConverter.mkNew es).mPaths a) b = 0 := by
    rw [hMP2]
    exact hcnt0
  constructor
  · unfold Converter.convert
    rw [if_pos hsen]
  · unfold BFSConverter.convert
    rw [if_pos hcnt]

/-- Witness for `C3_unreachable_agreement`: the empty edge set leaves `5`
and `7` disconnected. -/
theorem C3_unreachable_agreement_witness :
    (¬ Reach ([] : List ConvertRate) 5 7) ∧
    (Converter.convert (Converter.init Converter.mkNew []) 9 5 7 =
        some 0 ∧
      (BFSConverter.convert (BFSConverter.init BFSConverter.mkNew [])
        9 5 7).1 = some 0) := by
  have hNR : ¬ Reach ([] : List ConvertRate) 5 7 := by
    rintro ⟨n, hp⟩
    cases hp with
    | cons hadj hrest =>
      obtain ⟨e, he, -⟩ := hadj
      exact absurd he (List.not_mem_nil e)
  exact ⟨hNR, C3_unreachable_agreement [] 9 5 7 hNR⟩

theorem pathN_concat {es : List ConvertRate} {u v w : ℕ} {m n : ℕ}
    (h1 : PathN es u v m) : PathN es v w n → PathN es u w (m + n) := by
  induction h1 with
  | refl u =>
    intro h2
    simpa using h2
  | cons hadj hp ih =>
    intro h2
    have h3 := PathN.cons hadj (ih h2)
    have h4 : ∀ k l : ℕ, k + l + 1 = k + 1 + l := by omega
    rw [h4] at h3
    exact h3

theorem pathN_split {es : List ConvertRate} {u v : ℕ} {n : ℕ}
    (h : PathN es u v n) : ∀ k, k ≤ n →
    ∃ x, PathN es u x k ∧ PathN es x v (n - k) := by
  induction h with
  | refl u =>
    intro k hk
    have hk0 : k = 0 := Nat.le_zero.mp hk
    subst hk0
    exact ⟨u, PathN.refl u, PathN.refl u⟩
  | cons hadj hp ih =>
    intro k hk
    cases k with
    | zero =>
      exact ⟨_, PathN.refl _, PathN.cons hadj hp⟩
    | succ k' =>
      obtain ⟨x, p1, p2⟩ := ih k' (by omega)
      refine ⟨x, PathN.cons hadj p1, ?_⟩
      have he : ∀ m k' : ℕ, m + 1 - (k' + 1) = m - k' := by omega
      rw [he]
      exact p2

theorem adjE_lt {es : List ConvertRate}
    (hlt : ∀ e ∈ es, e.«from» < MAX_CUR_NUMBER ∧ e.«to» < MAX_CUR_NUMBER)
    {u v : ℕ} (h : adjE es u v) : u < MAX_CUR_NUMBER ∧ v < MAX_CUR_NUMBER := by
  obtain ⟨e, he, hor⟩ := h
  obtain ⟨h1, h2⟩ := hlt e he
  rcases hor with ⟨hf, ht⟩ | ⟨hf, ht⟩
  · rw [← hf, ← ht]
    exact ⟨h1, h2⟩
  · rw [← hf, ← ht]
    exact ⟨h2, h1⟩

theorem pathN_lt_MAX {es : List ConvertRate}
    (hlt : ∀ e ∈ es, e.«from» < MAX_CUR_NUMBER ∧ e.«to» < MAX_CUR_NUMBER)
    {a b : ℕ} (ha : a < MAX_CUR_NUMBER) :
    ∀ n, PathN es a b n → ∃ m, m < MAX_CUR_NUMBER ∧ PathN es a b m := by
  intro n
  induction n using Nat.strong_induction_on with
  | _ n ih =>
    intro hp
    by_cases hn : n < MAX_CUR_NUMBER
    · exact ⟨n, hn, hp⟩
    · have hsplit : ∀ k, k ≤ n →
          ∃ x, PathN es a x k ∧ PathN es x b (n - k) := pathN_split hp
      have hf : ∀ k (hk : k ≤ n),
          PathN es a (hsplit k hk).choose k ∧
          PathN es (hsplit k hk).choose b (n - k) :=
        fun k hk => (hsplit k hk).choose_spec
      have hbound : ∀ k (hk : k ≤ n), (hsplit k hk).choose < MAX_CUR_NUMBER := by
        intro k hk
        cases k with
        | zero =>
          have h0 := (hf 0 hk).1
          have : a = (hsplit 0 hk).choose := pathN_zero h0
          rw [← this]
          exact ha
        | succ k' =>
          obtain ⟨w, _, hadj⟩ := pathN_last (hf (k' + 1) hk).1
          exact (adjE_lt hlt hadj).2
      have hcard : (Finset.range MAX_CUR_NUMBER).card <
          (Finset.range (MAX_CUR_NUMBER + 1)).card := by
        simp only [Finset.card_range]
        omega
      have hmaps : ∀ k ∈ Finset.range (MAX_CUR_NUMBER + 1),
          (if hk : k ≤ n then (hsplit k hk).choose else 0) ∈
            Finset.range MAX_CUR_NUMBER := by
        intro k hk
        have hkn : k ≤ n := by
          simp only [Finset.mem_range] at hk
          omega
        rw [dif_pos hkn]
        simp only [Finset.mem_range]
        exact hbound k hkn
      obtain ⟨x, hx, y, hy, hxy, heq⟩ :=
        Finset.exists_ne_map_eq_of_card_lt_of_maps_to hcard hmaps
      simp only [Finset.mem_range] at hx hy
      have hxn : x ≤ n := by omega
      have hyn : y ≤ n := by omega
      rw [dif_pos hxn, dif_pos hyn] at heq
      rcases Nat.lt_or_ge x y with hlt2 | hge
      · have hcomb := pathN_concat (hf x hxn).1 (heq ▸ (hf y hyn).2)
        obtain ⟨m, hm, pm⟩ := ih (x + (n - y)) (by omega) hcomb
        exact ⟨m, hm, pm⟩
      · have hlt3 : y < x := by omega
        have hcomb := pathN_concat (hf y hyn).1 (heq ▸ (hf x hxn).2)
        obtain ⟨m, hm, pm⟩ := ih (y + (n - x)) (by omega) hcomb
        exact ⟨m, hm, pm⟩

theorem minHops_lt_MAX {es : List ConvertRate}
    (hlt : ∀ e ∈ es, e.«from» < MAX_CUR_NUMBER ∧ e.«to» < MAX_CUR_NUMBER)
    {a b d : ℕ} (ha : a < MAX_CUR_NUMBER) (h : IsMinHops es a b d) :
    d < MAX_CUR_NUMBER := by
  obtain ⟨m, hm, pm⟩ := pathN_lt_MAX hlt ha d h.1
  have := h.2 m pm
  omega

theorem reach_lt_MAX {es : List ConvertRate}
    (hlt : ∀ e ∈ es, e.«from» < MAX_CUR_NUMBER ∧ e.«to» < MAX_CUR_NUMBER)
    {i j : ℕ} (h : Reach es i j) (hij : i ≠ j) :
    i < MAX_CUR_NUMBER ∧ j < MAX_CUR_NUMBER := by
  obtain ⟨n, hp⟩ := h
  cases n with
  | zero => exact absurd (pathN_zero hp) hij
  | succ m =>
    have h1 : i < MAX_CUR_NUMBER := by
      cases hp with
      | cons hadj _ => exact (adjE_lt hlt hadj).1
    obtain ⟨w, _, hadj⟩ := pathN_last hp
    exact ⟨h1, (adjE_lt hlt hadj).2⟩

theorem vp_pathN {es : List ConvertRate} :
    ∀ (l : List ℕ) (u : ℕ), IsVertexPath es u l →
      PathN es u (pathEnd u l) l.length := by
  intro l
  induction l with
  | nil =>
    intro u _
    exact PathN.refl u
  | cons w rest ih =>
    intro u h
    obtain ⟨hadj, hrest⟩ := h
    have h2 := PathN.cons hadj (ih w hrest)
    have he : pathEnd u (w :: rest) = pathEnd w rest :=
      List.getLastD_cons u w rest
    rw [he]
    exact h2

theorem pathN_vp {es : List ConvertRate} {u v : ℕ} {n : ℕ}
    (h : PathN es u v n) :
    ∃ l, IsVertexPath es u l ∧ pathEnd u l = v ∧ l.length = n := by
  induction h with
  | refl u => exact ⟨[], trivial, rfl, rfl⟩
  | cons hadj hp ih =>
    rename_i u2 w2 v2 n2
    obtain ⟨l, hl, hend, hlen⟩ := ih
    refine ⟨w2 :: l, ⟨hadj, hl⟩, ?_, by simp [hlen]⟩
    have he : pathEnd u2 (w2 :: l) = pathEnd w2 l :=
      List.getLastD_cons u2 w2 l
    rw [he]
    exact hend

theorem ivp_append {es : List ConvertRate} :
    ∀ (l1 l2 : List ℕ) (u : ℕ), IsVertexPath es u l1 →
      IsVertexPath es (pathEnd u l1) l2 → IsVertexPath es u (l1 ++ l2) := by
  intro l1
  induction l1 with
  | nil =>
    intro l2 u _ h2
    exact h2
  | cons w rest ih =>
    intro l2 u h1 h2
    obtain ⟨hadj, hrest⟩ := h1
    refine ⟨hadj, ih l2 w hrest ?_⟩
    have he : pathEnd u (w :: rest) = pathEnd w rest :=
      List.getLastD_cons u w rest
    rw [← he]
    exact h2

theorem pathEnd_append :
    ∀ (l1 l2 : List ℕ) (u : ℕ),
      pathEnd u (l1 ++ l2) = pathEnd (pathEnd u l1) l2 := by
  intro l1
  induction l1 with
  | nil =>
    intro l2 u
    rfl
  | cons w rest ih =>
    intro l2 u
    show pathEnd u ((w :: rest) ++ l2) = pathEnd (pathEnd u (w :: rest)) l2
    rw [List.cons_append]
    have h1 : pathEnd u (w :: (rest ++ l2)) = pathEnd w (rest ++ l2) :=
      List.getLastD_cons u w (rest ++ l2)
    have h2 : pathEnd u (w :: rest) = pathEnd w rest :=
      List.getLastD_cons u w rest
    rw [h1, h2]
    exact ih l2 w

theorem adjE_mono {es es' : List ConvertRate} {u v : ℕ}
    (hsub : ∀ e ∈ es, e ∈ es') (h : adjE es u v) : adjE es' u v := by
  obtain ⟨e, he, hor⟩ := h
  exact ⟨e, hsub e he, hor⟩

theorem ivp_mono {es es' : List ConvertRate}
    (hsub : ∀ e ∈ es, e ∈ es') :
    ∀ (l : List ℕ) (u : ℕ), IsVertexPath es u l → IsVertexPath es' u l := by
  intro l
  induction l with
  | nil =>
    intro u _
    trivial
  | cons w rest ih =>
    intro u h
    exact ⟨adjE_mono hsub h.1, ih w h.2⟩

theorem pathN_mono {es es' : List ConvertRate}
    (hsub : ∀ e ∈ es, e ∈ es') {u v : ℕ} {n : ℕ}
    (h : PathN es u v n) : PathN es' u v n := by
  induction h with
  | refl u => exact PathN.refl u
  | cons hadj hp ih => exact PathN.cons (adjE_mono hsub hadj) ih

theorem pathN_decompose {es0 : List ConvertRate} {e : ConvertRate}
    {i j : ℕ} {n : ℕ} (h : PathN (es0 ++ [e]) i j n) :
    (∃ m, m ≤ n ∧ PathN es0 i j m) ∨
    (∃ m1 m2, m1 + m2 + 1 ≤ n ∧ PathN es0 i e.«from» m1 ∧
      PathN es0 e.«to» j m2) ∨
    (∃ m1 m2, m1 + m2 + 1 ≤ n ∧ PathN es0 i e.«to» m1 ∧
      PathN es0 e.«from» j m2) := by
  induction h with
  | refl u => exact Or.inl ⟨0, le_refl 0, PathN.refl u⟩
  | cons hadj hp ih =>
    obtain ⟨e', he', hor⟩ := hadj
    rcases List.mem_append.mp he' with hold | hnew
    · -- the first step uses an old edge
      have hadj0 : adjE es0 _ _ := ⟨e', hold, hor⟩
      rcases ih with ⟨m, hm, p⟩ | ⟨m1, m2, hle, p1, p2⟩ |
        ⟨m1, m2, hle, p1, p2⟩
      · exact Or.inl ⟨m + 1, by omega, PathN.cons hadj0 p⟩
      · exact Or.inr (Or.inl ⟨m1 + 1, m2, by omega,
          PathN.cons hadj0 p1, p2⟩)
      · exact Or.inr (Or.inr ⟨m1 + 1, m2, by omega,
          PathN.cons hadj0 p1, p2⟩)
    · -- the first step is the new edge
      have he2 : e' = e := List.mem_singleton.mp hnew
      subst he2
      rcases hor with ⟨hf, ht⟩ | ⟨hf, ht⟩
      · -- forward: i = e.from, the step goes to e.to
        rcases ih with ⟨m, hm, p⟩ | ⟨m1, m2, hle, p1, p2⟩ |
          ⟨m1, m2, hle, p1, p2⟩
        · refine Or.inr (Or.inl ⟨0, m, by omega, ?_, ?_⟩)
          · rw [← hf]
            exact PathN.refl _
          · rw [← ht] at p
            exact p
        · refine Or.inr (Or.inl ⟨0, m2, by omega, ?_, p2⟩)
          rw [← hf]
          exact PathN.refl _
        · refine Or.inl ⟨m2, by omega, ?_⟩
          rw [hf] at p2
          exact p2
      · -- backward: i = e.to, the step goes to e.from
        rcases ih with ⟨m, hm, p⟩ | ⟨m1, m2, hle, p1, p2⟩ |
          ⟨m1, m2, hle, p1, p2⟩
        · refine Or.inr (Or.inr ⟨0, m, by omega, ?_, ?_⟩)
          · rw [← ht]
            exact PathN.refl _
          · rw [← hf] at p
            exact p
        · refine Or.inl ⟨m2, by omega, ?_⟩
          rw [ht] at p2
          exact p2
        · refine Or.inr (Or.inr ⟨0, m2, by omega, ?_, p2⟩)
          rw [← ht]
          exact PathN.refl _

theorem toInt32_of_lt {n : ℕ} (h : n < 2 ^ 31) : toInt32 n = n := by
  unfold toInt32
  rw [Nat.mod_eq_of_lt (by omega), if_pos (by omega)]

theorem dSigned_counter (L : ℕ) (es : List ConvertRate) :
    ∀ (acc : ℤ × ℕ),
      (es.foldl (fun (acc : ℤ × ℕ) e =>
        (if e.«to» = i ∧ e.«from» = j then -toInt32 acc.2
         else if e.«from» = i ∧ e.«to» = j then toInt32 acc.2
         else acc.1, acc.2 + 1)) acc).2 = acc.2 + es.length := by
  induction es with
  | nil =>
    intro acc
    simp
  | cons e rest ih =>
    intro acc
    rw [List.foldl_cons, ih]
    simp only [List.length_cons]
    omega

theorem dSigned_append (L : ℕ) (es0 : List ConvertRate) (e : ConvertRate)
    (i j : ℕ) :
    dSigned L (es0 ++ [e]) i j =
      if e.«to» = i ∧ e.«from» = j then -toInt32 (L + es0.length)
      else if e.«from» = i ∧ e.«to» = j then toInt32 (L + es0.length)
      else dSigned L es0 i j := by
  unfold dSigned
  rw [List.foldl_append]
  rw [List.foldl_cons, List.foldl_nil]
  rw [dSigned_counter L es0 ((0 : ℤ), L)]

theorem lastQuote_append (es0 : List ConvertRate) (e : ConvertRate)
    (a b : ℕ) :
    lastQuote (es0 ++ [e]) a b =
      if e.«from» = b ∧ e.«to» = a then some e.rateFn⁻¹
      else if e.«from» = a ∧ e.«to» = b then some e.rateFn
      else lastQuote es0 a b := by
  unfold lastQuote
  rw [List.foldl_append]
  rw [List.foldl_cons, List.foldl_nil]

theorem stepTotal_dSigned_aux (i j : ℕ) (tot : ℚ) :
    ∀ (es tail : List ConvertRate) (R : List ℚ), 0 < R.length →
      R.length + es.length < 2 ^ 31 → adjE es i j →
      stepTotal (R ++ (es ++ tail).map ConvertRate.rateFn)
          (dSigned R.length es i j) tot =
        tot * (lastQuote es i j).getD 0 := by
  intro es
  induction es using List.reverseRecOn with
  | nil =>
    intro tail R hR hlen hadj
    obtain ⟨e, he, -⟩ := hadj
    exact absurd he (List.not_mem_nil e)
  | append_singleton l e ih =>
    intro tail R hR hlen hadj
    have hK : R.length + l.length < 2 ^ 31 := by
      rw [List.length_append, List.length_singleton] at hlen
      omega
    have hKval : toInt32 (R.length + l.length) =
        ((R.length + l.length : ℕ) : ℤ) := toInt32_of_lt hK
    have hrs : R ++ ((l ++ [e]) ++ tail).map ConvertRate.rateFn =
        (R ++ l.map ConvertRate.rateFn) ++
          ([e.rateFn] ++ tail.map ConvertRate.rateFn) := by
      simp [List.map_append, List.append_assoc]
    have hlen2 : (R ++ l.map ConvertRate.rateFn).length =
        R.length + l.length := by
      simp
    rw [dSigned_append, lastQuote_append]
    by_cases h1 : e.«to» = i ∧ e.«from» = j
    · -- backward registration is the last write
      rw [if_pos h1, if_pos ⟨h1.2, h1.1⟩]
      rw [hKval]
      have hpos : ¬ ((-(((R.length + l.length : ℕ) : ℤ))) > 0) := by omega
      rw [stepTotal_nonpos_id _ _ _ hpos]
      have hval : rateVal (R ++ ((l ++ [e]) ++ tail).map ConvertRate.rateFn)
          (-(-(((R.length + l.length : ℕ) : ℤ)))) = e.rateFn := by
        unfold rateVal
        rw [hrs]
        have htn : (-(-(((R.length + l.length : ℕ) : ℤ)))).toNat =
            R.length + l.length := by omega
        rw [htn]
        have hix : R.length + l.length =
            (R ++ l.map ConvertRate.rateFn).length + 0 := by simp
        rw [hix, getD_append_add]
        rfl
      rw [hval]
      simp only [Option.getD_some]
      by_cases h0 : e.rateFn = 0
      · rw [if_pos h0, h0]
        simp
      · rw [if_neg h0]
        rw [div_eq_mul_inv]
    · by_cases h2 : e.«from» = i ∧ e.«to» = j
      · -- forward registration is the last write
        rw [if_neg h1, if_pos h2, if_neg (fun hc => h1 ⟨hc.2, hc.1⟩),
          if_pos h2]
        rw [hKval]
        have hpos : (((R.length + l.length : ℕ) : ℤ)) > 0 := by omega
        rw [stepTotal_pos_id _ _ _ hpos]
        have hval : rateVal (R ++ ((l ++ [e]) ++ tail).map ConvertRate.rateFn)
            (((R.length + l.length : ℕ) : ℤ)) = e.rateFn := by
          unfold rateVal
          rw [hrs]
          have htn : (((R.length + l.length : ℕ) : ℤ)).toNat =
              R.length + l.length := by omega
          rw [htn]
          have hix : R.length + l.length =
              (R ++ l.map ConvertRate.rateFn).length + 0 := by simp
          rw [hix, getD_append_add]
          rfl
        rw [hval]
        simp only [Option.getD_some]
      · rw [if_neg h1, if_neg h2, if_neg (fun hc => h1 ⟨hc.2, hc.1⟩),
          if_neg h2]
        have hadj2 : adjE l i j := by
          obtain ⟨e2, he2, hor⟩ := hadj
          rcases List.mem_append.mp he2 with hl | hsing
          · exact ⟨e2, hl, hor⟩
          · have : e2 = e := List.mem_singleton.mp hsing
            subst this
            rcases hor with ⟨hf, ht⟩ | ⟨hf, ht⟩
            · exact absurd ⟨hf, ht⟩ h2
            · exact absurd ⟨ht, hf⟩ h1
        have hassoc : (l ++ [e]) ++ tail = l ++ (e :: tail) := by
          rw [List.append_assoc]
          rfl
        rw [hassoc]
        exact ih (e :: tail) R hR hK hadj2

theorem stepTotal_dSigned (i j : ℕ) (tot : ℚ) (es : List ConvertRate)
    (R : List ℚ) (hR : 0 < R.length)
    (hlen : R.length + es.length < 2 ^ 31) (hadj : adjE es i j) :
    stepTotal (R ++ es.map ConvertRate.rateFn) (dSigned R.length es i j) tot =
      tot * (lastQuote es i j).getD 0 := by
  have h := stepTotal_dSigned_aux i j tot es [] R hR hlen hadj
  rw [List.append_nil] at h
  exact h

theorem relaxStep_cases (fr t i j : ℕ) (w : DWork) :
    relaxStep fr t i j w = w ∨
    (w.dist fr i ≠ UNREACHABLE ∧ w.dist t j ≠ UNREACHABLE ∧
      cand fr t i j w < w.dist i j ∧
      relaxStep fr t i j w =
      ⟨upd2 (upd2 w.tbl i j ⟨(w.tbl i j).rateId,
          if i ≠ fr then (w.tbl i fr).nextCur else t⟩) j i
        ⟨((upd2 w.tbl i j ⟨(w.tbl i j).rateId,
            if i ≠ fr then (w.tbl i fr).nextCur else t⟩) j i).rateId,
          if j ≠ t then ((upd2 w.tbl i j ⟨(w.tbl i j).rateId,
            if i ≠ fr then (w.tbl i fr).nextCur else t⟩) j t).nextCur else fr⟩,
       w.rates,
       upd2 (upd2 w.dist i j (cand fr t i j w)) j i (cand fr t i j w)⟩) := by
  by_cases h1 : w.dist fr i = UNREACHABLE
  · exact Or.inl (relaxStep_skip_guard (Or.inl h1))
  by_cases h2 : w.dist t j = UNREACHABLE
  · exact Or.inl (relaxStep_skip_guard (Or.inr h2))
  by_cases h3 : w.dist i j ≤ cand fr t i j w
  · exact Or.inl (relaxStep_skip_ge h3)
  · exact Or.inr ⟨h1, h2, by omega, relaxStep_update h1 h2 (by omega)⟩

theorem relaxStep_rates (fr t i j : ℕ) (w : DWork) :
    (relaxStep fr t i j w).rates = w.rates := by
  rcases relaxStep_cases fr t i j w with h | ⟨-, -, -, h⟩
  · rw [h]
  · rw [h]

theorem relaxStep_rateId (fr t i j : ℕ) (w : DWork) (a b : ℕ) :
    ((relaxStep fr t i j w).tbl a b).rateId = ((w.tbl a b).rateId) := by
  rcases relaxStep_cases fr t i j w with h | ⟨-, -, -, h⟩
  · rw [h]
  · rw [h]
    show ((upd2 (upd2 w.tbl i j _) j i _ : ℕ → ℕ → Cell) a b).rateId = _
    rcases upd2_eq_or (upd2 w.tbl i j ⟨(w.tbl i j).rateId,
        if i ≠ fr then (w.tbl i fr).nextCur else t⟩) j i
      ⟨((upd2 w.tbl i j ⟨(w.tbl i j).rateId,
          if i ≠ fr then (w.tbl i fr).nextCur else t⟩) j i).rateId,
        if j ≠ t then ((upd2 w.tbl i j ⟨(w.tbl i j).rateId,
          if i ≠ fr then (w.tbl i fr).nextCur else t⟩) j t).nextCur else fr⟩
      a b with ⟨ha, hb, hv⟩ | hv
    · rw [hv]
      show ((upd2 w.tbl i j ⟨(w.tbl i j).rateId,
        if i ≠ fr then (w.tbl i fr).nextCur else t⟩ : ℕ → ℕ → Cell)
          j i).rateId = (w.tbl a b).rateId
      rw [ha, hb]
      rcases upd2_eq_or w.tbl i j ⟨(w.tbl i j).rateId,
          if i ≠ fr then (w.tbl i fr).nextCur else t⟩ j i with
        ⟨ha2, hb2, hv2⟩ | hv2
      · rw [hv2]
        show (w.tbl i j).rateId = (w.tbl j i).rateId
        rw [hb2]
      · rw [hv2]
    · rw [hv]
      rcases upd2_eq_or w.tbl i j ⟨(w.tbl i j).rateId,
          if i ≠ fr then (w.tbl i fr).nextCur else t⟩ a b with
        ⟨ha2, hb2, hv2⟩ | hv2
      · rw [hv2]
        show (w.tbl i j).rateId = (w.tbl a b).rateId
        rw [ha2, hb2]
      · rw [hv2]

theorem relaxStep_dist_le (fr t i j : ℕ) (w : DWork)
    (hsym : ∀ p q, w.dist p q = w.dist q p) (a b : ℕ) :
    (relaxStep fr t i j w).dist a b ≤ w.dist a b := by
  rcases relaxStep_cases fr t i j w with h | ⟨-, -, h3, h⟩
  · rw [h]
  · rw [h]
    show (upd2 (upd2 w.dist i j (cand fr t i j w)) j i (cand fr t i j w))
      a b ≤ w.dist a b
    rcases upd2_eq_or (upd2 w.dist i j (cand fr t i j w)) j i
      (cand fr t i j w) a b with ⟨ha, hb, hv⟩ | hv
    · rw [hv]
      subst ha
      subst hb
      rw [hsym a b]
      omega
    · rw [hv]
      rcases upd2_eq_or w.dist i j (cand fr t i j w) a b with
        ⟨ha2, hb2, hv2⟩ | hv2
      · rw [hv2]
        subst ha2
        subst hb2
        omega
      · rw [hv2]

theorem relaxStep_passInv (fr t i j : ℕ) (w0 : DWork)
    (es1 : List ConvertRate) (w : DWork) (hft : fr ≠ t)
    (hadj : adjE es1 fr t) (h : PassInv fr t w0 es1 w) :
    PassInv fr t w0 es1 (relaxStep fr t i j w) := by
  obtain ⟨P1, P2, P3, P4, P5, P6, P7, P8, P9, P10⟩ := h
  rcases relaxStep_cases fr t i j w with heq | ⟨h1, h2, h3, heq⟩
  · rw [heq]
    exact ⟨P1, P2, P3, P4, P5, P6, P7, P8, P9, P10⟩
  have hU : UNREACHABLE = 4294967295 := rfl
  have hM : MAX_CUR_NUMBER = 2000 := rfl
  have hij : i ≠ j := by
    intro hc
    subst hc
    rw [P4 i] at h3
    omega
  have ha8 : w.dist fr i ≤ MAX_CUR_NUMBER := (P8 i).1 h1
  have hb8 : w.dist t j ≤ MAX_CUR_NUMBER := (P8 j).2 h2
  have hcand : cand fr t i j w = w.dist fr i + w.dist t j + 1 := by
    unfold cand
    rw [Nat.mod_eq_of_lt (by omega)]
  have hjfr : j ≠ fr := by
    intro hc
    rw [hcand, hc] at h3
    have hs := P3 i fr
    omega
  have hit : i ≠ t := by
    intro hc
    rw [hcand, hc] at h3
    omega
  rw [heq]
  have hdist : ∀ a b, (upd2 (upd2 w.dist i j (cand fr t i j w)) j i (cand fr t i j w)) a b =
      if (a = i ∧ b = j) ∨ (a = j ∧ b = i) then (cand fr t i j w) else w.dist a b := by
    intro a b
    unfold upd2
    by_cases hji : a = j ∧ b = i
    · rw [if_pos hji, if_pos (Or.inr hji)]
    · rw [if_neg hji]
      by_cases hij2 : a = i ∧ b = j
      · rw [if_pos hij2, if_pos (Or.inl hij2)]
      · rw [if_neg hij2, if_neg (fun hc => hc.elim hij2 hji)]
  have htbl : ∀ a b,
      (upd2 (upd2 w.tbl i j ⟨(w.tbl i j).rateId,
          if i ≠ fr then (w.tbl i fr).nextCur else t⟩) j i
        ⟨((upd2 w.tbl i j ⟨(w.tbl i j).rateId,
            if i ≠ fr then (w.tbl i fr).nextCur else t⟩) j i).rateId,
          if j ≠ t then ((upd2 w.tbl i j ⟨(w.tbl i j).rateId,
            if i ≠ fr then (w.tbl i fr).nextCur else t⟩) j t).nextCur
          else fr⟩) a b =
      if a = j ∧ b = i then
        ⟨(w.tbl j i).rateId, if j ≠ t then (w.tbl j t).nextCur else fr⟩
      else if a = i ∧ b = j then
        ⟨(w.tbl i j).rateId, if i ≠ fr then (w.tbl i fr).nextCur else t⟩
      else w.tbl a b := by
    intro a b
    have hread1 : (upd2 w.tbl i j ⟨(w.tbl i j).rateId,
        if i ≠ fr then (w.tbl i fr).nextCur else t⟩) j i = w.tbl j i :=
      upd2_ne _ _ _ _ (fun hc => hij hc.1.symm)
    have hread2 : (upd2 w.tbl i j ⟨(w.tbl i j).rateId,
        if i ≠ fr then (w.tbl i fr).nextCur else t⟩) j t = w.tbl j t :=
      upd2_ne _ _ _ _ (fun hc => hij hc.1.symm)
    by_cases hji : a = j ∧ b = i
    · rw [show (upd2 (upd2 w.tbl i j ⟨(w.tbl i j).rateId,
          if i ≠ fr then (w.tbl i fr).nextCur else t⟩) j i
          ⟨((upd2 w.tbl i j ⟨(w.tbl i j).rateId,
              if i ≠ fr then (w.tbl i fr).nextCur else t⟩) j i).rateId,
            if j ≠ t then ((upd2 w.tbl i j ⟨(w.tbl i j).rateId,
              if i ≠ fr then (w.tbl i fr).nextCur else t⟩) j t).nextCur
            else fr⟩) a b =
          ⟨((upd2 w.tbl i j ⟨(w.tbl i j).rateId,
              if i ≠ fr then (w.tbl i fr).nextCur else t⟩) j i).rateId,
            if j ≠ t then ((upd2 w.tbl i j ⟨(w.tbl i j).rateId,
              if i ≠ fr then (w.tbl i fr).nextCur else t⟩) j t).nextCur
            else fr⟩ from by
        unfold upd2
        rw [if_pos hji]]
      rw [if_pos hji, hread1, hread2]
    · rw [show (upd2 (upd2 w.tbl i j ⟨(w.tbl i j).rateId,
          if i ≠ fr then (w.tbl i fr).nextCur else t⟩) j i
          ⟨((upd2 w.tbl i j ⟨(w.tbl i j).rateId,
              if i ≠ fr then (w.tbl i fr).nextCur else t⟩) j i).rateId,
            if j ≠ t then ((upd2 w.tbl i j ⟨(w.tbl i j).rateId,
              if i ≠ fr then (w.tbl i fr).nextCur else t⟩) j t).nextCur
            else fr⟩) a b =
          (upd2 w.tbl i j ⟨(w.tbl i j).rateId,
            if i ≠ fr then (w.tbl i fr).nextCur else t⟩) a b from by
        unfold upd2
        rw [if_neg hji]]
      rw [if_neg hji]
      by_cases hij2 : a = i ∧ b = j
      · rw [if_pos hij2]
        unfold upd2
        rw [if_pos hij2]
      · rw [if_neg hij2]
        exact upd2_ne _ _ _ _ hij2
  refine ⟨P1, ?_, ?_, ?_, ?_, ?_, ?_, ?_, ?_, ?_⟩
  · -- rateId preserved
    intro a b
    show ((upd2 (upd2 w.tbl i j _) j i _ : ℕ → ℕ → Cell) a b).rateId = _
    rw [htbl a b]
    by_cases hji : a = j ∧ b = i
    · rw [if_pos hji]
      show (w.tbl j i).rateId = (w0.tbl a b).rateId
      rw [hji.1, hji.2]
      exact P2 j i
    · rw [if_neg hji]
      by_cases hij2 : a = i ∧ b = j
      · rw [if_pos hij2]
        show (w.tbl i j).rateId = (w0.tbl a b).rateId
        rw [hij2.1, hij2.2]
        exact P2 i j
      · rw [if_neg hij2]
        exact P2 a b
  · -- symmetry
    intro a b
    show (upd2 (upd2 w.dist i j (cand fr t i j w)) j i (cand fr t i j w)) a b =
      (upd2 (upd2 w.dist i j (cand fr t i j w)) j i (cand fr t i j w)) b a
    rw [hdist a b, hdist b a]
    by_cases hc : (a = i ∧ b = j) ∨ (a = j ∧ b = i)
    · rw [if_pos hc, if_pos (by tauto)]
    · rw [if_neg hc, if_neg (by tauto)]
      exact P3 a b
  · -- diagonal
    intro a
    show (upd2 (upd2 w.dist i j (cand fr t i j w)) j i (cand fr t i j w)) a a = 0
    rw [hdist a a]
    rw [if_neg (by
      intro hc
      rcases hc with ⟨h4, h5⟩ | ⟨h4, h5⟩
      · exact hij (h4.symm.trans h5)
      · exact hij (h5.symm.trans h4))]
    exact P4 a
  · -- monotone below the pass-start matrix
    intro a b
    show (upd2 (upd2 w.dist i j (cand fr t i j w)) j i (cand fr t i j w)) a b ≤ w0.dist a b
    rw [hdist a b]
    by_cases hc : (a = i ∧ b = j) ∨ (a = j ∧ b = i)
    · rw [if_pos hc]
      rcases hc with ⟨h4, h5⟩ | ⟨h4, h5⟩
      · subst h4
        subst h5
        have := P5 a b
        omega
      · subst h4
        subst h5
        have hs := P3 a b
        have := P5 a b
        omega
    · rw [if_neg hc]
      exact P5 a b
  · -- off-diagonal entries stay nonzero
    intro a b hab
    show (upd2 (upd2 w.dist i j (cand fr t i j w)) j i (cand fr t i j w)) a b ≠ 0
    rw [hdist a b]
    by_cases hc : (a = i ∧ b = j) ∨ (a = j ∧ b = i)
    · rw [if_pos hc]
      rw [hcand]
      omega
    · rw [if_neg hc]
      exact P6 a b hab
  · -- realizability
    intro a b hab hfin
    have hfin2 : (upd2 (upd2 w.dist i j (cand fr t i j w)) j i
        (cand fr t i j w)) a b ≠ UNREACHABLE := hfin
    rw [hdist a b] at hfin2
    show ∃ l, IsVertexPath es1 a l ∧ pathEnd a l = b ∧
      l.length = (upd2 (upd2 w.dist i j (cand fr t i j w)) j i
        (cand fr t i j w)) a b ∧
      l.head? = some (((upd2 (upd2 w.tbl i j ⟨(w.tbl i j).rateId,
          if i ≠ fr then (w.tbl i fr).nextCur else t⟩) j i
        ⟨((upd2 w.tbl i j ⟨(w.tbl i j).rateId,
            if i ≠ fr then (w.tbl i fr).nextCur else t⟩) j i).rateId,
          if j ≠ t then ((upd2 w.tbl i j ⟨(w.tbl i j).rateId,
            if i ≠ fr then (w.tbl i fr).nextCur else t⟩) j t).nextCur
          else fr⟩) a b).nextCur)
    rw [hdist a b, htbl a b]
    by_cases hc2 : a = i ∧ b = j
    · -- the (i, j) write
      obtain ⟨ha, hb⟩ := hc2
      subst ha
      subst hb
      rw [if_pos (Or.inl ⟨rfl, rfl⟩)]
      rw [if_neg (fun hcc => hab hcc.1), if_pos ⟨rfl, rfl⟩]
      have hafr : w.dist a fr ≠ UNREACHABLE := by
        rw [P3 a fr]
        exact h1
      obtain ⟨lA, hA1, hA2, hA3, hA4⟩ :
          ∃ l, IsVertexPath es1 a l ∧ pathEnd a l = fr ∧
            l.length = w.dist fr a ∧
            (a ≠ fr → l.head? = some ((w.tbl a fr).nextCur)) := by
        by_cases hafr2 : a = fr
        · refine ⟨[], trivial, hafr2, ?_, fun hc => absurd hafr2 hc⟩
          rw [hafr2, P4 fr]
          rfl
        · obtain ⟨l, hl1, hl2, hl3, hl4⟩ := P7 a fr hafr2 hafr
          exact ⟨l, hl1, hl2, by rw [hl3, P3 a fr], fun _ => hl4⟩
      obtain ⟨lB, hB1, hB2, hB3⟩ :
          ∃ l, IsVertexPath es1 t l ∧ pathEnd t l = b ∧
            l.length = w.dist t b := by
        by_cases htb : t = b
        · refine ⟨[], trivial, htb, ?_⟩
          rw [← htb, P4 t]
          rfl
        · obtain ⟨l, hl1, hl2, hl3, -⟩ := P7 t b htb h2
          exact ⟨l, hl1, hl2, hl3⟩
      refine ⟨lA ++ t :: lB, ?_, ?_, ?_, ?_⟩
      · refine ivp_append lA (t :: lB) a hA1 ?_
        rw [hA2]
        exact ⟨hadj, hB1⟩
      · rw [pathEnd_append lA (t :: lB) a, hA2]
        have he : pathEnd fr (t :: lB) = pathEnd t lB :=
          List.getLastD_cons fr t lB
        rw [he]
        exact hB2
      · rw [List.length_append, List.length_cons, hA3, hB3, hcand]
        omega
      · by_cases hafr2 : a = fr
        · rw [if_neg (fun hc => hc hafr2)]
          have hA0 : lA = [] := by
            have h5 := hA3
            rw [hafr2, P4 fr] at h5
            exact List.length_eq_zero.mp h5
          rw [hA0]
          rfl
        · rw [if_pos hafr2]
          have hlen0 : lA.length ≠ 0 := by
            rw [hA3]
            exact P6 fr a (fun hc => hafr2 hc.symm)
          cases lA with
          | nil => exact absurd rfl hlen0
          | cons a0 rest =>
            have h5 := hA4 hafr2
            simpa using h5
    · by_cases hc1 : a = j ∧ b = i
      · -- the (j, i) write
        obtain ⟨ha, hb⟩ := hc1
        subst ha
        subst hb
        rw [if_pos (Or.inr ⟨rfl, rfl⟩)]
        rw [if_pos ⟨rfl, rfl⟩]
        have hbt : w.dist a t ≠ UNREACHABLE := by
          rw [P3 a t]
          exact h2
        have hfrb : w.dist fr b ≠ UNREACHABLE := h1
        obtain ⟨lC, hC1, hC2, hC3, hC4⟩ :
            ∃ l, IsVertexPath es1 a l ∧ pathEnd a l = t ∧
              l.length = w.dist t a ∧
              (a ≠ t → l.head? = some ((w.tbl a t).nextCur)) := by
          by_cases hat : a = t
          · refine ⟨[], trivial, hat, ?_, fun hc => absurd hat hc⟩
            rw [hat, P4 t]
            rfl
          · obtain ⟨l, hl1, hl2, hl3, hl4⟩ := P7 a t hat hbt
            exact ⟨l, hl1, hl2, by rw [hl3, P3 a t], fun _ => hl4⟩
        obtain ⟨lD, hD1, hD2, hD3⟩ :
            ∃ l, IsVertexPath es1 fr l ∧ pathEnd fr l = b ∧
              l.length = w.dist fr b := by
          by_cases hfrb2 : fr = b
          · refine ⟨[], trivial, hfrb2, ?_⟩
            rw [← hfrb2, P4 fr]
            rfl
          · obtain ⟨l, hl1, hl2, hl3, -⟩ := P7 fr b hfrb2 hfrb
            exact ⟨l, hl1, hl2, hl3⟩
        refine ⟨lC ++ fr :: lD, ?_, ?_, ?_, ?_⟩
        · refine ivp_append lC (fr :: lD) a hC1 ?_
          rw [hC2]
          exact ⟨adjE_symm hadj, hD1⟩
        · rw [pathEnd_append lC (fr :: lD) a, hC2]
          have he : pathEnd t (fr :: lD) = pathEnd fr lD :=
            List.getLastD_cons t fr lD
          rw [he]
          exact hD2
        · rw [List.length_append, List.length_cons, hC3, hD3, hcand]
          rw [P3 t a]
          omega
        · by_cases hat : a = t
          · rw [if_neg (fun hc => hc hat)]
            have hC0 : lC = [] := by
              have h5 := hC3
              rw [hat, P4 t] at h5
              exact List.length_eq_zero.mp h5
            rw [hC0]
            rfl
          · rw [if_pos hat]
            have hlen0 : lC.length ≠ 0 := by
              rw [hC3]
              exact P6 t a (fun hc => hat hc.symm)
            cases lC with
            | nil => exact absurd rfl hlen0
            | cons c0 rest =>
              have h5 := hC4 hat
              simpa using h5
      · have hboth : ¬ ((a = i ∧ b = j) ∨ (a = j ∧ b = i)) :=
          fun hcc => hcc.elim hc2 hc1
        rw [if_neg hboth] at hfin2 ⊢
        rw [if_neg hc1, if_neg hc2]
        exact P7 a b hab hfin2
  · -- rows fr and t stay small
    intro x
    constructor
    · intro hfin
      have hfin2 : (upd2 (upd2 w.dist i j (cand fr t i j w)) j i
          (cand fr t i j w)) fr x ≠ UNREACHABLE := hfin
      rw [hdist fr x] at hfin2
      show (upd2 (upd2 w.dist i j (cand fr t i j w)) j i
        (cand fr t i j w)) fr x ≤ MAX_CUR_NUMBER
      rw [hdist fr x]
      by_cases hc : (fr = i ∧ x = j) ∨ (fr = j ∧ x = i)
      · rw [if_pos hc]
        rcases hc with ⟨h4, h5⟩ | ⟨h4, h5⟩
        · -- i = fr: the new value is dist t j + 1
          rw [hcand, ← h4, P4 fr]
          by_cases hbig : w.dist t j = MAX_CUR_NUMBER
          · exfalso
            rcases (P9 j).2 h2 with ⟨hfin3, hle3⟩ | hle3
            · have h8 := (P8 j).1 hfin3
              rw [hcand, ← h4, P4 fr] at h3
              omega
            · omega
          · omega
        · exact absurd h4.symm hjfr
      · rw [if_neg hc]
        rw [if_neg hc] at hfin2
        exact (P8 x).1 hfin2
    · intro hfin
      have hfin2 : (upd2 (upd2 w.dist i j (cand fr t i j w)) j i
          (cand fr t i j w)) t x ≠ UNREACHABLE := hfin
      rw [hdist t x] at hfin2
      show (upd2 (upd2 w.dist i j (cand fr t i j w)) j i
        (cand fr t i j w)) t x ≤ MAX_CUR_NUMBER
      rw [hdist t x]
      by_cases hc : (t = i ∧ x = j) ∨ (t = j ∧ x = i)
      · rw [if_pos hc]
        rcases hc with ⟨h4, h5⟩ | ⟨h4, h5⟩
        · exact absurd h4.symm hit
        · -- j = t: the new value is dist fr i + 1
          rw [hcand, ← h4, P4 t]
          by_cases hbig : w.dist fr i = MAX_CUR_NUMBER
          · exfalso
            rcases (P9 i).1 h1 with ⟨hfin3, hle3⟩ | hle3
            · have h8 := (P8 i).2 hfin3
              rw [hcand, ← h4, P4 t] at h3
              have hs := P3 i t
              omega
            · omega
          · omega
      · rw [if_neg hc]
        rw [if_neg hc] at hfin2
        exact (P8 x).2 hfin2
  · -- rows fr and t stay linked
    intro x
    have hvfr : (upd2 (upd2 w.dist i j (cand fr t i j w)) j i
        (cand fr t i j w)) fr x =
        (if (fr = i ∧ x = j) ∨ (fr = j ∧ x = i) then (cand fr t i j w)
          else w.dist fr x) := hdist fr x
    have hvt : (upd2 (upd2 w.dist i j (cand fr t i j w)) j i
        (cand fr t i j w)) t x =
        (if (t = i ∧ x = j) ∨ (t = j ∧ x = i) then (cand fr t i j w)
          else w.dist t x) := hdist t x
    constructor
    · intro hfin
      show ((upd2 (upd2 w.dist i j (cand fr t i j w)) j i
        (cand fr t i j w)) t x ≠ UNREACHABLE ∧
        (upd2 (upd2 w.dist i j (cand fr t i j w)) j i
          (cand fr t i j w)) fr x ≤
          (upd2 (upd2 w.dist i j (cand fr t i j w)) j i
            (cand fr t i j w)) t x + 1) ∨
        (upd2 (upd2 w.dist i j (cand fr t i j w)) j i
          (cand fr t i j w)) fr x ≤ MAX_CUR_NUMBER - 1
      have hfin2 : (upd2 (upd2 w.dist i j (cand fr t i j w)) j i
          (cand fr t i j w)) fr x ≠ UNREACHABLE := hfin
      rw [hvfr] at hfin2
      rw [hvfr]
      by_cases hc : (fr = i ∧ x = j) ∨ (fr = j ∧ x = i)
      · rcases hc with ⟨h4, h5⟩ | ⟨h4, h5⟩
        · -- new row-fr value at x = j is dist t j + 1
          rw [if_pos (Or.inl ⟨h4, h5⟩)]
          rw [hvt]
          rw [if_neg (show ¬ ((t = i ∧ x = j) ∨ (t = j ∧ x = i)) from by
            intro hcc
            rcases hcc with ⟨h6, h7⟩ | ⟨h6, h7⟩
            · exact hft (h4.trans h6.symm)
            · exact hij (h7.symm.trans h5))]
          refine Or.inl ⟨?_, ?_⟩
          · rw [h5]
            exact h2
          · rw [hcand, ← h4, P4 fr, h5]
            omega
        · exact absurd h4.symm hjfr
      · rw [if_neg hc] at hfin2 ⊢
        rw [hvt]
        by_cases hct : (t = i ∧ x = j) ∨ (t = j ∧ x = i)
        · rcases hct with ⟨h4, h5⟩ | ⟨h4, h5⟩
          · exact absurd h4.symm hit
          · -- j = t: new row-t value at x = i is dist fr i + 1
            rw [if_pos (Or.inr ⟨h4, h5⟩)]
            refine Or.inl ⟨?_, ?_⟩
            · rw [hcand, hU]
              omega
            · rcases (P9 x).1 hfin2 with ⟨hfin3, hle3⟩ | hle3
              · rw [hcand, ← h4, P4 t, h5]
                have hs := P3 fr i
                rw [h5] at hle3
                have hs2 := P3 t i
                omega
              · rw [hcand]
                have hcap : w.dist fr x ≤ MAX_CUR_NUMBER - 1 := hle3
                rw [← h4, P4 t, h5]
                rw [h5] at hcap
                omega
        · rw [if_neg hct]
          exact (P9 x).1 hfin2
    · intro hfin
      show ((upd2 (upd2 w.dist i j (cand fr t i j w)) j i
        (cand fr t i j w)) fr x ≠ UNREACHABLE ∧
        (upd2 (upd2 w.dist i j (cand fr t i j w)) j i
          (cand fr t i j w)) t x ≤
          (upd2 (upd2 w.dist i j (cand fr t i j w)) j i
            (cand fr t i j w)) fr x + 1) ∨
        (upd2 (upd2 w.dist i j (cand fr t i j w)) j i
          (cand fr t i j w)) t x ≤ MAX_CUR_NUMBER - 1
      have hfin2 : (upd2 (upd2 w.dist i j (cand fr t i j w)) j i
          (cand fr t i j w)) t x ≠ UNREACHABLE := hfin
      rw [hvt] at hfin2
      rw [hvt]
      by_cases hc : (t = i ∧ x = j) ∨ (t = j ∧ x = i)
      · rcases hc with ⟨h4, h5⟩ | ⟨h4, h5⟩
        · exact absurd h4.symm hit
        · -- j = t: new row-t value at x = i is dist fr i + 1
          rw [if_pos (Or.inr ⟨h4, h5⟩)]
          rw [hvfr]
          rw [if_neg (show ¬ ((fr = i ∧ x = j) ∨ (fr = j ∧ x = i)) from by
            intro hcc
            rcases hcc with ⟨h6, h7⟩ | ⟨h6, h7⟩
            · exact hij (h5.symm.trans h7)
            · exact hft (h6.trans h4.symm))]
          refine Or.inl ⟨?_, ?_⟩
          · rw [h5]
            exact h1
          · rw [hcand, ← h4, P4 t, h5]
      · rw [if_neg hc] at hfin2 ⊢
        rw [hvfr]
        by_cases hcf : (fr = i ∧ x = j) ∨ (fr = j ∧ x = i)
        · rcases hcf with ⟨h4, h5⟩ | ⟨h4, h5⟩
          · -- i = fr: new row-fr value at x = j is dist t j + 1
            rw [if_pos (Or.inl ⟨h4, h5⟩)]
            refine Or.inl ⟨?_, ?_⟩
            · rw [hcand, hU]
              omega
            · rcases (P9 x).2 hfin2 with ⟨hfin3, hle3⟩ | hle3
              · rw [hcand, ← h4, P4 fr, h5]
                rw [h5] at hle3
                omega
              · rw [hcand, ← h4, P4 fr, h5]
                rw [h5] at hle3
                omega
          · exact absurd h4.symm hjfr
        · rw [if_neg hcf]
          exact (P9 x).2 hfin2
  · -- global small bound
    intro a b hfin
    have hfin2 : (upd2 (upd2 w.dist i j (cand fr t i j w)) j i (cand fr t i j w)) a b ≠ UNREACHABLE :=
      hfin
    rw [hdist a b] at hfin2
    show (upd2 (upd2 w.dist i j (cand fr t i j w)) j i (cand fr t i j w)) a b ≤ 2 * MAX_CUR_NUMBER + 1
    rw [hdist a b]
    by_cases hc : (a = i ∧ b = j) ∨ (a = j ∧ b = i)
    · rw [if_pos hc]
      rw [hcand]
      omega
    · rw [if_neg hc]
      rw [if_neg hc] at hfin2
      exact P10 a b hfin2

theorem pathN_rev {es : List ConvertRate} {u v : ℕ} {n : ℕ}
    (h : PathN es u v n) : PathN es v u n := by
  induction h with
  | refl u => exact PathN.refl u
  | cons hadj hp ih =>
    exact pathN_concat ih (PathN.cons (adjE_symm hadj) (PathN.refl _))

theorem reach_minHops {es : List ConvertRate} {u v : ℕ}
    (h : Reach es u v) : ∃ d, IsMinHops es u v d := by
  obtain ⟨n, hp⟩ := h
  induction n using Nat.strong_induction_on with
  | _ n ih =>
    by_cases hmin : ∀ m, PathN es u v m → n ≤ m
    · exact ⟨n, hp, hmin⟩
    · push_neg at hmin
      obtain ⟨m, hm, hlt⟩ := hmin
      exact ih m hlt hm

theorem dinv_minhops {R0 : List ℚ} {es0 : List ConvertRate} {w : DWork}
    (h : DInv R0 es0 w) {i j : ℕ} (hfin : w.dist i j ≠ UNREACHABLE) :
    IsMinHops es0 i j (w.dist i j) := by
  obtain ⟨-, -, D3, -, D5, D6, -, -⟩ := h
  by_cases hij : i = j
  · subst hij
    rw [D3 i]
    exact ⟨PathN.refl i, fun m _ => Nat.zero_le m⟩
  · have hreach : Reach es0 i j := by
      by_contra hr
      exact hfin (D6 i j hr)
    obtain ⟨d, hd⟩ := reach_minHops hreach
    rw [D5 i j d hd]
    exact hd

theorem natFold_fix {α : Type} (f : ℕ → α → α) (n : ℕ) (a : α)
    (h : ∀ i, i < n → f i a = a) : natFold f n a = a := by
  induction n with
  | zero => rfl
  | succ m ih =>
    show f m (natFold f m a) = a
    rw [ih (fun i hi => h i (by omega)), h m (by omega)]

theorem cov_mono (fr t : ℕ) (w0 : DWork) (a b : ℕ) (w w' : DWork)
    (hle : ∀ p q, w'.dist p q ≤ w.dist p q) (h : Cov fr t w0 a b w) :
    Cov fr t w0 a b w' := by
  intro h1 h2
  exact le_trans (hle a b) (h h1 h2)

theorem relaxStep_cov (fr t i j : ℕ) (w0 : DWork) (es1 : List ConvertRate)
    (w : DWork) (hw0 : PassInv fr t w0 es1 w0) (h : PassInv fr t w0 es1 w) :
    Cov fr t w0 i j (relaxStep fr t i j w) := by
  intro hfi htj
  obtain ⟨-, -, -, -, -, -, -, Q8, -, -⟩ := hw0
  obtain ⟨-, -, -, -, P5, -, -, -, -, -⟩ := h
  have hU : UNREACHABLE = 4294967295 := rfl
  have hM : MAX_CUR_NUMBER = 2000 := rfl
  have ha : w0.dist fr i ≤ MAX_CUR_NUMBER := (Q8 i).1 hfi
  have hb : w0.dist t j ≤ MAX_CUR_NUMBER := (Q8 j).2 htj
  have ha2 : w.dist fr i ≤ w0.dist fr i := P5 fr i
  have hb2 : w.dist t j ≤ w0.dist t j := P5 t j
  have hcand : cand fr t i j w = w.dist fr i + w.dist t j + 1 := by
    unfold cand
    rw [Nat.mod_eq_of_lt (by omega)]
  by_cases h3 : w.dist i j ≤ cand fr t i j w
  · rw [relaxStep_skip_ge h3]
    omega
  · rw [relaxStep_update (by omega) (by omega) (by omega)]
    show (upd2 (upd2 w.dist i j (cand fr t i j w)) j i (cand fr t i j w))
      i j ≤ _
    rcases upd2_eq_or (upd2 w.dist i j (cand fr t i j w)) j i
      (cand fr t i j w) i j with ⟨-, -, h6⟩ | h6
    · rw [h6]
      omega
    · rw [h6, upd2_self]
      omega

theorem relaxPass_inner (fr t i : ℕ) (w0 : DWork) (es1 : List ConvertRate)
    (w : DWork) (hft : fr ≠ t) (hadj : adjE es1 fr t)
    (hw0 : PassInv fr t w0 es1 w0) (C : ℕ → ℕ → Prop)
    (hP : PassInv fr t w0 es1 w) (hC : ∀ a b, C a b → Cov fr t w0 a b w) :
    PassInv fr t w0 es1
      (natFold (fun j w => relaxStep fr t i j w) MAX_CUR_NUMBER w) ∧
    (∀ a b, C a b →
      Cov fr t w0 a b
        (natFold (fun j w => relaxStep fr t i j w) MAX_CUR_NUMBER w)) ∧
    (∀ j, j < MAX_CUR_NUMBER →
      Cov fr t w0 i j
        (natFold (fun j w => relaxStep fr t i j w) MAX_CUR_NUMBER w)) := by
  refine natFold_invariant_idx
    (fun n w => PassInv fr t w0 es1 w ∧
      (∀ a b, C a b → Cov fr t w0 a b w) ∧
      (∀ j, j < n → Cov fr t w0 i j w))
    (fun j w => relaxStep fr t i j w) MAX_CUR_NUMBER w
    ⟨hP, hC, fun j hj => absurd hj (by omega)⟩ ?_
  intro j x hj hx
  obtain ⟨hx1, hx2, hx3⟩ := hx
  have hsym : ∀ p q, x.dist p q = x.dist q p := hx1.2.2.1
  have hle := relaxStep_dist_le fr t i j x hsym
  refine ⟨relaxStep_passInv fr t i j w0 es1 x hft hadj hx1, ?_, ?_⟩
  · intro a b hab
    exact cov_mono fr t w0 a b x _ hle (hx2 a b hab)
  · intro j' hj'
    by_cases hjj : j' = j
    · subst hjj
      exact relaxStep_cov fr t i j' w0 es1 x hw0 hx1
    · exact cov_mono fr t w0 i j' x _ hle (hx3 j' (by omega))

theorem relaxPass_correct (fr t : ℕ) (w0 : DWork)
    (es1 : List ConvertRate) (hft : fr ≠ t) (hadj : adjE es1 fr t)
    (hw0 : PassInv fr t w0 es1 w0) :
    PassInv fr t w0 es1 (relaxPass fr t w0) ∧
    ∀ a b, a < MAX_CUR_NUMBER → b < MAX_CUR_NUMBER →
      Cov fr t w0 a b (relaxPass fr t w0) := by
  unfold relaxPass
  refine natFold_invariant_idx
    (fun n w => PassInv fr t w0 es1 w ∧
      ∀ a b, a < n → b < MAX_CUR_NUMBER → Cov fr t w0 a b w)
    _ MAX_CUR_NUMBER w0 ⟨hw0, fun a b ha => absurd ha (by omega)⟩ ?_
  intro i x hi hx
  obtain ⟨hx1, hx2⟩ := hx
  obtain ⟨g1, g2, g3⟩ := relaxPass_inner fr t i w0 es1 x hft hadj hw0
    (fun a b => a < i ∧ b < MAX_CUR_NUMBER) hx1
    (fun a b hab => hx2 a b hab.1 hab.2)
  refine ⟨g1, ?_⟩
  intro a b ha hb
  by_cases hai : a = i
  · subst hai
    exact g3 b hb
  · exact g2 a b ⟨by omega, hb⟩

theorem edgeTbl_nextCur (w : DWork) (e : ConvertRate) (a b : ℕ) :
    (edgeTbl w e a b).nextCur = (w.tbl a b).nextCur := by
  by_cases h1 : a = e.«to» ∧ b = e.«from»
  · obtain ⟨ha, hb⟩ := h1
    subst ha
    subst hb
    show (edgeTbl w e e.«to» e.«from»).nextCur = _
    unfold edgeTbl
    rw [upd2_self]
    show ((upd2 w.tbl e.«from» e.«to»
      ⟨toInt32 w.rates.length, (w.tbl e.«from» e.«to»).nextCur⟩
        : ℕ → ℕ → Cell) e.«to» e.«from»).nextCur = _
    rcases upd2_eq_or w.tbl e.«from» e.«to»
        ⟨toInt32 w.rates.length, (w.tbl e.«from» e.«to»).nextCur⟩
        e.«to» e.«from» with ⟨ha2, hb2, hv2⟩ | hv2
    · rw [hv2]
      show (w.tbl e.«from» e.«to»).nextCur = (w.tbl e.«to» e.«from»).nextCur
      rw [hb2]
    · rw [hv2]
  · unfold edgeTbl
    rw [upd2_ne _ _ _ _ h1]
    rcases upd2_eq_or w.tbl e.«from» e.«to»
        ⟨toInt32 w.rates.length, (w.tbl e.«from» e.«to»).nextCur⟩
        a b with ⟨ha2, hb2, hv2⟩ | hv2
    · rw [hv2]
      show (w.tbl e.«from» e.«to»).nextCur = (w.tbl a b).nextCur
      rw [← ha2, ← hb2]
    · rw [hv2]

theorem edgeTbl_rateId (w : DWork) (e : ConvertRate) (a b : ℕ) :
    (edgeTbl w e a b).rateId =
      if e.«to» = a ∧ e.«from» = b then -toInt32 w.rates.length
      else if e.«from» = a ∧ e.«to» = b then toInt32 w.rates.length
      else (w.tbl a b).rateId := by
  by_cases h1 : a = e.«to» ∧ b = e.«from»
  · obtain ⟨ha, hb⟩ := h1
    subst ha
    subst hb
    rw [if_pos (⟨rfl, rfl⟩ : e.«to» = e.«to» ∧ e.«from» = e.«from»)]
    show (edgeTbl w e e.«to» e.«from»).rateId = _
    unfold edgeTbl
    rw [upd2_self]
  · rw [if_neg (fun hc => h1 ⟨hc.1.symm, hc.2.symm⟩)]
    by_cases h2 : a = e.«from» ∧ b = e.«to»
    · obtain ⟨ha, hb⟩ := h2
      subst ha
      subst hb
      rw [if_pos (⟨rfl, rfl⟩ : e.«from» = e.«from» ∧ e.«to» = e.«to»)]
      show (edgeTbl w e e.«from» e.«to»).rateId = _
      unfold edgeTbl
      rw [upd2_ne _ _ _ _ h1, upd2_self]
    · rw [if_neg (fun hc => h2 ⟨hc.1.symm, hc.2.symm⟩)]
      unfold edgeTbl
      rw [upd2_ne _ _ _ _ h1, upd2_ne _ _ _ _ h2]

theorem foldEdge_eq (w : DWork) (e : ConvertRate) :
    foldEdge w e = relaxPass e.«from» e.«to» (edgeStart w e) := rfl

theorem dinv_triangle {R0 : List ℚ} {es0 : List ConvertRate} {w : DWork}
    (h : DInv R0 es0 w) {fr i j : ℕ}
    (hfi : w.dist fr i ≠ UNREACHABLE) (hfj : w.dist fr j ≠ UNREACHABLE) :
    w.dist i j ≤ w.dist fr i + w.dist fr j := by
  have h1 : IsMinHops es0 fr i (w.dist fr i) := dinv_minhops h hfi
  have h2 : IsMinHops es0 fr j (w.dist fr j) := dinv_minhops h hfj
  have hp : PathN es0 i j (w.dist fr i + w.dist fr j) :=
    pathN_concat (pathN_rev h1.1) h2.1
  obtain ⟨d, hd⟩ := reach_minHops ⟨_, hp⟩
  rw [h.2.2.2.2.1 i j d hd]
  exact hd.2 _ hp

theorem dinv_small {R0 : List ℚ} {es0 : List ConvertRate} {w : DWork}
    (h : DInv R0 es0 w)
    (hlt : ∀ e' ∈ es0, e'.«from» < MAX_CUR_NUMBER ∧ e'.«to» < MAX_CUR_NUMBER)
    {i j : ℕ} (hfin : w.dist i j ≠ UNREACHABLE) :
    w.dist i j ≤ MAX_CUR_NUMBER - 1 := by
  by_cases hij : i = j
  · subst hij
    rw [h.2.2.1 i]
    exact Nat.zero_le _
  · have hmh := dinv_minhops h hfin
    have hiM : i < MAX_CUR_NUMBER :=
      (reach_lt_MAX hlt ⟨_, hmh.1⟩ hij).1
    have := minHops_lt_MAX hlt hiM hmh
    omega

theorem selfloop_pass_id {R0 : List ℚ} {es0 : List ConvertRate} {w : DWork}
    (h : DInv R0 es0 w)
    (hlt : ∀ e' ∈ es0, e'.«from» < MAX_CUR_NUMBER ∧ e'.«to» < MAX_CUR_NUMBER)
    (fr : ℕ) (w1 : DWork) (hd : w1.dist = w.dist) :
    relaxPass fr fr w1 = w1 := by
  have hstep : ∀ i j, relaxStep fr fr i j w1 = w1 := by
    intro i j
    by_cases h1 : w1.dist fr i = UNREACHABLE
    · exact relaxStep_skip_guard (Or.inl h1)
    by_cases h2 : w1.dist fr j = UNREACHABLE
    · exact relaxStep_skip_guard (Or.inr h2)
    · rw [hd] at h1 h2
      have hU : UNREACHABLE = 4294967295 := rfl
      have hM : MAX_CUR_NUMBER = 2000 := rfl
      have hb1 : w.dist fr i ≤ MAX_CUR_NUMBER - 1 := dinv_small h hlt h1
      have hb2 : w.dist fr j ≤ MAX_CUR_NUMBER - 1 := dinv_small h hlt h2
      have htri : w.dist i j ≤ w.dist fr i + w.dist fr j :=
        dinv_triangle h h1 h2
      refine relaxStep_skip_ge ?_
      show w1.dist i j ≤ cand fr fr i j w1
      have hc : cand fr fr i j w1 = w.dist fr i + w.dist fr j + 1 := by
        unfold cand
        rw [hd, Nat.mod_eq_of_lt (by omega)]
      rw [hc, hd]
      omega
  unfold relaxPass
  refine natFold_fix _ _ _ (fun i _ => ?_)
  exact natFold_fix _ _ _ (fun j _ => hstep i j)

theorem edgeStart_realiz (R0 : List ℚ) (es0 : List ConvertRate)
    (e : ConvertRate) (w : DWork) (h : DInv R0 es0 w) :
    Realiz (es0 ++ [e]) (edgeStart w e) := by
  intro i j hij hfin
  obtain ⟨l, hvp, hend, hlen, hhead⟩ := h.2.2.2.2.2.2.1 i j hij hfin
  refine ⟨l, ivp_mono (fun x hx => List.mem_append.mpr (Or.inl hx)) l i hvp,
    hend, hlen, ?_⟩
  show l.head? = some ((edgeTbl w e i j).nextCur)
  rw [edgeTbl_nextCur]
  exact hhead

theorem edgeStart_rateId (R0 : List ℚ) (es0 : List ConvertRate)
    (e : ConvertRate) (w : DWork) (h : DInv R0 es0 w) (a b : ℕ) :
    (edgeTbl w e a b).rateId = dSigned R0.length (es0 ++ [e]) a b := by
  have hrlen : w.rates.length = R0.length + es0.length := by
    rw [h.1]
    simp
  rw [edgeTbl_rateId, h.2.2.2.2.2.2.2 a b, dSigned_append, hrlen]

theorem selfloop_dinv (R0 : List ℚ) (es0 : List ConvertRate)
    (e : ConvertRate) (w : DWork) (hself : e.«from» = e.«to»)
    (h : DInv R0 es0 w) : DInv R0 (es0 ++ [e]) (edgeStart w e) := by
  have hsub : ∀ x ∈ es0, x ∈ es0 ++ [e] :=
    fun x hx => List.mem_append.mpr (Or.inl hx)
  refine ⟨?_, h.2.1, h.2.2.1, h.2.2.2.1, ?_, ?_,
    edgeStart_realiz R0 es0 e w h,
    fun a b => edgeStart_rateId R0 es0 e w h a b⟩
  · show w.rates ++ [e.rateFn] = R0 ++ (es0 ++ [e]).map ConvertRate.rateFn
    rw [h.1]
    simp
  · intro i j d hd
    show w.dist i j = d
    have hp0 : ∃ m, m ≤ d ∧ PathN es0 i j m := by
      rcases pathN_decompose hd.1 with ⟨m, hm, p⟩ |
        ⟨m1, m2, hle, p1, p2⟩ | ⟨m1, m2, hle, p1, p2⟩
      · exact ⟨m, hm, p⟩
      · rw [hself] at p1
        exact ⟨m1 + m2, by omega, pathN_concat p1 p2⟩
      · rw [← hself] at p1
        exact ⟨m1 + m2, by omega, pathN_concat p1 p2⟩
    obtain ⟨m, hm, p0⟩ := hp0
    have hdm : d ≤ m := hd.2 m (pathN_mono hsub p0)
    have hmd : m = d := by omega
    rw [← hmd]
    refine h.2.2.2.2.1 i j m ⟨p0, ?_⟩
    intro k pk
    have := hd.2 k (pathN_mono hsub pk)
    omega
  · intro i j hnr
    show w.dist i j = UNREACHABLE
    refine h.2.2.2.2.2.1 i j (fun hr => hnr ?_)
    obtain ⟨n, p⟩ := hr
    exact ⟨n, pathN_mono hsub p⟩

theorem edgeStart_passInv (R0 : List ℚ) (es0 : List ConvertRate)
    (e : ConvertRate) (w : DWork)
    (hlt : ∀ e' ∈ es0, e'.«from» < MAX_CUR_NUMBER ∧ e'.«to» < MAX_CUR_NUMBER)
    (h : DInv R0 es0 w) :
    PassInv e.«from» e.«to» (edgeStart w e) (es0 ++ [e]) (edgeStart w e) := by
  have hM : MAX_CUR_NUMBER = 2000 := rfl
  have hsmall : ∀ i j, (edgeStart w e).dist i j ≠ UNREACHABLE →
      (edgeStart w e).dist i j ≤ MAX_CUR_NUMBER - 1 := by
    intro i j hfin
    exact dinv_small h hlt hfin
  refine ⟨rfl, fun i j => rfl, h.2.1, h.2.2.1, fun i j => le_refl _,
    h.2.2.2.1, edgeStart_realiz R0 es0 e w h, ?_, ?_, ?_⟩
  · intro x
    refine ⟨fun hfin => ?_, fun hfin => ?_⟩
    · have := hsmall _ _ hfin
      omega
    · have := hsmall _ _ hfin
      omega
  · intro x
    exact ⟨fun hfin => Or.inr (hsmall _ _ hfin),
      fun hfin => Or.inr (hsmall _ _ hfin)⟩
  · intro i j hfin
    have := hsmall _ _ hfin
    omega

theorem foldEdge_dinv (R0 : List ℚ) (es0 : List ConvertRate)
    (e : ConvertRate) (w : DWork)
    (hlt : ∀ e' ∈ es0 ++ [e],
      e'.«from» < MAX_CUR_NUMBER ∧ e'.«to» < MAX_CUR_NUMBER)
    (h : DInv R0 es0 w) : DInv R0 (es0 ++ [e]) (foldEdge w e) := by
  have hsub : ∀ x ∈ es0, x ∈ es0 ++ [e] :=
    fun x hx => List.mem_append.mpr (Or.inl hx)
  have hlt0 : ∀ e' ∈ es0,
      e'.«from» < MAX_CUR_NUMBER ∧ e'.«to» < MAX_CUR_NUMBER :=
    fun e' he' => hlt e' (hsub e' he')
  rw [foldEdge_eq]
  by_cases hself : e.«from» = e.«to»
  · rw [hself, selfloop_pass_id h hlt0 e.«to» (edgeStart w e) rfl]
    exact selfloop_dinv R0 es0 e w hself h
  · have hadj1 : adjE (es0 ++ [e]) e.«from» e.«to» :=
      ⟨e, List.mem_append.mpr (Or.inr (List.mem_singleton.mpr rfl)),
        Or.inl ⟨rfl, rfl⟩⟩
    obtain ⟨hPf, hCov⟩ := relaxPass_correct e.«from» e.«to» (edgeStart w e)
      (es0 ++ [e]) hself hadj1 (edgeStart_passInv R0 es0 e w hlt0 h)
    obtain ⟨F1, F2, F3, F4, F5, F6, F7, F8, F9, F10⟩ := hPf
    have hU : UNREACHABLE = 4294967295 := rfl
    have hM : MAX_CUR_NUMBER = 2000 := rfl
    refine ⟨?_, F3, F4, F6, ?_, ?_, F7, ?_⟩
    · rw [F1]
      show w.rates ++ [e.rateFn] = R0 ++ (es0 ++ [e]).map ConvertRate.rateFn
      rw [h.1]
      simp
    · -- exactness of the relaxed matrix
      intro i j d hd
      by_cases hij : i = j
      · subst hij
        have hd0 : d = 0 := by
          have := hd.2 0 (PathN.refl i)
          omega
        rw [F4 i, hd0]
      · have hiM : i < MAX_CUR_NUMBER ∧ j < MAX_CUR_NUMBER :=
          reach_lt_MAX hlt ⟨d, hd.1⟩ hij
        have hupper :
            (relaxPass e.«from» e.«to» (edgeStart w e)).dist i j ≤ d := by
          rcases pathN_decompose hd.1 with ⟨m, hm, p⟩ |
            ⟨m1, m2, hle, p1, p2⟩ | ⟨m1, m2, hle, p1, p2⟩
          · obtain ⟨d0, hd0⟩ := reach_minHops ⟨m, p⟩
            have hle0 := F5 i j
            have hes : (edgeStart w e).dist i j = d0 :=
              h.2.2.2.2.1 i j d0 hd0
            rw [hes] at hle0
            have := hd0.2 m p
            omega
          · obtain ⟨d1, hd1⟩ := reach_minHops ⟨m1, pathN_rev p1⟩
            obtain ⟨d2, hd2⟩ := reach_minHops ⟨m2, p2⟩
            have he1 : w.dist e.«from» i = d1 := h.2.2.2.2.1 _ _ _ hd1
            have he2 : w.dist e.«to» j = d2 := h.2.2.2.2.1 _ _ _ hd2
            have hd1M : d1 < MAX_CUR_NUMBER := by
              by_cases hfi : e.«from» = i
              · have h0 : d1 = 0 := by
                  have := hd1.2 0 (by rw [hfi]; exact PathN.refl i)
                  omega
                omega
              · exact minHops_lt_MAX hlt0
                  (reach_lt_MAX hlt0 ⟨d1, hd1.1⟩ hfi).1 hd1
            have hd2M : d2 < MAX_CUR_NUMBER := by
              by_cases hfi : e.«to» = j
              · have h0 : d2 = 0 := by
                  have := hd2.2 0 (by rw [hfi]; exact PathN.refl j)
                  omega
                omega
              · exact minHops_lt_MAX hlt0
                  (reach_lt_MAX hlt0 ⟨d2, hd2.1⟩ hfi).1 hd2
            have hc := hCov i j hiM.1 hiM.2
              (show (edgeStart w e).dist e.«from» i ≠ UNREACHABLE from by
                show w.dist e.«from» i ≠ UNREACHABLE
                rw [he1]
                omega)
              (show (edgeStart w e).dist e.«to» j ≠ UNREACHABLE from by
                show w.dist e.«to» j ≠ UNREACHABLE
                rw [he2]
                omega)
            have hr1 : (edgeStart w e).dist e.«from» i = d1 := he1
            have hr2 : (edgeStart w e).dist e.«to» j = d2 := he2
            rw [hr1, hr2] at hc
            have hm1 : d1 ≤ m1 := hd1.2 m1 (pathN_rev p1)
            have hm2 : d2 ≤ m2 := hd2.2 m2 p2
            omega
          · obtain ⟨d1, hd1⟩ := reach_minHops ⟨m2, p2⟩
            obtain ⟨d2, hd2⟩ := reach_minHops ⟨m1, pathN_rev p1⟩
            have he1 : w.dist e.«from» j = d1 := h.2.2.2.2.1 _ _ _ hd1
            have he2 : w.dist e.«to» i = d2 := h.2.2.2.2.1 _ _ _ hd2
            have hd1M : d1 < MAX_CUR_NUMBER := by
              by_cases hfi : e.«from» = j
              · have h0 : d1 = 0 := by
                  have := hd1.2 0 (by rw [hfi]; exact PathN.refl j)
                  omega
                omega
              · exact minHops_lt_MAX hlt0
                  (reach_lt_MAX hlt0 ⟨d1, hd1.1⟩ hfi).1 hd1
            have hd2M : d2 < MAX_CUR_NUMBER := by
              by_cases hfi : e.«to» = i
              · have h0 : d2 = 0 := by
                  have := hd2.2 0 (by rw [hfi]; exact PathN.refl i)
                  omega
                omega
              · exact minHops_lt_MAX hlt0
                  (reach_lt_MAX hlt0 ⟨d2, hd2.1⟩ hfi).1 hd2
            have hc := hCov j i hiM.2 hiM.1
              (show (edgeStart w e).dist e.«from» j ≠ UNREACHABLE from by
                show w.dist e.«from» j ≠ UNREACHABLE
                rw [he1]
                omega)
              (show (edgeStart w e).dist e.«to» i ≠ UNREACHABLE from by
                show w.dist e.«to» i ≠ UNREACHABLE
                rw [he2]
                omega)
            have hr1 : (edgeStart w e).dist e.«from» j = d1 := he1
            have hr2 : (edgeStart w e).dist e.«to» i = d2 := he2
            rw [hr1, hr2] at hc
            have hm1 : d1 ≤ m2 := hd1.2 m2 p2
            have hm2 : d2 ≤ m1 := hd2.2 m1 (pathN_rev p1)
            rw [F3 i j]
            omega
        have hdM : d < MAX_CUR_NUMBER := minHops_lt_MAX hlt hiM.1 hd
        have hfinW :
            (relaxPass e.«from» e.«to» (edgeStart w e)).dist i j ≠
              UNREACHABLE := by
          omega
        obtain ⟨l, hvp, hend, hlen2, -⟩ := F7 i j hij hfinW
        have hp := vp_pathN l i hvp
        rw [hend, hlen2] at hp
        have := hd.2 _ hp
        omega
    · -- unreachable pairs keep the sentinel distance
      intro i j hnr
      have hij : i ≠ j := by
        intro hc
        subst hc
        exact hnr ⟨0, PathN.refl i⟩
      by_contra hne
      obtain ⟨l, hvp, hend, hlen2, -⟩ := F7 i j hij hne
      have hp := vp_pathN l i hvp
      rw [hend] at hp
      exact hnr ⟨l.length, hp⟩
    · intro a b
      exact (F2 a b).trans (edgeStart_rateId R0 es0 e w h a b)

theorem foldl_dinv (R0 : List ℚ) :
    ∀ (es2 es0 : List ConvertRate) (w : DWork),
      (∀ e' ∈ es0 ++ es2,
        e'.«from» < MAX_CUR_NUMBER ∧ e'.«to» < MAX_CUR_NUMBER) →
      DInv R0 es0 w → DInv R0 (es0 ++ es2) (es2.foldl foldEdge w) := by
  intro es2
  induction es2 with
  | nil =>
    intro es0 w hlt h
    rw [List.foldl_nil, List.append_nil]
    exact h
  | cons e rest ih =>
    intro es0 w hlt h
    rw [List.foldl_cons]
    have h1 := foldEdge_dinv R0 es0 e w
      (fun e' he' => hlt e' (by simp at he' ⊢; tauto)) h
    have h2 := ih (es0 ++ [e]) (foldEdge w e)
      (fun e' he' => hlt e' (by simp at he' ⊢; tauto)) h1
    rw [List.append_assoc] at h2
    simpa using h2

theorem dinv_base (R0 : List ℚ) :
    DInv R0 [] ⟨fun _ _ => defaultCell, R0, dist0⟩ := by
  refine ⟨by simp, ?_, ?_, ?_, ?_, ?_, ?_, ?_⟩
  · intro i j
    show dist0 i j = dist0 j i
    unfold dist0
    by_cases h : i = j
    · subst h
      rfl
    · rw [if_neg h, if_neg (fun hc => h hc.symm)]
  · intro i
    show dist0 i i = 0
    unfold dist0
    rw [if_pos rfl]
  · intro i j hij
    show dist0 i j ≠ 0
    unfold dist0
    rw [if_neg hij]
    decide
  · intro i j d hd
    cases hd.1 with
    | refl =>
      show dist0 i i = 0
      unfold dist0
      rw [if_pos rfl]
    | cons hadj hp =>
      obtain ⟨e, he, -⟩ := hadj
      exact absurd he (List.not_mem_nil e)
  · intro i j hnr
    show dist0 i j = UNREACHABLE
    unfold dist0
    rw [if_neg (fun hc => hnr (by rw [hc]; exact ⟨0, PathN.refl j⟩))]
  · intro i j hij hfin
    exact absurd (show dist0 i j = UNREACHABLE from by
      unfold dist0
      rw [if_neg hij]) hfin
  · intro i j
    show defaultCell.rateId = dSigned R0.length [] i j
    rfl

theorem init_dinv (s : Converter) (es : List ConvertRate)
    (hlt : ∀ e ∈ es, e.«from» < MAX_CUR_NUMBER ∧ e.«to» < MAX_CUR_NUMBER) :
    DInv (s.rates ++ [0]) es
      (es.foldl foldEdge
        ⟨fun _ _ => defaultCell, s.rates ++ [0], dist0⟩) := by
  have h := foldl_dinv (s.rates ++ [0]) es []
    ⟨fun _ _ => defaultCell, s.rates ++ [0], dist0⟩
    (by simpa using hlt) (dinv_base (s.rates ++ [0]))
  simpa using h

theorem dense_walk_succ (s : Converter) (t prev : ℕ) (tot : ℚ) (f : ℕ) :
    Converter.walk s t prev tot (f + 1) =
      (if (s.rate_table prev t).nextCur = t
       then some (stepTotal s.rates
         ((s.rate_table prev ((s.rate_table prev t).nextCur)).rateId) tot)
       else Converter.walk s t ((s.rate_table prev t).nextCur)
         (stepTotal s.rates
           ((s.rate_table prev ((s.rate_table prev t).nextCur)).rateId) tot)
         f) := rfl

theorem dense_walk_step (s : Converter) (t prev n : ℕ) (tot : ℚ) (f : ℕ)
    (hn : (s.rate_table prev t).nextCur = n) :
    Converter.walk s t prev tot (f + 1) =
      (if n = t
       then some (stepTotal s.rates ((s.rate_table prev n).rateId) tot)
       else Converter.walk s t n
         (stepTotal s.rates ((s.rate_table prev n).rateId) tot) f) := by
  rw [dense_walk_succ, hn]

theorem dense_walk (R0 : List ℚ) (es : List ConvertRate) (w : DWork)
    (h : DInv R0 es w)
    (hlt : ∀ e ∈ es, e.«from» < MAX_CUR_NUMBER ∧ e.«to» < MAX_CUR_NUMBER)
    (hR : 0 < R0.length) (hlen : R0.length + es.length < 2 ^ 31) :
    ∀ (d : ℕ), ∀ (prev b : ℕ) (tot : ℚ) (fuel : ℕ), prev ≠ b →
      w.dist prev b = d → w.dist prev b ≠ UNREACHABLE → d ≤ fuel →
      ∃ p, IsVertexPath es prev p ∧ pathEnd prev p = b ∧ p.length = d ∧
        Converter.walk ⟨w.tbl, w.rates⟩ b prev tot fuel =
          some (tot * pathProd es prev p) := by
  intro d
  induction d using Nat.strong_induction_on with
  | _ d ih =>
    intro prev b tot fuel hpb hdist hfin hfuel
    have hU : UNREACHABLE = 4294967295 := rfl
    have hM : MAX_CUR_NUMBER = 2000 := rfl
    have hmh : IsMinHops es prev b d := by
      have h1 := dinv_minhops h hfin
      rw [hdist] at h1
      exact h1
    have hprevM : prev < MAX_CUR_NUMBER :=
      (reach_lt_MAX hlt ⟨d, hmh.1⟩ hpb).1
    have hdM : d < MAX_CUR_NUMBER := minHops_lt_MAX hlt hprevM hmh
    have hd1 : 1 ≤ d := by
      have h4 := h.2.2.2.1 prev b hpb
      rw [hdist] at h4
      omega
    obtain ⟨l, hvp, hend, hlen2, hhead⟩ := h.2.2.2.2.2.2.1 prev b hpb hfin
    rw [hdist] at hlen2
    cases l with
    | nil =>
      simp at hlen2
      omega
    | cons x rest =>
      have hx : x = (w.tbl prev b).nextCur := by simpa using hhead
      obtain ⟨hadjx, hvpr⟩ := hvp
      have hendr : pathEnd x rest = b := by
        have hcons : pathEnd prev (x :: rest) = pathEnd x rest :=
          List.getLastD_cons prev x rest
        rw [← hcons]
        exact hend
      have hlenr : rest.length + 1 = d := by simpa using hlen2
      have hx2 : (((⟨w.tbl, w.rates⟩ : Converter).rate_table prev b)).nextCur
          = x := hx.symm
      have hst : stepTotal w.rates ((w.tbl prev x).rateId) tot =
          tot * (lastQuote es prev x).getD 0 := by
        rw [h.2.2.2.2.2.2.2 prev x, h.1]
        exact stepTotal_dSigned prev x tot es R0 hR hlen hadjx
      cases fuel with
      | zero => omega
      | succ f =>
        by_cases hnb : x = b
        · have hd1' : d = 1 := by
            have hle1 := hmh.2 1
              (PathN.cons (show adjE es prev b from by
                rw [← hnb]; exact hadjx) (PathN.refl b))
            omega
          refine ⟨[b], ⟨by rw [← hnb]; exact hadjx, trivial⟩, ?_, ?_, ?_⟩
          · have h1 : pathEnd prev [b] = pathEnd b [] :=
              List.getLastD_cons prev b []
            rw [h1]
            rfl
          · simp [hd1']
          · rw [dense_walk_step ⟨w.tbl, w.rates⟩ b prev x tot f hx2,
              if_pos hnb]
            show some (stepTotal w.rates ((w.tbl prev x).rateId) tot) =
              some (tot * pathProd es prev [b])
            rw [hst, ← hnb]
            rw [show pathProd es prev [x] =
              (lastQuote es prev x).getD 0 * 1 from rfl, mul_one]
        · have hpxb : PathN es x b (d - 1) := by
            have hp := vp_pathN rest x hvpr
            rw [hendr] at hp
            have hr : rest.length = d - 1 := by omega
            rw [hr] at hp
            exact hp
          obtain ⟨d', hd'⟩ := reach_minHops ⟨d - 1, hpxb⟩
          have hxd : w.dist x b = d' := h.2.2.2.2.1 x b d' hd'
          have hub : d' ≤ d - 1 := hd'.2 (d - 1) hpxb
          have hlb : d ≤ d' + 1 := hmh.2 (d' + 1) (PathN.cons hadjx hd'.1)
          have hd'eq : d' = d - 1 := by omega
          have hfin' : w.dist x b ≠ UNREACHABLE := by
            rw [hxd]
            omega
          obtain ⟨p', hvp', hend', hlen', hwalk'⟩ :=
            ih (d - 1) (by omega) x b
              (tot * (lastQuote es prev x).getD 0) f hnb
              (by rw [hxd]; omega) hfin' (by omega)
          refine ⟨x :: p', ⟨hadjx, hvp'⟩, ?_, ?_, ?_⟩
          · have hcons : pathEnd prev (x :: p') = pathEnd x p' :=
              List.getLastD_cons prev x p'
            rw [hcons]
            exact hend'
          · show p'.length + 1 = d
            omega
          · rw [dense_walk_step ⟨w.tbl, w.rates⟩ b prev x tot f hx2,
              if_neg hnb]
            show Converter.walk ⟨w.tbl, w.rates⟩ b x
                (stepTotal w.rates ((w.tbl prev x).rateId) tot) f =
              some (tot * pathProd es prev (x :: p'))
            rw [hst, hwalk']
            rw [show pathProd es prev (x :: p') =
              (lastQuote es prev x).getD 0 * pathProd es x p' from rfl,
              mul_assoc]

theorem dense_convert_eq (w : DWork) (v : ℚ) (a b : ℕ) (P : ℚ)
    (hne : (w.tbl a b).nextCur ≠ MAX_CUR_NUMBER)
    (hwalk : Converter.walk ⟨w.tbl, w.rates⟩ b a 1 MAX_CUR_NUMBER =
      some P) :
    Converter.convert ⟨w.tbl, w.rates⟩ v a b = some (P * v) := by
  show (if (w.tbl a b).nextCur = MAX_CUR_NUMBER then some 0
    else (Converter.walk ⟨w.tbl, w.rates⟩ b a 1 MAX_CUR_NUMBER).map
      (fun tot => tot * v)) = some (P * v)
  rw [if_neg hne, hwalk]
  rfl

theorem dense_minhop (s : Converter) (es : List ConvertRate) (v : ℚ)
    (a b : ℕ)
    (hlt : ∀ e ∈ es, e.«from» < MAX_CUR_NUMBER ∧ e.«to» < MAX_CUR_NUMBER)
    (hlen : s.rates.length + es.length + 1 < 2 ^ 31)
    (hr : Reach es a b) (hab : a ≠ b) :
    ∃ p, IsVertexPath es a p ∧ pathEnd a p = b ∧
      IsMinHops es a b p.length ∧
      Converter.convert (Converter.init s es) v a b =
        some (v * pathProd es a p) := by
  have hU : UNREACHABLE = 4294967295 := rfl
  have hM : MAX_CUR_NUMBER = 2000 := rfl
  have hD := init_dinv s es hlt
  have hR0 : 0 < (s.rates ++ [0]).length := by simp
  have hlen' : (s.rates ++ [0]).length + es.length < 2 ^ 31 := by
    simp only [List.length_append, List.length_singleton]
    omega
  obtain ⟨d, hd⟩ := reach_minHops hr
  have haM : a < MAX_CUR_NUMBER := (reach_lt_MAX hlt hr hab).1
  have hdM : d < MAX_CUR_NUMBER := minHops_lt_MAX hlt haM hd
  have hdist : (es.foldl foldEdge
      ⟨fun _ _ => defaultCell, s.rates ++ [0], dist0⟩).dist a b = d :=
    hD.2.2.2.2.1 a b d hd
  have hfin : (es.foldl foldEdge
      ⟨fun _ _ => defaultCell, s.rates ++ [0], dist0⟩).dist a b ≠
      UNREACHABLE := by
    rw [hdist]
    omega
  obtain ⟨p, hvp, hend, hlenp, hwalk⟩ :=
    dense_walk (s.rates ++ [0]) es _ hD hlt hR0 hlen' d a b 1
      MAX_CUR_NUMBER hab hdist hfin (by omega)
  have hd0 : d ≠ 0 := by
    have h4 := hD.2.2.2.1 a b hab
    rw [hdist] at h4
    exact h4
  have hne : ((es.foldl foldEdge
      ⟨fun _ _ => defaultCell, s.rates ++ [0], dist0⟩).tbl a b).nextCur ≠
      MAX_CUR_NUMBER := by
    obtain ⟨l, hvpl, hendl, hlenl, hheadl⟩ :=
      hD.2.2.2.2.2.2.1 a b hab hfin
    rw [hdist] at hlenl
    cases l with
    | nil =>
      simp at hlenl
      omega
    | cons x rest =>
      have hx : x = ((es.foldl foldEdge
          ⟨fun _ _ => defaultCell, s.rates ++ [0], dist0⟩).tbl a b).nextCur :=
        by simpa using hheadl
      have hxM : x < MAX_CUR_NUMBER := (adjE_lt hlt hvpl.1).2
      rw [← hx]
      omega
  have hconv := dense_convert_eq _ v a b (1 * pathProd es a p) hne hwalk
  refine ⟨p, hvp, hend, ?_, ?_⟩
  · rw [hlenp]
    exact hd
  · show Converter.convert
      ⟨(es.foldl foldEdge
          ⟨fun _ _ => defaultCell, s.rates ++ [0], dist0⟩).tbl,
        (es.foldl foldEdge
          ⟨fun _ _ => defaultCell, s.rates ++ [0], dist0⟩).rates⟩ v a b =
      some (v * pathProd es a p)
    rw [hconv, one_mul, mul_comm]

theorem upd1_eval {α : Type} (f : ℕ → α) (a : ℕ) (v : α) :
    upd1 f a v a = v := by
  unfold upd1
  rw [if_pos rfl]

theorem keyed_countKey_pos {row : Row} {t : ℕ} (h : keyed row t) :
    Row.countKey row t ≠ 0 := by
  obtain ⟨c, hc⟩ := keyed_exists h
  have hmem : (t, c) ∈ List.filter (fun p => p.1 = t) row :=
    List.mem_filter.mpr ⟨lookup_mem hc, by simp⟩
  unfold Row.countKey
  intro h0
  rcases h2 : List.filter (fun p => p.1 = t) row with _ | ⟨q, rest⟩
  · rw [h2] at hmem
    exact absurd hmem (List.not_mem_nil _)
  · rw [h2] at h0
    simp at h0

theorem bfsDirect_rates :
    ∀ (es : List ConvertRate) (pr : (ℕ → Row) × List ℚ),
      (es.foldl bfsDirect pr).2 = pr.2 ++ es.map ConvertRate.rateFn := by
  intro es
  induction es with
  | nil =>
    intro pr
    simp
  | cons e rest ih =>
    intro pr
    rw [List.foldl_cons, ih]
    show (pr.2 ++ [e.rateFn]) ++ rest.map ConvertRate.rateFn = _
    simp

theorem bfsDirect_paths (pr : (ℕ → Row) × List ℚ) (e : ConvertRate) :
    (bfsDirect pr e).1 =
      upd1 (upd1 pr.1 e.«from»
          (Row.store (pr.1 e.«from») e.«to» ⟨toInt32 pr.2.length, e.«to»⟩))
        e.«to»
        (Row.store ((upd1 pr.1 e.«from»
            (Row.store (pr.1 e.«from») e.«to»
              ⟨toInt32 pr.2.length, e.«to»⟩)) e.«to»)
          e.«from» ⟨-toInt32 pr.2.length, e.«from»⟩) := rfl

theorem bfsDirect_lookup (pr : (ℕ → Row) × List ℚ) (e : ConvertRate)
    (i j : ℕ) :
    Row.lookup ((bfsDirect pr e).1 i) j =
      if e.«to» = i ∧ e.«from» = j then
        some ⟨-toInt32 pr.2.length, e.«from»⟩
      else if e.«from» = i ∧ e.«to» = j then
        some ⟨toInt32 pr.2.length, e.«to»⟩
      else Row.lookup (pr.1 i) j := by
  rw [bfsDirect_paths]
  by_cases h1 : i = e.«to»
  · subst h1
    rw [upd1_eval]
    rw [Row.lookup_store]
    by_cases h2 : j = e.«from»
    · subst h2
      rw [if_pos rfl, if_pos ⟨rfl, rfl⟩]
    · rw [if_neg h2, if_neg (fun hc => h2 hc.2.symm),
        if_neg (show ¬(e.«from» = e.«to» ∧ e.«to» = j) from
          fun hc => h2 (hc.2.symm.trans hc.1.symm))]
      by_cases h3 : e.«to» = e.«from»
      · rw [h3, upd1_eval, Row.lookup_store, if_neg h2]
      · rw [upd1_ne _ _ _ h3]
  · rw [upd1_ne _ _ _ h1]
    rw [if_neg (fun hc => h1 hc.1.symm)]
    by_cases h4 : i = e.«from»
    · subst h4
      rw [upd1_eval, Row.lookup_store]
      by_cases h5 : j = e.«to»
      · subst h5
        rw [if_pos rfl, if_pos ⟨rfl, rfl⟩]
      · rw [if_neg h5, if_neg (fun hc => h5 hc.2.symm)]
    · rw [upd1_ne _ _ _ h4]
      rw [if_neg (fun hc => h4 hc.1.symm)]

theorem direct_directIntact (es : List ConvertRate) :
    DirectIntact es
      (es.foldl bfsDirect ((fun _ => []), ([0] : List ℚ))).1 := by
  induction es using List.reverseRecOn with
  | nil =>
    intro i j hadj
    obtain ⟨e, he, -⟩ := hadj
    exact absurd he (List.not_mem_nil e)
  | append_singleton l e ih =>
    intro i j hadj
    rw [List.foldl_append, List.foldl_cons, List.foldl_nil]
    rw [bfsDirect_lookup, dSigned_append]
    have hlen2 :
        (l.foldl bfsDirect ((fun _ => []), ([0] : List ℚ))).2.length =
          1 + l.length := by
      rw [bfsDirect_rates]
      simp
      omega
    rw [hlen2]
    by_cases hb : e.«to» = i ∧ e.«from» = j
    · rw [if_pos hb, if_pos hb, hb.2]
    · rw [if_neg hb, if_neg hb]
      by_cases hf : e.«from» = i ∧ e.«to» = j
      · rw [if_pos hf, if_pos hf, hf.2]
      · rw [if_neg hf, if_neg hf]
        refine ih i j ?_
        obtain ⟨e2, he2, hor⟩ := hadj
        rcases List.mem_append.mp he2 with h | h
        · exact ⟨e2, h, hor⟩
        · have he3 : e2 = e := List.mem_singleton.mp h
          subst he3
          rcases hor with ⟨h1, h2⟩ | ⟨h1, h2⟩
          · exact absurd ⟨h1, h2⟩ hf
          · exact absurd ⟨h2, h1⟩ hb

theorem markFold_fr (fr : ℕ) :
    ∀ (r : Row) (v : ℕ → ℕ) (x : ℕ),
      (v x = fr ∨ ∃ p ∈ r, p.1 = x) →
      (List.foldl (fun v (p : ℕ × Cell) => upd1 v p.1 fr) v r) x = fr := by
  intro r
  induction r with
  | nil =>
    intro v x h
    rcases h with h | ⟨p, hp, -⟩
    · exact h
    · exact absurd hp (List.not_mem_nil p)
  | cons p rest ih =>
    intro v x h
    rw [List.foldl_cons]
    refine ih _ x ?_
    rcases h with h | ⟨q, hq, hqx⟩
    · left
      show (upd1 v p.1 fr) x = fr
      by_cases hx : x = p.1
      · rw [hx, upd1_eval]
      · rw [upd1_ne _ _ _ hx]
        exact h
    · rcases List.mem_cons.mp hq with h2 | h2
      · left
        rw [← hqx, h2, upd1_eval]
      · exact Or.inr ⟨q, h2, hqx⟩

theorem scan_directIntact (es : List ConvertRate) (fr start : ℕ)
    (cells : Row) :
    ∀ (st : (ℕ → Row) × (ℕ → ℕ) × List NextCur),
      DirectIntact es st.1 → (∀ j, adjE es fr j → st.2.1 j = fr) →
      DirectIntact es (bfsScan fr start cells st).1 ∧
        (∀ j, adjE es fr j → (bfsScan fr start cells st).2.1 j = fr) := by
  unfold bfsScan
  induction cells with
  | nil =>
    intro st h1 h2
    exact ⟨h1, h2⟩
  | cons p rest ih =>
    intro st h1 h2
    rw [List.foldl_cons]
    by_cases hm : st.2.1 p.2.nextCur ≠ fr
    · have hstep : bfsScanStep fr start st p =
          (upd1 st.1 fr
            (Row.store (st.1 fr) p.2.nextCur ⟨Cell.norate, start⟩),
           upd1 st.2.1 p.2.nextCur fr,
           st.2.2 ++ [(p.2.nextCur, start)]) := by
        unfold bfsScanStep
        rw [if_pos hm]
      rw [hstep]
      refine ih _ ?_ ?_
      · intro a b hadj
        show Row.lookup ((upd1 st.1 fr
          (Row.store (st.1 fr) p.2.nextCur ⟨Cell.norate, start⟩)) a) b = _
        by_cases haf : a = fr
        · subst haf
          rw [upd1_eval, Row.lookup_store,
            if_neg (show ¬ b = p.2.nextCur from by
              intro hbe
              rw [← hbe] at hm
              exact hm (h2 b hadj))]
          exact h1 a b hadj
        · rw [upd1_ne _ _ _ haf]
          exact h1 a b hadj
      · intro j hj
        show (upd1 st.2.1 p.2.nextCur fr) j = fr
        by_cases hjn : j = p.2.nextCur
        · rw [hjn, upd1_eval]
        · rw [upd1_ne _ _ _ hjn]
          exact h2 j hj
    · have hstep : bfsScanStep fr start st p = st := by
        unfold bfsScanStep
        rw [if_neg hm]
      rw [hstep]
      exact ih st h1 h2

theorem bfsLoop_directIntact (es : List ConvertRate) (fr : ℕ) :
    ∀ (fuel : ℕ) (Q : List NextCur) (st : (ℕ → Row) × (ℕ → ℕ)),
      DirectIntact es st.1 → (∀ j, adjE es fr j → st.2 j = fr) →
      DirectIntact es (bfsLoop fr st Q fuel).1 := by
  intro fuel
  induction fuel with
  | zero =>
    intro Q st h1 h2
    cases Q with
    | nil => exact h1
    | cons nx rest => exact h1
  | succ f ih =>
    intro Q st h1 h2
    cases Q with
    | nil => exact h1
    | cons nx rest =>
      have hstep : bfsLoop fr st (nx :: rest) (f + 1) =
          bfsLoop fr
            ((bfsScan fr nx.2 (st.1 nx.1) (st.1, upd1 st.2 nx.1 fr, [])).1,
             (bfsScan fr nx.2 (st.1 nx.1)
               (st.1, upd1 st.2 nx.1 fr, [])).2.1)
            (rest ++ (bfsScan fr nx.2 (st.1 nx.1)
              (st.1, upd1 st.2 nx.1 fr, [])).2.2) f := rfl
      rw [hstep]
      obtain ⟨g1, g2⟩ := scan_directIntact es fr nx.2 (st.1 nx.1)
        (st.1, upd1 st.2 nx.1 fr, []) h1 (fun j hj => by
          show (upd1 st.2 nx.1 fr) j = fr
          by_cases hjn : j = nx.1
          · rw [hjn, upd1_eval]
          · rw [upd1_ne _ _ _ hjn]
            exact h2 j hj)
      exact ih _ _ g1 g2

theorem bfsSource_directIntact (es : List ConvertRate) (P : ℕ → Row)
    (V : ℕ → ℕ) (fr : ℕ) (hDI : DirectIntact es P) :
    DirectIntact es (bfsSource P V fr).1 := by
  refine bfsLoop_directIntact es fr _ _ _ hDI ?_
  intro j hadj
  show (List.foldl (fun v (p : ℕ × Cell) => upd1 v p.1 fr)
    (upd1 V fr fr) (P fr)) j = fr
  refine markFold_fr fr (P fr) (upd1 V fr fr) j ?_
  by_cases hjf : j = fr
  · left
    rw [hjf, upd1_eval]
  · right
    have hc := hDI fr j hadj
    exact ⟨(j, ⟨dSigned 1 es fr j, j⟩), lookup_mem hc, rfl⟩

theorem init_directIntact (es : List ConvertRate) :
    DirectIntact es
      (pathsOf (natFold (fun fr (st : (ℕ → Row) × (ℕ → ℕ)) =>
          bfsSource st.1 st.2 fr) MAX_CUR_NUMBER
        ((es.foldl bfsDirect ((fun _ => []), ([0] : List ℚ))).1,
         fun _ => MAX_CUR_NUMBER))) := by
  refine natFold_invariant (fun st => DirectIntact es (pathsOf st))
    (fun fr (st : (ℕ → Row) × (ℕ → ℕ)) => bfsSource st.1 st.2 fr)
    MAX_CUR_NUMBER _ (direct_directIntact es) ?_
  intro i st hi h
  exact bfsSource_directIntact es st.1 st.2 i h

theorem bfs_walk (es : List ConvertRate) (P : ℕ → Row) (rs : List ℚ)
    (hlt : ∀ e ∈ es, e.«from» < MAX_CUR_NUMBER ∧ e.«to» < MAX_CUR_NUMBER)
    (hFH : ∀ s p, p ∈ P s → p.1 = s ∨ ∃ l, IsMinHops es s p.1 l ∧
      adjE es s p.2.nextCur ∧ PathN es p.2.nextCur p.1 (l - 1))
    (hCompl : ∀ s, s < MAX_CUR_NUMBER → ∀ t, Reach es s t → t ≠ s →
      keyed (P s) t)
    (hDI : DirectIntact es P)
    (hrs : rs = [0] ++ es.map ConvertRate.rateFn)
    (hlen : 1 + es.length < 2 ^ 31) :
    ∀ (d : ℕ), ∀ (prev b : ℕ) (tot : ℚ) (fuel : ℕ), prev ≠ b →
      IsMinHops es prev b d → d ≤ fuel →
      ∃ p, IsVertexPath es prev p ∧ pathEnd prev p = b ∧ p.length = d ∧
        (BFSConverter.walk rs b P prev tot fuel).1 =
          some (tot * pathProd es prev p) := by
  intro d
  induction d using Nat.strong_induction_on with
  | _ d ih =>
    intro prev b tot fuel hpb hmh hfuel
    have hd1 : 1 ≤ d := by
      rcases Nat.eq_zero_or_pos d with h0 | h
      · rw [h0] at hmh
        exact absurd (pathN_zero hmh.1) hpb
      · exact h
    have hprevM : prev < MAX_CUR_NUMBER :=
      (reach_lt_MAX hlt ⟨d, hmh.1⟩ hpb).1
    obtain ⟨c, hc⟩ := keyed_exists
      (hCompl prev hprevM b ⟨d, hmh.1⟩ (fun hcc => hpb hcc.symm))
    rcases hFH prev (b, c) (lookup_mem hc) with hself |
      ⟨l, hlm, hadjn, hpath⟩
    · exact absurd hself.symm hpb
    · have hadjn2 : adjE es prev c.nextCur := hadjn
      have hld : l = d := by
        have h1 := hlm.2 d hmh.1
        have h2 := hmh.2 l hlm.1
        omega
      have hpath3 : PathN es c.nextCur b (d - 1) := by
        have hp3 : PathN es c.nextCur b (l - 1) := hpath
        rw [hld] at hp3
        exact hp3
      have hc2 := hDI prev c.nextCur hadjn2
      have hst : stepTotal rs
          ((⟨dSigned 1 es prev c.nextCur, c.nextCur⟩ : Cell).rateId) tot =
          tot * (lastQuote es prev c.nextCur).getD 0 := by
        show stepTotal rs (dSigned 1 es prev c.nextCur) tot = _
        rw [hrs]
        exact stepTotal_dSigned prev c.nextCur tot es [0] (by simp)
          (by simpa using hlen) hadjn2
      cases fuel with
      | zero => omega
      | succ f =>
        by_cases hnb : c.nextCur = b
        · have hd1' : d = 1 := by
            have hle1 := hmh.2 1 (PathN.cons (show adjE es prev b from by
              rw [← hnb]; exact hadjn2) (PathN.refl b))
            omega
          refine ⟨[b], ⟨by rw [← hnb]; exact hadjn2, trivial⟩, ?_, ?_, ?_⟩
          · have h1 : pathEnd prev [b] = pathEnd b [] :=
              List.getLastD_cons prev b []
            rw [h1]
            rfl
          · simp [hd1']
          · rw [BFSConverter.walk_succ_bfs, Row.index_keyed hc,
              show ((c, P prev).1 : Cell) = c from rfl,
              show ((c, P prev).2 : Row) = P prev from rfl,
              upd1_self, Row.index_keyed hc2,
              show ((((⟨dSigned 1 es prev c.nextCur, c.nextCur⟩ : Cell),
                P prev)).1 : Cell) =
                ⟨dSigned 1 es prev c.nextCur, c.nextCur⟩ from rfl,
              show ((((⟨dSigned 1 es prev c.nextCur, c.nextCur⟩ : Cell),
                P prev)).2 : Row) = P prev from rfl,
              upd1_self, if_pos hnb]
            show some (stepTotal rs
              ((⟨dSigned 1 es prev c.nextCur, c.nextCur⟩ : Cell).rateId)
              tot) = some (tot * pathProd es prev [b])
            rw [hst, ← hnb,
              show pathProd es prev [c.nextCur] =
                (lastQuote es prev c.nextCur).getD 0 * 1 from rfl, mul_one]
        · obtain ⟨d', hd'⟩ := reach_minHops ⟨d - 1, hpath3⟩
          have hub : d' ≤ d - 1 := hd'.2 (d - 1) hpath3
          have hlb : d ≤ d' + 1 := hmh.2 (d' + 1) (PathN.cons hadjn2 hd'.1)
          have hd'eq : d' = d - 1 := by omega
          have hmh2 : IsMinHops es c.nextCur b (d - 1) := by
            rw [← hd'eq]
            exact hd'
          obtain ⟨p', hvp', hend', hlen', hwalk'⟩ :=
            ih (d - 1) (by omega) c.nextCur b
              (tot * (lastQuote es prev c.nextCur).getD 0) f hnb hmh2
              (by omega)
          refine ⟨c.nextCur :: p', ⟨hadjn2, hvp'⟩, ?_, ?_, ?_⟩
          · have hcons : pathEnd prev (c.nextCur :: p') =
                pathEnd c.nextCur p' :=
              List.getLastD_cons prev c.nextCur p'
            rw [hcons]
            exact hend'
          · show p'.length + 1 = d
            omega
          · rw [BFSConverter.walk_succ_bfs, Row.index_keyed hc,
              show ((c, P prev).1 : Cell) = c from rfl,
              show ((c, P prev).2 : Row) = P prev from rfl,
              upd1_self, Row.index_keyed hc2,
              show ((((⟨dSigned 1 es prev c.nextCur, c.nextCur⟩ : Cell),
                P prev)).1 : Cell) =
                ⟨dSigned 1 es prev c.nextCur, c.nextCur⟩ from rfl,
              show ((((⟨dSigned 1 es prev c.nextCur, c.nextCur⟩ : Cell),
                P prev)).2 : Row) = P prev from rfl,
              upd1_self, if_neg hnb]
            show (BFSConverter.walk rs b P c.nextCur
              (stepTotal rs
                ((⟨dSigned 1 es prev c.nextCur, c.nextCur⟩ : Cell).rateId)
                tot) f).1 =
              some (tot * pathProd es prev (c.nextCur :: p'))
            rw [hst, hwalk',
              show pathProd es prev (c.nextCur :: p') =
                (lastQuote es prev c.nextCur).getD 0 *
                  pathProd es c.nextCur p' from rfl, mul_assoc]

theorem bfs_convert_eq (s : BFSConverter) (v : ℚ) (a b : ℕ)
    (h1 : Row.countKey (s.mPaths a) b ≠ 0) (h2 : a ≠ b) :
    (BFSConverter.convert s v a b).1 =
      (BFSConverter.walk s.mRates b s.mPaths a 1 MAX_CUR_NUMBER).1.map
        (fun tot => tot * v) := by
  unfold BFSConverter.convert
  rw [if_neg h1, if_neg h2]

theorem bfs_minhop_conv (es : List ConvertRate) (P : ℕ → Row)
    (rs : List ℚ) (v : ℚ) (a b : ℕ)
    (hlt : ∀ e ∈ es, e.«from» < MAX_CUR_NUMBER ∧ e.«to» < MAX_CUR_NUMBER)
    (hFH : ∀ s p, p ∈ P s → p.1 = s ∨ ∃ l, IsMinHops es s p.1 l ∧
      adjE es s p.2.nextCur ∧ PathN es p.2.nextCur p.1 (l - 1))
    (hCompl : ∀ s, s < MAX_CUR_NUMBER → ∀ t, Reach es s t → t ≠ s →
      keyed (P s) t)
    (hDI : DirectIntact es P)
    (hrs : rs = [0] ++ es.map ConvertRate.rateFn)
    (hlen : 1 + es.length < 2 ^ 31)
    (hr : Reach es a b) (hab : a ≠ b) :
    ∃ p, IsVertexPath es a p ∧ pathEnd a p = b ∧
      IsMinHops es a b p.length ∧
      (BFSConverter.convert ⟨P, rs⟩ v a b).1 =
        some (v * pathProd es a p) := by
  obtain ⟨d, hd⟩ := reach_minHops hr
  have haM : a < MAX_CUR_NUMBER := (reach_lt_MAX hlt hr hab).1
  have hM : MAX_CUR_NUMBER = 2000 := rfl
  have hdM : d < MAX_CUR_NUMBER := minHops_lt_MAX hlt haM hd
  obtain ⟨p, hvp, hend, hlenp, hwalk⟩ :=
    bfs_walk es P rs hlt hFH hCompl hDI hrs hlen d a b 1 MAX_CUR_NUMBER
      hab hd (by omega)
  have hkey : keyed (P a) b := hCompl a haM b hr (fun hc => hab hc.symm)
  have hconv := bfs_convert_eq ⟨P, rs⟩ v a b
    (show Row.countKey ((⟨P, rs⟩ : BFSConverter).mPaths a) b ≠ 0 from
      keyed_countKey_pos hkey) hab
  refine ⟨p, hvp, hend, ?_, ?_⟩
  · rw [hlenp]
    exact hd
  · rw [hconv]
    show (BFSConverter.walk rs b P a 1 MAX_CUR_NUMBER).1.map
      (fun tot => tot * v) = some (v * pathProd es a p)
    rw [hwalk]
    show some (1 * pathProd es a p * v) = some (v * pathProd es a p)
    rw [one_mul, mul_comm]

theorem bfs_minhop (es : List ConvertRate) (v : ℚ) (a b : ℕ)
    (hlt : ∀ e ∈ es, e.«from» < MAX_CUR_NUMBER ∧ e.«to» < MAX_CUR_NUMBER)
    (hlen : es.length + 1 < 2 ^ 31)
    (hr : Reach es a b) (hab : a ≠ b) :
    ∃ p, IsVertexPath es a p ∧ pathEnd a p = b ∧
      IsMinHops es a b p.length ∧
      (BFSConverter.convert (BFSConverter.init BFSConverter.mkNew es)
        v a b).1 = some (v * pathProd es a p) := by
  have hinit : BFSConverter.init BFSConverter.mkNew es =
      ⟨pathsOf (natFold (fun fr (st : (ℕ → Row) × (ℕ → ℕ)) =>
          bfsSource st.1 st.2 fr) MAX_CUR_NUMBER
        ((es.foldl bfsDirect ((fun _ => []), ([0] : List ℚ))).1,
         fun _ => MAX_CUR_NUMBER)),
       (es.foldl bfsDirect ((fun _ => []), ([0] : List ℚ))).2⟩ := rfl
  rw [hinit]
  exact bfs_minhop_conv es _ _ v a b hlt
    (init_foldLvl es hlt).2.2.2.2.2.2.2 (init_srcInv es hlt).2.2.2.2.2
    (init_directIntact es) (bfsDirect_rates es _) (by omega) hr hab

/-- **C1** (amended): restricted to `from ≠ to` the universal clause
holds — for every in-range edge set and every connected pair `(a, b)` with
`a ≠ b`, both implementations return the amount multiplied by the product
of the quoted rates (or their inverses) along a path with the minimum
number of hops — and the reference scenario holds as stated: on the edge
set `{(0,1,2),(1,2,3),(2,3,4),(4,3,5),(0,4,6)}` both implementations give
`convert(100, 0, 3) = 3000` via the 2-hop path `0 → 4 → 3` and
`convert(3000, 3, 0) = 100`.  Only the self-pair instance of the original
clause fails (see the counterexample). -/
theorem C1_minhop_product : C1Amended := by
  refine ⟨?_, ?_, denseRef_forward, denseRef_backward, bfsRef_forward,
    bfsRef_backward⟩
  · intro es s v a b hlt hlen haM hbM hr hab
    exact dense_minhop s es v a b hlt hlen hr hab
  · intro es v a b hlt hlen haM hbM hr hab
    exact bfs_minhop es v a b hlt hlen hr hab

theorem C1_minhop_product_witness :
    ∃ p, IsVertexPath oneEdge 0 p ∧ pathEnd 0 p = 1 ∧
      IsMinHops oneEdge 0 1 p.length ∧
      Converter.convert (Converter.init Converter.mkNew oneEdge) 100 0 1 =
        some (100 * pathProd oneEdge 0 p) :=
  C1_minhop_product.1 oneEdge Converter.mkNew 100 0 1 (by decide)
    (by decide) (by decide) (by decide)
    ⟨1, PathN.cons ⟨⟨0, 1, 2⟩, List.mem_singleton.mpr rfl,
      Or.inl ⟨rfl, rfl⟩⟩ (PathN.refl 1)⟩
    (by decide)
